import Mathlib

/-!
# Minimum-weight perfect matching solvers

A shallow embedding of the three exact solvers of the repository

* `bruteForceMatching` (`src/algorithms/brute_force.h`),
* `stateDPMatching` (`src/algorithms/state_dp.h`),
* `intervalDPMatching` (`src/algorithms/interval_dp.h`),

followed by theorems about them.

Conventions of the embedding.

* `int` and `long long` values are mathematical integers (`Int`); every
  `long long` addition of the source is followed by `wrap64`, the two's
  complement wrap-around of a 64-bit machine.
* A `std::vector<std::vector<long long>>` is a `List (List Int)`; `entry`
  reads `dist[u][v]`.
* A call whose C++ behaviour is undefined, or which cannot build its
  tables, yields `none`; a returned value `v` is `some v`.
* `double` values are elements of an arbitrary linearly ordered field `K`
  (exact arithmetic, for instance the real numbers); `std::sqrt` is a
  parameter of the interval solver.
-/

namespace OddMatching

/-! ## Machine integers and matrices -/

/-- The constant `LLONG_MAX` of `<climits>`, that is `2^63 - 1`. -/
def LLONG_MAX : Int := 2 ^ 63 - 1

/-- Two's complement wrap-around of an integer into the range of `long long`. -/
def wrap64 (x : Int) : Int := (x + 2 ^ 63) % 2 ^ 64 - 2 ^ 63

/-- The values a `long long` can hold. -/
def IsLongLong (x : Int) : Prop := -(2 ^ 63) ≤ x ∧ x ≤ 2 ^ 63 - 1

instance (x : Int) : Decidable (IsLongLong x) := by
  unfold IsLongLong; infer_instance

/-- A cost matrix, `std::vector<std::vector<long long>>`. -/
abbrev CostMatrix := List (List Int)

/-- The read `dist[u][v]`.  Every theorem about a computed cost is stated for
indices inside the matrix; outside it the C++ read is undefined and the
embedding reads `0`. -/
def entry (dist : CostMatrix) (u v : Nat) : Int := (dist.getD u []).getD v 0

/-- A matrix with `n` rows of `n` entries each. -/
def IsSquare (n : Nat) (dist : CostMatrix) : Prop :=
  dist.length = n ∧ ∀ row ∈ dist, row.length = n

instance (n : Nat) (dist : CostMatrix) : Decidable (IsSquare n dist) := by
  unfold IsSquare; infer_instance

/-- Symmetry `dist[u][v] = dist[v][u]` on the indices below `n`. -/
def IsSymmetric (n : Nat) (dist : CostMatrix) : Prop :=
  ∀ u, u < n → ∀ v, v < n → entry dist u v = entry dist v u

instance (n : Nat) (dist : CostMatrix) : Decidable (IsSymmetric n dist) := by
  unfold IsSymmetric; infer_instance

/-- All entries with indices below `n` are non-negative. -/
def IsNonneg (n : Nat) (dist : CostMatrix) : Prop :=
  ∀ u, u < n → ∀ v, v < n → 0 ≤ entry dist u v

instance (n : Nat) (dist : CostMatrix) : Decidable (IsNonneg n dist) := by
  unfold IsNonneg; infer_instance

/-! ## Matchings -/

/-- The vertices covered by a list of pairs, in order. -/
def flattenPairs : List (Nat × Nat) → List Nat
  | [] => []
  | (a, b) :: rest => a :: b :: flattenPairs rest

/-- A perfect matching of `{0, ..., n-1}`: a list of pairs that covers every
index exactly once. -/
def IsPerfectMatching (n : Nat) (M : List (Nat × Nat)) : Prop :=
  (flattenPairs M).Perm (List.range n)

instance (n : Nat) (M : List (Nat × Nat)) : Decidable (IsPerfectMatching n M) := by
  unfold IsPerfectMatching; infer_instance

/-- The cost of a matching: the sum of `dist[a][b]` over its pairs. -/
def matchingCost (dist : CostMatrix) : List (Nat × Nat) → Int
  | [] => 0
  | (a, b) :: rest => entry dist a b + matchingCost dist rest

/-- The value `r` is the minimum of `matchingCost` over the perfect matchings
of `{0, ..., n-1}`. -/
def IsMinMatchingCost (n : Nat) (dist : CostMatrix) (r : Int) : Prop :=
  (∃ M, IsPerfectMatching n M ∧ matchingCost dist M = r) ∧
  ∀ M, IsPerfectMatching n M → r ≤ matchingCost dist M

/-- Consecutive elements of a list taken two by two: positions `0 & 1`, `2 & 3`, ... -/
def pairUp : List Nat → List (Nat × Nat)
  | a :: b :: rest => (a, b) :: pairUp rest
  | _ => []

/-- The pairs of `M` cover, each index once, exactly the indices below `m` whose
bit is set in `S`. -/
def Covers (m : Nat) (M : List (Nat × Nat)) (S : Nat) : Prop :=
  (flattenPairs M).Nodup ∧ ∀ v, v ∈ flattenPairs M ↔ (v < m ∧ S.testBit v = true)

/-- The cost of a list of pairs when each pair `{a, b}` is read in the upper
triangle of the matrix, as `dist[min a b][max a b]`. -/
def upperCost (dist : CostMatrix) : List (Nat × Nat) → Int
  | [] => 0
  | (a, b) :: rest => entry dist (min a b) (max a b) + upperCost dist rest

/-- The value `r` is the minimum of `upperCost` over the perfect matchings of
`{0, ..., n-1}`. -/
def IsMinUpperCost (n : Nat) (dist : CostMatrix) (r : Int) : Prop :=
  (∃ M, IsPerfectMatching n M ∧ upperCost dist M = r) ∧
  ∀ M, IsPerfectMatching n M → r ≤ upperCost dist M

/-- Two lists of pairs have the same pairs, up to the order of the list and the
order inside a pair. -/
def SamePairs (M N : List (Nat × Nat)) : Prop :=
  ∀ a b, ((a, b) ∈ M ∨ (b, a) ∈ M) ↔ ((a, b) ∈ N ∨ (b, a) ∈ N)

/-- The ways to split the vertices `vs` into pairs, each way written once: the first
vertex is paired with each of the others in turn and the remaining vertices
are split in the same way.  The first argument bounds the number of pairs. -/
def pairings : Nat → List Nat → List (List (Nat × Nat))
  | _, [] => [[]]
  | 0, _ :: _ => []
  | fuel + 1, a :: rest =>
    rest.flatMap fun b => (pairings fuel (rest.erase b)).map fun s => (a, b) :: s

/-- The product `(n - 1) * (n - 3) * ... * 1` of the odd numbers below an even `n`. -/
def oddProduct (n : Nat) : Nat := ((List.range (n / 2)).map fun t => 2 * t + 1).prod

/-! ## Brute force (`brute_force.h`) -/

/-- In a list, put `a` in the place of the first element greater than `a` and
return that element together with the new list; `none` when no element is
greater than `a`. -/
def swapFirstGreater (a : Nat) : List Nat → Option (Nat × List Nat)
  | [] => none
  | c :: cs =>
    if a < c then some (c, a :: cs)
    else
      match swapFirstGreater a cs with
      | some (b, cs') => some (b, c :: cs')
      | none => none

/-- The library function `std::next_permutation` on a range: `some p` when it
returns `true` and leaves `p` in the range, `none` when it returns `false`.
The standard algorithm finds the last position whose element is smaller than
its right neighbour, swaps it with the last element of the range greater than
it and reverses the part behind that position.  Here the position is found by
the recursion (the part behind it is the longest suffix without a successor),
and swapping with the last greater element before reversing is the same as
reversing and swapping with the first greater element. -/
def nextPermutation : List Nat → Option (List Nat)
  | [] => none
  | a :: rest =>
    match nextPermutation rest with
    | some rest' => some (a :: rest')
    | none =>
      match swapFirstGreater a rest.reverse with
      | some (b, rest') => some (b :: rest')
      | none => none

/-- The inner `for` loop of `bruteForceMatching`, lines 55-60: reads the
vertices two by two and adds `dist[u][v]` to `currentCost`.  The loop runs on
an even number of vertices, none is left over. -/
def pairingCost (dist : CostMatrix) : Int → List Nat → Int
  | currentCost, u :: v :: rest => pairingCost dist (wrap64 (currentCost + entry dist u v)) rest
  | currentCost, _ => currentCost

/-- The `do ... while` loop of `bruteForceMatching`, lines 51-64, run for at most
`fuel` iterations of its body.  The loop condition calls
`std::next_permutation(vertices.begin() + 1, vertices.end())`: on an empty
vector `begin() + 1` lies behind `end()`, the range is invalid and the call
is undefined (`none`). -/
def bruteLoop (dist : CostMatrix) : Nat → List Nat → Int → Option Int
  | 0, _, _ => none
  | fuel + 1, vertices, minCost =>
    let currentCost := pairingCost dist 0 vertices
    let minCost := if currentCost < minCost then currentCost else minCost
    match vertices with
    | [] => none
    | v0 :: rest =>
      match nextPermutation rest with
      | some rest' => bruteLoop dist fuel (v0 :: rest') minCost
      | none => some minCost

/-- The successive contents of `vertices` at the start of each iteration of the
`do ... while` loop of `bruteForceMatching`, for at most `fuel` iterations. -/
def arrangements : Nat → List Nat → List (List Nat)
  | 0, _ => []
  | fuel + 1, vertices =>
    vertices ::
      match vertices with
      | [] => []
      | v0 :: rest =>
        match nextPermutation rest with
        | some rest' => arrangements fuel (v0 :: rest')
        | none => []

/-- From `p`, successive calls of `nextPermutation` return `true` and produce the
lists of `L` one after the other, the last of them `q`. -/
def Steps : List Nat → List (List Nat) → List Nat → Prop
  | p, [], q => p = q
  | p, r :: L, q => nextPermutation p = some r ∧ Steps r L q

/-- The arrangements of a list `s` of `k` elements in the order in which the first
differing position decides, the candidates for a position taken in the order
of `s`. -/
def lexPerms : Nat → List Nat → List (List Nat)
  | 0, _ => [[]]
  | k + 1, s => s.flatMap fun x => (lexPerms k (s.erase x)).map fun p => x :: p

/-- The vertex sequence `p`, read two by two, has the same pairs as the matching
`M`, up to the order inside a pair. -/
def Represents (p : List Nat) (M : List (Nat × Nat)) : Prop :=
  ∀ a b, (a, b) ∈ M → (a, b) ∈ pairUp p ∨ (b, a) ∈ pairUp p

/-- The function `bruteForceMatching(n, dist)` with a bound `fuel` on the number of
iterations of its loop.  `n % 2` is the truncating remainder of C++.  A
negative `n` cannot size the vector `vertices` (`none`). -/
def bruteForceMatchingFuel (fuel : Nat) (n : Int) (dist : CostMatrix) : Option Int :=
  if Int.tmod n 2 = 1 then some (-1)
  else if n < 0 then none
  else bruteLoop dist fuel (List.range n.toNat) LLONG_MAX

/-- The function `bruteForceMatching(n, dist)`.  The loop is given `n!` iterations; a
loop that has returned a value returns the same value with any larger
bound (`bruteLoop_fuel_mono`). -/
def bruteForceMatching (n : Int) (dist : CostMatrix) : Option Int :=
  bruteForceMatchingFuel (Nat.factorial n.toNat) n dist

/-- The loop `for (int i = n - 1; i > 0; i -= 2) result *= i` of `doubleFactorial`, at
the value `i` of the counter, run for at most `fuel` iterations; the product of
the `long long` by the `int` wraps to 64 bits. -/
def doubleFactorialLoop : Nat → Int → Int → Int
  | 0, _, result => result
  | fuel + 1, i, result =>
    if 0 < i then doubleFactorialLoop fuel (i - 2) (wrap64 (result * i)) else result

/-- The function `doubleFactorial(n)`.  The counter starts at `n - 1` and falls by 2, so
the loop runs fewer than `n` times. -/
def doubleFactorial (n : Int) : Int := doubleFactorialLoop n.toNat (n - 1) 1

/-! ## Bitmask dynamic programming (`state_dp.h`) -/

/-- The test `mask & (1 << i)` of the source. -/
def bitSet (mask i : Nat) : Bool := mask &&& (1 <<< i) != 0

/-- The loop `while (i < m && (mask & (1 << i))) i++`, lines 46-48, started at
`i` and run for at most `fuel` steps. -/
def lowestUnsetFrom (m mask : Nat) : Nat → Nat → Nat
  | 0, i => i
  | fuel + 1, i => if i < m ∧ bitSet mask i then lowestUnsetFrom m mask fuel (i + 1) else i

/-- The index `i` after the `while` loop of lines 46-48 (it stops after at most
`m` steps). -/
def lowestUnset (m mask : Nat) : Nat := lowestUnsetFrom m mask m 0

/-- The read `dp[mask]`; every mask of the loop lies inside the table
(`newMask_lt_two_pow`, `tableAfter_length`). -/
def dpAt (dp : List Int) (mask : Nat) : Int := dp.getD mask 0

/-- One iteration of the loop over `j`, lines 53-66. -/
def relax (dist : CostMatrix) (mask i : Nat) (dp : List Int) (j : Nat) : List Int :=
  if bitSet mask j then dp
  else
    let newMask := mask ||| (1 <<< i) ||| (1 <<< j)
    let newCost := wrap64 (dpAt dp mask + entry dist i j)
    if newCost < dpAt dp newMask then dp.set newMask newCost else dp

/-- One iteration of the loop over `mask`, lines 40-67. -/
def processMask (m : Nat) (dist : CostMatrix) (dp : List Int) (mask : Nat) : List Int :=
  if dpAt dp mask = LLONG_MAX then dp
  else
    let i := lowestUnset m mask
    if m ≤ i then dp
    else (List.range' (i + 1) (m - (i + 1))).foldl (relax dist mask i) dp

/-- The table `dp` as created in lines 36-37. -/
def initialTable (m : Nat) : List Int := (List.replicate (1 <<< m) LLONG_MAX).set 0 0

/-- The table `dp` after the loop has processed the masks `0, ..., k-1`. -/
def tableAfter (m : Nat) (dist : CostMatrix) (k : Nat) : List Int :=
  (List.range k).foldl (processMask m dist) (initialTable m)

/-- The table `dp` when the loop of lines 40-67 is over. -/
def finalTable (m : Nat) (dist : CostMatrix) : List Int :=
  tableAfter m dist ((1 <<< m) - 1 + 1)

/-- The function `stateDPMatching(m, dist)`.  `m % 2` is the truncating remainder
of C++.  `1 << m` is undefined for negative `m` and overflows `int` from
`m = 31` on (`none`). -/
def stateDPMatching (m : Int) (dist : CostMatrix) : Option Int :=
  if Int.tmod m 2 = 1 then some (-1)
  else if m < 0 ∨ 31 ≤ m then none
  else some (dpAt (finalTable m.toNat dist) ((1 <<< m.toNat) - 1))

/-- One execution of lines 58-59 of `state_dp.h`: the mask, the indices `i` and `j`,
the exact value of the sum `dp[mask] + dist[i][j]`, and whether the assignment
`dp[newMask] = newCost` of line 63 was executed. -/
structure Transition where
  mask : Nat
  i : Nat
  j : Nat
  sum : Int
  stored : Bool

/-- The value `newMask` of a transition. -/
def Transition.newMask (t : Transition) : Nat := t.mask ||| (1 <<< t.i) ||| (1 <<< t.j)

/-- The function `relax` with a record of the transition it computes: the table is
updated as in `relax`, and each computed sum is appended to the list. -/
def relaxLog (dist : CostMatrix) (mask i : Nat) (st : List Int × List Transition) (j : Nat) :
    List Int × List Transition :=
  if bitSet mask j then st
  else
    let newMask := mask ||| (1 <<< i) ||| (1 <<< j)
    let newCost := wrap64 (dpAt st.1 mask + entry dist i j)
    if newCost < dpAt st.1 newMask then
      (st.1.set newMask newCost, st.2 ++ [⟨mask, i, j, dpAt st.1 mask + entry dist i j, true⟩])
    else (st.1, st.2 ++ [⟨mask, i, j, dpAt st.1 mask + entry dist i j, false⟩])

/-- The function `processMask` with the record of its transitions. -/
def processMaskLog (m : Nat) (dist : CostMatrix) (st : List Int × List Transition)
    (mask : Nat) : List Int × List Transition :=
  if dpAt st.1 mask = LLONG_MAX then st
  else
    let i := lowestUnset m mask
    if m ≤ i then st
    else (List.range' (i + 1) (m - (i + 1))).foldl (relaxLog dist mask i) st

/-- The table `dp` and the transitions computed so far, after the loop has processed
the masks `0, ..., k-1`. -/
def logAfter (m : Nat) (dist : CostMatrix) (k : Nat) : List Int × List Transition :=
  (List.range k).foldl (processMaskLog m dist) (initialTable m, [])

/-- The table `dp` and all the transitions computed when the loop of lines 40-67 is
over. -/
def transitionLog (m : Nat) (dist : CostMatrix) : List Int × List Transition :=
  logAfter m dist ((1 <<< m) - 1 + 1)

/-- The transitions `(i, j)` that the loop computes when it comes to `mask` with the
table `dp`: none when `dp[mask]` is unreached (line 43) or when no index below `m` is
unset (line 50); otherwise `i` is the lowest unset index and `j` runs over the
unset indices above it (lines 53-56). -/
def stepsAt (m : Nat) (dp : List Int) (mask : Nat) : List (Nat × Nat) :=
  if dpAt dp mask = LLONG_MAX then []
  else if m ≤ lowestUnset m mask then []
  else
    ((List.range' (lowestUnset m mask + 1) (m - (lowestUnset m mask + 1))).filter
      fun j => !bitSet mask j).map fun j => (lowestUnset m mask, j)

/-- The transitions `(i, j)` out of `mask` in the record `log` of the loop, in the order in
which the loop has computed them. -/
def stepsFrom (log : List Transition) (mask : Nat) : List (Nat × Nat) :=
  (log.filter fun t => t.mask == mask).map fun t => (t.i, t.j)

/-- The sequences of transitions in the record `log` of the loop that lead from `mask`
to `fullMask = (1 << m) - 1`, each as the list of its pairs `(i, j)`: a sequence is
a chain of recorded transitions, each out of the `newMask` of the one before.
The first argument bounds the number of transitions. -/
def executedSeqs (m : Nat) (log : List Transition) : Nat → Nat → List (List (Nat × Nat))
  | 0, mask => if mask = (1 <<< m) - 1 then [[]] else []
  | fuel + 1, mask =>
    if mask = (1 <<< m) - 1 then [[]]
    else
      (stepsFrom log mask).flatMap fun p =>
        (executedSeqs m log fuel (mask ||| (1 <<< p.1) ||| (1 <<< p.2))).map fun s => p :: s

/-- The canonical pairing sequences from `mask`, each as the list of its pairs `(i, j)`:
at a mask with an unset index below `m`, `i` is the lowest such index, `j` runs over
the unset indices `i < j < m` and the sequence goes on from `mask | 1 << i | 1 << j`;
at a mask without unset index the sequence ends.  These are the choices of
lines 46-58 of `state_dp.h` taken at every mask, whether the loop skips it (line
43) or not: the enumeration reads neither `dp` nor `dist`.  The sequences the loop
executes are `executedSeqs`.  The first argument bounds the number of pairs. -/
def transitionSeqs (m : Nat) : Nat → Nat → List (List (Nat × Nat))
  | 0, mask => if m ≤ lowestUnset m mask then [[]] else []
  | fuel + 1, mask =>
    if m ≤ lowestUnset m mask then [[]]
    else
      ((List.range' (lowestUnset m mask + 1) (m - (lowestUnset m mask + 1))).filter
        fun j => !bitSet mask j).flatMap fun j =>
          (transitionSeqs m fuel (mask ||| (1 <<< lowestUnset m mask) ||| (1 <<< j))).map
            fun s => (lowestUnset m mask, j) :: s

/-- The number of indices below `m` whose bit is set in `mask`. -/
def bitCount (m mask : Nat) : Nat := ((List.range m).filter fun v => mask.testBit v).length

/-- Every pair of `M` has its lower index below the lowest index whose bit is not
set in `S`: the pairs that the transitions of `stateDPMatching` can have added
on the way to the mask `S`. -/
def LowEndsBelowGap (m S : Nat) (M : List (Nat × Nat)) : Prop :=
  ∀ a b, (a, b) ∈ M → min a b < lowestUnset m S

/-! ## Example inputs -/

/-- The 4 x 4 cost matrix of the cross-solver example of the specification. -/
def exampleMatrix : CostMatrix := [[0, 1, 4, 3], [1, 0, 2, 5], [4, 2, 0, 6], [3, 5, 6, 0]]

/-- The matrix `exampleMatrix` with the cost of the pair `{0, 1}` raised from 1 to 2. -/
def raisedMatrix : CostMatrix := [[0, 2, 4, 3], [2, 0, 2, 5], [4, 2, 0, 6], [3, 5, 6, 0]]

/-- A symmetric non-negative 4 x 4 matrix with one entry `LLONG_MAX`. -/
def overflowMatrix : CostMatrix :=
  [[0, 2 ^ 63 - 1, 5, 5], [2 ^ 63 - 1, 0, 5, 5], [5, 5, 0, 1], [5, 5, 1, 0]]

/-- A symmetric non-negative 4 x 4 matrix with one entry `LLONG_MAX`; its three perfect
matchings cost `LLONG_MAX`, 10 and 10, so every sum stays within 64 bits. -/
def sentinelMatrix : CostMatrix :=
  [[0, 2 ^ 63 - 1, 5, 5], [2 ^ 63 - 1, 0, 5, 5], [5, 5, 0, 0], [5, 5, 0, 0]]

/-- A symmetric non-negative 4 x 4 matrix; its cheapest matching is `{0,1}, {2,3}`. -/
def cheapEdgeMatrix : CostMatrix := [[0, 3, 10, 10], [3, 0, 10, 10], [10, 10, 0, 5], [10, 10, 5, 0]]

/-- The matrix `cheapEdgeMatrix` with the cost of the pair `{0, 1}` raised to
`LLONG_MAX - 1`. -/
def dearEdgeMatrix : CostMatrix :=
  [[0, 2 ^ 63 - 2, 10, 10], [2 ^ 63 - 2, 0, 10, 10], [10, 10, 0, 5], [10, 10, 5, 0]]

/-- A 4 x 4 matrix with the upper triangle of `exampleMatrix` and other values on and
below the diagonal. -/
def upperOnlyMatrix : CostMatrix := [[9, 1, 4, 3], [7, 8, 2, 5], [-7, 7, 9, 6], [7, -7, 7, 9]]

/-- A 2 x 2 matrix that is not symmetric: `dist[0][1] = 1` and `dist[1][0] = 2`. -/
def skewMatrix : CostMatrix := [[0, 1], [2, 0]]

/-- A symmetric 6 x 6 matrix: the pairs `{0, 1}` and `{4, 5}` cost 0, every other
pair costs 10. -/
def gapMatrix : CostMatrix :=
  [[0, 0, 10, 10, 10, 10], [0, 0, 10, 10, 10, 10], [10, 10, 0, 10, 10, 10],
   [10, 10, 10, 0, 10, 10], [10, 10, 10, 10, 0, 0], [10, 10, 10, 10, 0, 0]]

/-! ## Interval dynamic programming (`interval_dp.h`) -/

/-- The struct `Point`: a coordinate pair. -/
structure Point (K : Type) where
  x : K
  y : K

/-- The constant `std::numeric_limits<double>::max()`, the largest finite `double`,
`(2 - 2^(-52)) * 2^1023`. -/
def DBL_MAX : ℚ := (2 - 1 / 2 ^ 52) * 2 ^ 1023

/-- The function `euclideanDist(a, b)`; `sqrt` stands for `std::sqrt`.  The subtractions,
products and the sum are those of an ordered field: the rounding of the
`double` operations and their overflow to `inf` are not modelled. -/
def euclideanDist {K : Type} [LinearOrderedField K] (sqrt : K → K) (a b : Point K) : K :=
  let dx := a.x - b.x
  let dy := a.y - b.y
  sqrt (dx * dx + dy * dy)

/-- The read `points[i]`. -/
def pointAt {K : Type} [LinearOrderedField K] (points : List (Point K)) (i : Nat) : Point K :=
  points.getD i ⟨0, 0⟩

/-- The read `t[i][j]` of a two-dimensional table. -/
def tableAt {K : Type} [LinearOrderedField K] (t : List (List K)) (i j : Nat) : K :=
  (t.getD i []).getD j 0

/-- The write `t[i][j] = v` of a two-dimensional table. -/
def tableSet {K : Type} [LinearOrderedField K] (t : List (List K)) (i j : Nat) (v : K) :
    List (List K) :=
  t.set i ((t.getD i []).set j v)

/-- The table `dist` after lines 64-67: zero on the diagonal and
`euclideanDist(points[i], points[j])`, `i < j`, at `[i][j]` and `[j][i]`. -/
def distTable {K : Type} [LinearOrderedField K] (sqrt : K → K) (points : List (Point K)) :
    List (List K) :=
  (List.range points.length).map fun i =>
    (List.range points.length).map fun j =>
      if i < j then euclideanDist sqrt (pointAt points i) (pointAt points j)
      else if j < i then euclideanDist sqrt (pointAt points j) (pointAt points i)
      else 0

/-- The table `dp` as created in lines 70-71, every entry `DBL_MAX`. -/
def initialDP {K : Type} [LinearOrderedField K] (m : Nat) : List (List K) :=
  List.replicate m (List.replicate m (DBL_MAX : K))

/-- The loop of lines 74-75: `dp[i][i+1] = dist[i][i+1]` for `i = 0, 2, 4, ...`
below `m - 1`. -/
def baseDP {K : Type} [LinearOrderedField K] (m : Nat) (dist : List (List K)) : List (List K) :=
  ((List.range (m / 2)).map fun t => 2 * t).foldl
    (fun dp i => tableSet dp i (i + 1) (tableAt dist i (i + 1))) (initialDP m)

/-- The value `cost` at line 96 for the partner `k` of `l`, lines 91-95. -/
def splitCost {K : Type} [LinearOrderedField K] (dist dp : List (List K)) (l r k : Nat) : K :=
  let cost := tableAt dist l k
  let cost := if l + 1 ≤ k - 1 then cost + tableAt dp (l + 1) (k - 1) else cost
  if k + 1 ≤ r then cost + tableAt dp (k + 1) r else cost

/-- One iteration of the loop over `k`, lines 89-98. -/
def minStep {K : Type} [LinearOrderedField K] (dist dp : List (List K)) (l r : Nat)
    (min_cost : K) (k : Nat) : K :=
  if splitCost dist dp l r k < min_cost then splitCost dist dp l r k else min_cost

/-- One iteration of the loop over `l`, lines 83-100, for the length `len`: `k`
runs over `l + 1, l + 3, ...` up to `r = l + len - 1`. -/
def fillRange {K : Type} [LinearOrderedField K] (dist : List (List K)) (len : Nat)
    (dp : List (List K)) (l : Nat) : List (List K) :=
  tableSet dp l (l + len - 1)
    (((List.range (len / 2)).map fun t => l + 1 + 2 * t).foldl
      (minStep dist dp l (l + len - 1)) (DBL_MAX : K))

/-- One iteration of the loop over `len`, lines 80-101: `l` runs from `0` while
`l + len - 1 < m`. -/
def fillLength {K : Type} [LinearOrderedField K] (m : Nat) (dist : List (List K))
    (dp : List (List K)) (len : Nat) : List (List K) :=
  (List.range (m + 1 - len)).foldl (fillRange dist len) dp

/-- The table `dp` when the loops of lines 74-101 are over: `len` runs over
`4, 6, ...` up to `m`. -/
def intervalTable {K : Type} [LinearOrderedField K] (sqrt : K → K) (points : List (Point K)) :
    List (List K) :=
  ((List.range (points.length / 2 - 1)).map fun t => 2 * t + 4).foldl
    (fillLength points.length (distTable sqrt points))
    (baseDP points.length (distTable sqrt points))

/-- The function `minStep` with a count of the candidates `(l, r, k)` evaluated by the
innermost loop. -/
def minStepCount {K : Type} [LinearOrderedField K] (dist dp : List (List K)) (l r : Nat)
    (st : K × Nat) (k : Nat) : K × Nat :=
  (minStep dist dp l r st.1 k, st.2 + 1)

/-- The function `fillRange` with the count of evaluated candidates. -/
def fillRangeCount {K : Type} [LinearOrderedField K] (dist : List (List K)) (len : Nat)
    (st : List (List K) × Nat) (l : Nat) : List (List K) × Nat :=
  let res := ((List.range (len / 2)).map fun t => l + 1 + 2 * t).foldl
    (minStepCount dist st.1 l (l + len - 1)) ((DBL_MAX : K), st.2)
  (tableSet st.1 l (l + len - 1) res.1, res.2)

/-- The function `fillLength` with the count of evaluated candidates. -/
def fillLengthCount {K : Type} [LinearOrderedField K] (m : Nat) (dist : List (List K))
    (st : List (List K) × Nat) (len : Nat) : List (List K) × Nat :=
  (List.range (m + 1 - len)).foldl (fillRangeCount dist len) st

/-- The table `dp` when the loops of lines 74-101 are over, with the number of
candidates `(l, r, k)` that the innermost loop has evaluated. -/
def intervalCount {K : Type} [LinearOrderedField K] (sqrt : K → K) (points : List (Point K)) :
    List (List K) × Nat :=
  ((List.range (points.length / 2 - 1)).map fun t => 2 * t + 4).foldl
    (fillLengthCount points.length (distTable sqrt points))
    (baseDP points.length (distTable sqrt points), 0)

/-- The function `intervalDPMatching(points)`; `m` is the length of the vector.  For
an empty vector the tables are empty and the final read `dp[0][m - 1]` is
undefined (`none`). -/
def intervalDPMatching {K : Type} [LinearOrderedField K] (sqrt : K → K)
    (points : List (Point K)) : Option K :=
  if points.length % 2 ≠ 0 then some (-1)
  else if points.length = 0 then none
  else some (tableAt (intervalTable sqrt points) 0 (points.length - 1))

/-- The precondition of the interval solver: the points are in ascending order of
`x`, and of `y` among equal `x`. -/
def SortedByXY {K : Type} [LinearOrderedField K] (points : List (Point K)) : Prop :=
  points.Pairwise fun p q => p.x < q.x ∨ (p.x = q.x ∧ p.y ≤ q.y)

/-- The total length of a matching of the points: the sum of
`euclideanDist(points[a], points[b])` over its pairs. -/
def matchingLength {K : Type} [LinearOrderedField K] (sqrt : K → K) (points : List (Point K)) :
    List (Nat × Nat) → K
  | [] => 0
  | (a, b) :: rest =>
    euclideanDist sqrt (pointAt points a) (pointAt points b) + matchingLength sqrt points rest

/-- A table of `m` rows of `m` entries each. -/
def IsTable {K : Type} (m : Nat) (t : List (List K)) : Prop :=
  t.length = m ∧ ∀ row, row ∈ t → row.length = m

/-- The value `v` is the total length of a matching of exactly the `len` points
with indices `s, ..., s + len - 1`. -/
def IsRangeMatching {K : Type} [LinearOrderedField K] (sqrt : K → K) (points : List (Point K))
    (s len : Nat) (v : K) : Prop :=
  ∃ M, (flattenPairs M).Perm (List.range' s len) ∧ v = matchingLength sqrt points M

/-- The state of the table `dp` of the interval solver when the loops have
finished the lengths below `L` and, for the length `L`, the left ends below
`c`: every entry is `DBL_MAX` or the total length of a matching of its range,
and the entries already computed (ranges of two points only from an even
left end) are of the second kind. -/
def IntervalInv {K : Type} [LinearOrderedField K] (sqrt : K → K) (points : List (Point K))
    (L c : Nat) (dp : List (List K)) : Prop :=
  IsTable points.length dp ∧
  (∀ a b, a < points.length → b < points.length →
    tableAt dp a b = (DBL_MAX : K) ∨
      IsRangeMatching sqrt points a (b + 1 - a) (tableAt dp a b)) ∧
  (∀ a len, a + len ≤ points.length → len % 2 = 0 → 2 ≤ len → (len = 2 → a % 2 = 0) →
    (len < L ∨ (len = L ∧ a < c)) →
    IsRangeMatching sqrt points a len (tableAt dp a (a + len - 1)))

/-- The candidate partners `k = l + 1, l + 3, ...` of `l` in a range of `len` points, as
the loop of lines 89-98 runs through them. -/
def partnersOf (l len : Nat) : List Nat := (List.range (len / 2)).map fun t => l + 1 + 2 * t

/-- The entry `dp[l][l + len - 1]` is the value `min_cost` that the loop over `k` of
lines 87-99 computes when it reads the table `dp` itself. -/
def RecurrenceAt {K : Type} [LinearOrderedField K] (dist dp : List (List K)) (l len : Nat) :
    Prop :=
  tableAt dp l (l + len - 1)
    = (partnersOf l len).foldl (minStep dist dp l (l + len - 1)) (DBL_MAX : K)

/-- The index pair `[a][b]` lies inside a table of `m` rows of `m` entries. -/
def InTable (m : Nat) (p : Int × Int) : Prop := 0 ≤ p.1 ∧ p.1 < m ∧ 0 ≤ p.2 ∧ p.2 < m

instance (m : Nat) (p : Int × Int) : Decidable (InTable m p) := by
  unfold InTable; infer_instance

/-- The index pairs of the writes `dist[i][j]` and `dist[j][i]` of lines 65-67, for a
vector of `m` points. -/
def distAccesses (m : Nat) : List (Int × Int) :=
  (List.range m).flatMap fun (i : Nat) =>
    (List.range' (i + 1) (m - (i + 1))).flatMap fun (j : Nat) =>
      [((i : Int), (j : Int)), ((j : Int), (i : Int))]

/-- The index pairs `[i][i + 1]` of the accesses to `dp` and `dist` in lines 74-75. -/
def baseAccesses (m : Nat) : List (Int × Int) :=
  (List.range (m / 2)).map fun (t : Nat) => (((2 * t : Nat) : Int), ((2 * t : Nat) : Int) + 1)

/-- The index pairs of the reads of lines 91-95 for one partner `k`: `dist[l][k]`, then
`dp[l + 1][k - 1]` and `dp[k + 1][r]` under their conditions. -/
def candidateAccesses (l r k : Nat) : List (Int × Int) :=
  ((l : Int), (k : Int)) ::
    ((if l + 1 ≤ k - 1 then [((l : Int) + 1, (k : Int) - 1)] else []) ++
      (if k + 1 ≤ r then [((k : Int) + 1, (r : Int))] else []))

/-- The index pairs of one iteration of the loop over `l`, lines 83-100: the reads for
each partner `k`, then the write `dp[l][r]` with `r = l + len - 1`. -/
def rangeAccesses (len l : Nat) : List (Int × Int) :=
  (partnersOf l len).flatMap (candidateAccesses l (l + len - 1))
    ++ [((l : Int), (l : Int) + (len : Int) - 1)]

/-- The index pairs of the loops of lines 80-101. -/
def loopAccesses (m : Nat) : List (Int × Int) :=
  ((List.range (m / 2 - 1)).map fun (t : Nat) => 2 * t + 4).flatMap fun (len : Nat) =>
    (List.range (m + 1 - len)).flatMap (rangeAccesses len)

/-- The index pair of the final read `dp[0][m - 1]`, line 104. -/
def finalAccess (m : Nat) : Int × Int := (0, (m : Int) - 1)

/-- The index pairs at which `intervalDPMatching` reads or writes its tables `dist` and
`dp` on a vector of an even number `m` of points, in the order of the source. -/
def tableAccesses (m : Nat) : List (Int × Int) :=
  distAccesses m ++ baseAccesses m ++ loopAccesses m ++ [finalAccess m]

/-- The pairs `p` and `q` cross in index order: their index ranges overlap and
neither lies inside the other. -/
def Crosses (p q : Nat × Nat) : Prop :=
  min p.1 p.2 < min q.1 q.2 ∧ min q.1 q.2 < max p.1 p.2 ∧ max p.1 p.2 < max q.1 q.2

instance (p q : Nat × Nat) : Decidable (Crosses p q) := by
  unfold Crosses; infer_instance

/-- No two pairs of the matching `M` cross in index order. -/
def IsNonCrossing (M : List (Nat × Nat)) : Prop :=
  ∀ p, p ∈ M → ∀ q, q ∈ M → ¬ Crosses p q

instance (M : List (Nat × Nat)) : Decidable (IsNonCrossing M) := by
  unfold IsNonCrossing; infer_instance

/-- Four points in ascending `x` order, the corners of a trapezoid; all six
distances are integers. -/
def trapezoid (K : Type) [LinearOrderedField K] : List (Point K) :=
  [⟨0, 0⟩, ⟨36, 48⟩, ⟨55, 48⟩, ⟨91, 0⟩]

/-- The distance matrix of `trapezoid`. -/
def trapezoidMatrix : CostMatrix :=
  [[0, 60, 73, 91], [60, 0, 19, 73], [73, 19, 0, 60], [91, 73, 60, 0]]

/-- Two points in descending `x` order. -/
def unsortedPoints (K : Type) [LinearOrderedField K] : List (Point K) :=
  [⟨3, 4⟩, ⟨0, 0⟩]

/-- Four points on the `x` axis, at 0 and at `DBL_MAX` in turn. -/
def hugePoints (K : Type) [LinearOrderedField K] : List (Point K) :=
  [⟨0, 0⟩, ⟨(DBL_MAX : K), 0⟩, ⟨0, 0⟩, ⟨(DBL_MAX : K), 0⟩]

/-- The four corners of the square of the points with coordinates between
`-DBL_MAX` and `DBL_MAX`. -/
def cornerPoints (K : Type) [LinearOrderedField K] : List (Point K) :=
  [⟨-(DBL_MAX : K), -(DBL_MAX : K)⟩, ⟨(DBL_MAX : K), -(DBL_MAX : K)⟩,
   ⟨-(DBL_MAX : K), (DBL_MAX : K)⟩, ⟨(DBL_MAX : K), (DBL_MAX : K)⟩]

/-- Four points in ascending order, three of them at `x = DBL_MAX`. -/
def farPoints (K : Type) [LinearOrderedField K] : List (Point K) :=
  [⟨0, 0⟩, ⟨(DBL_MAX : K), 0⟩, ⟨(DBL_MAX : K), 0⟩, ⟨(DBL_MAX : K), 0⟩]

set_option maxRecDepth 100000

/-! ## Machine arithmetic -/

theorem wrap64_of_isLongLong {x : Int} (h : IsLongLong x) : wrap64 x = x := by
  unfold IsLongLong at h
  unfold wrap64
  have h1 : (x + 2 ^ 63) % 2 ^ 64 = x + 2 ^ 63 := Int.emod_eq_of_lt (by omega) (by omega)
  omega

theorem wrap64_add_wrap64 (a b : Int) : wrap64 (wrap64 a + b) = wrap64 (a + b) := by
  unfold wrap64
  have h : ((a + 2 ^ 63) % 2 ^ 64 - 2 ^ 63 + b + 2 ^ 63) % 2 ^ 64 = (a + b + 2 ^ 63) % 2 ^ 64 := by
    have e1 : (a + 2 ^ 63) % 2 ^ 64 - 2 ^ 63 + b + 2 ^ 63 = (a + 2 ^ 63) % 2 ^ 64 + b := by ring
    have e2 : a + b + 2 ^ 63 = (a + 2 ^ 63) + b := by ring
    rw [e1, e2, Int.emod_add_cancel_right]
    exact Int.emod_emod_of_dvd _ (dvd_refl _)
  rw [h]

/-! ## Bit masks -/

theorem bitSet_eq_testBit (mask i : Nat) : bitSet mask i = mask.testBit i := by
  unfold bitSet
  rw [Nat.one_shiftLeft, Nat.and_two_pow]
  cases h : mask.testBit i
  · simp
  · simp

theorem testBit_newMask (mask i j k : Nat) :
    (mask ||| 1 <<< i ||| 1 <<< j).testBit k
      = (mask.testBit k || decide (i = k) || decide (j = k)) := by
  simp [Nat.testBit_or, Nat.one_shiftLeft, Nat.testBit_two_pow]

theorem newMask_gt (mask i j : Nat) (hij : i < j) (hj : mask.testBit j = false) :
    mask < mask ||| 1 <<< i ||| 1 <<< j := by
  apply Nat.lt_of_testBit j hj
  · simp [testBit_newMask]
  · intro k hk
    rw [testBit_newMask]
    have h1 : ¬ i = k := by omega
    have h2 : ¬ j = k := by omega
    simp [h1, h2]

theorem newMask_lt_two_pow (m mask i j : Nat) (hmask : mask < 2 ^ m) (hi : i < m) (hj : j < m) :
    mask ||| 1 <<< i ||| 1 <<< j < 2 ^ m := by
  rw [Nat.one_shiftLeft, Nat.one_shiftLeft]
  apply Nat.or_lt_two_pow (Nat.or_lt_two_pow hmask _) _
  · exact Nat.pow_lt_pow_right (by omega) hi
  · exact Nat.pow_lt_pow_right (by omega) hj

theorem lowestUnsetFrom_spec (m mask : Nat) : ∀ fuel i, i + fuel = m →
    (∀ k, k < i → mask.testBit k = true) →
    lowestUnsetFrom m mask fuel i ≤ m ∧
      (∀ k, k < lowestUnsetFrom m mask fuel i → mask.testBit k = true) ∧
      (lowestUnsetFrom m mask fuel i < m → mask.testBit (lowestUnsetFrom m mask fuel i) = false) := by
  intro fuel
  induction fuel with
  | zero =>
    intro i hi hk
    simp only [lowestUnsetFrom]
    exact ⟨by omega, hk, fun h => by omega⟩
  | succ fuel ih =>
    intro i hi hk
    simp only [lowestUnsetFrom]
    by_cases hc : i < m ∧ bitSet mask i = true
    · rw [if_pos hc]
      apply ih (i + 1) (by omega)
      intro k hk1
      rcases Nat.lt_succ_iff_lt_or_eq.mp hk1 with h | h
      · exact hk k h
      · rw [h, ← bitSet_eq_testBit]; exact hc.2
    · rw [if_neg hc]
      refine ⟨by omega, hk, fun h => ?_⟩
      rw [← bitSet_eq_testBit]
      by_contra hb
      exact hc ⟨h, by simpa using hb⟩

theorem lowestUnset_le (m mask : Nat) : lowestUnset m mask ≤ m :=
  (lowestUnsetFrom_spec m mask m 0 (by omega) (fun k hk => by omega)).1

theorem lowestUnset_below (m mask k : Nat) (hk : k < lowestUnset m mask) :
    mask.testBit k = true :=
  (lowestUnsetFrom_spec m mask m 0 (by omega) (fun k hk => by omega)).2.1 k hk

theorem lowestUnset_unset (m mask : Nat) (h : lowestUnset m mask < m) :
    mask.testBit (lowestUnset m mask) = false :=
  (lowestUnsetFrom_spec m mask m 0 (by omega) (fun k hk => by omega)).2.2 h

/-- The lowest unset index is characterised by its two properties. -/
theorem lowestUnset_eq (m mask i : Nat) (hi : i < m) (hlow : ∀ k, k < i → mask.testBit k = true)
    (hun : mask.testBit i = false) : lowestUnset m mask = i := by
  rcases Nat.lt_trichotomy (lowestUnset m mask) i with h | h | h
  · have h1 := lowestUnset_unset m mask (by omega)
    have h2 := hlow _ h
    rw [h1] at h2; cases h2
  · exact h
  · have h1 := lowestUnset_below m mask i h
    rw [hun] at h1; cases h1

/-! ## The table `dp` -/

theorem dpAt_set (dp : List Int) (k k' : Nat) (v : Int) (hk : k < dp.length) :
    dpAt (dp.set k v) k' = if k' = k then v else dpAt dp k' := by
  unfold dpAt
  simp only [List.getD_eq_getElem?_getD, List.getElem?_set]
  by_cases h : k = k'
  · subst h; simp [hk]
  · have h' : ¬ k' = k := fun e => h e.symm
    simp [h, h']

theorem dpAt_set_of_ge (dp : List Int) (k k' : Nat) (v : Int) (hk : dp.length ≤ k) :
    dpAt (dp.set k v) k' = dpAt dp k' := by
  unfold dpAt
  simp only [List.getD_eq_getElem?_getD, List.getElem?_set]
  by_cases h : k = k'
  · subst h
    have : ¬ k < dp.length := by omega
    simp [this, List.getElem?_eq_none hk]
  · simp [h]

/-! ## One relaxation -/

theorem relax_def (dist : CostMatrix) (mask i : Nat) (dp : List Int) (j : Nat) :
    relax dist mask i dp j =
      if bitSet mask j = true then dp
      else if wrap64 (dpAt dp mask + entry dist i j) < dpAt dp (mask ||| 1 <<< i ||| 1 <<< j)
        then dp.set (mask ||| 1 <<< i ||| 1 <<< j) (wrap64 (dpAt dp mask + entry dist i j))
        else dp := rfl

theorem processMask_def (m : Nat) (dist : CostMatrix) (dp : List Int) (mask : Nat) :
    processMask m dist dp mask =
      if dpAt dp mask = LLONG_MAX then dp
      else if m ≤ lowestUnset m mask then dp
        else (List.range' (lowestUnset m mask + 1) (m - (lowestUnset m mask + 1))).foldl
          (relax dist mask (lowestUnset m mask)) dp := rfl

theorem relax_length (dist : CostMatrix) (mask i : Nat) (dp : List Int) (j : Nat) :
    (relax dist mask i dp j).length = dp.length := by
  rw [relax_def]
  split_ifs <;> simp

theorem relax_le (dist : CostMatrix) (mask i : Nat) (dp : List Int) (j S : Nat) :
    dpAt (relax dist mask i dp j) S ≤ dpAt dp S := by
  rw [relax_def]
  split_ifs with h1 h2
  · exact le_refl _
  · by_cases hl : mask ||| 1 <<< i ||| 1 <<< j < dp.length
    · rw [dpAt_set _ _ _ _ hl]
      split_ifs with h3
      · subst h3; exact le_of_lt h2
      · exact le_refl _
    · rw [dpAt_set_of_ge _ _ _ _ (by omega)]
  · exact le_refl _

theorem relax_cases (dist : CostMatrix) (mask i : Nat) (dp : List Int) (j S : Nat) :
    dpAt (relax dist mask i dp j) S = dpAt dp S ∨
      (bitSet mask j = false ∧ S = mask ||| 1 <<< i ||| 1 <<< j ∧
        dpAt (relax dist mask i dp j) S = wrap64 (dpAt dp mask + entry dist i j)) := by
  rw [relax_def]
  split_ifs with h1 h2
  · exact Or.inl rfl
  · by_cases hl : mask ||| 1 <<< i ||| 1 <<< j < dp.length
    · rw [dpAt_set _ _ _ _ hl]
      split_ifs with h3
      · exact Or.inr ⟨by simpa using h1, h3, rfl⟩
      · exact Or.inl rfl
    · rw [dpAt_set_of_ge _ _ _ _ (by omega)]
      exact Or.inl rfl
  · exact Or.inl rfl

theorem relax_bound (dist : CostMatrix) (mask i : Nat) (dp : List Int) (j : Nat)
    (hj : bitSet mask j = false) (hl : mask ||| 1 <<< i ||| 1 <<< j < dp.length) :
    dpAt (relax dist mask i dp j) (mask ||| 1 <<< i ||| 1 <<< j)
      ≤ wrap64 (dpAt dp mask + entry dist i j) := by
  rw [relax_def]
  rw [if_neg (by simp [hj])]
  split_ifs with h2
  · rw [dpAt_set _ _ _ _ hl, if_pos rfl]
  · exact not_lt.mp h2

theorem relax_self (dist : CostMatrix) (mask i : Nat) (dp : List Int) (j : Nat) :
    dpAt (relax dist mask i dp j) mask = dpAt dp mask := by
  rcases relax_cases dist mask i dp j mask with h | ⟨h1, h2, _⟩
  · exact h
  · exfalso
    rw [bitSet_eq_testBit] at h1
    have h3 : (mask ||| 1 <<< i ||| 1 <<< j).testBit j = true := by simp [testBit_newMask]
    rw [← h2, h1] at h3
    cases h3

/-! ## The loop over `j` -/

theorem foldl_relax_length (dist : CostMatrix) (mask i : Nat) (js : List Nat) :
    ∀ dp : List Int, (js.foldl (relax dist mask i) dp).length = dp.length := by
  induction js with
  | nil => intro dp; rfl
  | cons j js ih => intro dp; rw [List.foldl_cons, ih, relax_length]

theorem foldl_relax_le (dist : CostMatrix) (mask i : Nat) (js : List Nat) (S : Nat) :
    ∀ dp : List Int, dpAt (js.foldl (relax dist mask i) dp) S ≤ dpAt dp S := by
  induction js with
  | nil => intro dp; exact le_refl _
  | cons j js ih =>
    intro dp
    rw [List.foldl_cons]
    exact le_trans (ih _) (relax_le dist mask i dp j S)

theorem foldl_relax_self (dist : CostMatrix) (mask i : Nat) (js : List Nat) :
    ∀ dp : List Int, dpAt (js.foldl (relax dist mask i) dp) mask = dpAt dp mask := by
  induction js with
  | nil => intro dp; rfl
  | cons j js ih => intro dp; rw [List.foldl_cons, ih, relax_self]

theorem foldl_relax_cases (dist : CostMatrix) (mask i : Nat) (js : List Nat) (S : Nat) :
    ∀ dp : List Int, dpAt (js.foldl (relax dist mask i) dp) S = dpAt dp S ∨
      ∃ j, j ∈ js ∧ bitSet mask j = false ∧ S = mask ||| 1 <<< i ||| 1 <<< j ∧
        dpAt (js.foldl (relax dist mask i) dp) S = wrap64 (dpAt dp mask + entry dist i j) := by
  induction js with
  | nil => intro dp; exact Or.inl rfl
  | cons j js ih =>
    intro dp
    rw [List.foldl_cons]
    rcases ih (relax dist mask i dp j) with h | ⟨j', hj', hb, hS, hv⟩
    · rcases relax_cases dist mask i dp j S with h' | ⟨hb, hS, hv⟩
      · exact Or.inl (h.trans h')
      · exact Or.inr ⟨j, List.mem_cons_self _ _, hb, hS, h.trans hv⟩
    · rw [relax_self] at hv
      exact Or.inr ⟨j', List.mem_cons_of_mem _ hj', hb, hS, hv⟩

theorem foldl_relax_bound (dist : CostMatrix) (mask i : Nat) (js : List Nat) (j : Nat) (hj : j ∈ js)
    (hb : bitSet mask j = false) :
    ∀ dp : List Int, mask ||| 1 <<< i ||| 1 <<< j < dp.length →
      dpAt (js.foldl (relax dist mask i) dp) (mask ||| 1 <<< i ||| 1 <<< j)
        ≤ wrap64 (dpAt dp mask + entry dist i j) := by
  induction js with
  | nil => cases hj
  | cons j' js ih =>
    intro dp hl
    rw [List.foldl_cons]
    rcases List.mem_cons.mp hj with h | h
    · subst h
      exact le_trans (foldl_relax_le _ _ _ _ _ _) (relax_bound dist mask i dp j hb hl)
    · have := ih h (relax dist mask i dp j') (by rw [relax_length]; exact hl)
      rwa [relax_self] at this

/-! ## The loop over `mask` -/

theorem processMask_length (m : Nat) (dist : CostMatrix) (dp : List Int) (mask : Nat) :
    (processMask m dist dp mask).length = dp.length := by
  rw [processMask_def]
  split_ifs
  · rfl
  · rfl
  · exact foldl_relax_length _ _ _ _ _

theorem processMask_le (m : Nat) (dist : CostMatrix) (dp : List Int) (mask S : Nat) :
    dpAt (processMask m dist dp mask) S ≤ dpAt dp S := by
  rw [processMask_def]
  split_ifs
  · exact le_refl _
  · exact le_refl _
  · exact foldl_relax_le _ _ _ _ _ _

theorem processMask_cases (m : Nat) (dist : CostMatrix) (dp : List Int) (mask S : Nat) :
    dpAt (processMask m dist dp mask) S = dpAt dp S ∨
      (dpAt dp mask ≠ LLONG_MAX ∧ lowestUnset m mask < m ∧
        ∃ j, lowestUnset m mask < j ∧ j < m ∧ mask.testBit j = false ∧
          S = mask ||| 1 <<< lowestUnset m mask ||| 1 <<< j ∧
          dpAt (processMask m dist dp mask) S
            = wrap64 (dpAt dp mask + entry dist (lowestUnset m mask) j)) := by
  rw [processMask_def]
  split_ifs with h1 h2
  · exact Or.inl rfl
  · exact Or.inl rfl
  · rcases foldl_relax_cases dist mask (lowestUnset m mask) _ S dp with h | ⟨j, hj, hb, hS, hv⟩
    · exact Or.inl h
    · rw [List.mem_range'_1] at hj
      rw [bitSet_eq_testBit] at hb
      exact Or.inr ⟨h1, by omega, j, by omega, by omega, hb, hS, hv⟩

theorem processMask_bound (m : Nat) (dist : CostMatrix) (dp : List Int) (mask j : Nat)
    (h1 : dpAt dp mask ≠ LLONG_MAX) (hij : lowestUnset m mask < j) (hj : j < m)
    (hb : mask.testBit j = false)
    (hl : mask ||| 1 <<< lowestUnset m mask ||| 1 <<< j < dp.length) :
    dpAt (processMask m dist dp mask) (mask ||| 1 <<< lowestUnset m mask ||| 1 <<< j)
      ≤ wrap64 (dpAt dp mask + entry dist (lowestUnset m mask) j) := by
  rw [processMask_def]
  rw [if_neg h1, if_neg (by omega)]
  apply foldl_relax_bound
  · rw [List.mem_range'_1]; omega
  · rw [bitSet_eq_testBit]; exact hb
  · exact hl

theorem tableAfter_succ (m : Nat) (dist : CostMatrix) (k : Nat) :
    tableAfter m dist (k + 1) = processMask m dist (tableAfter m dist k) k := by
  unfold tableAfter
  rw [List.range_succ, List.foldl_append]
  rfl

theorem initialTable_length (m : Nat) : (initialTable m).length = 2 ^ m := by
  simp [initialTable, Nat.one_shiftLeft]

theorem tableAfter_length (m : Nat) (dist : CostMatrix) (k : Nat) :
    (tableAfter m dist k).length = 2 ^ m := by
  induction k with
  | zero => exact initialTable_length m
  | succ k ih => rw [tableAfter_succ, processMask_length, ih]

theorem tableAfter_mono (m : Nat) (dist : CostMatrix) (S : Nat) {k k' : Nat} (h : k ≤ k') :
    dpAt (tableAfter m dist k') S ≤ dpAt (tableAfter m dist k) S := by
  induction h with
  | refl => exact le_refl _
  | step _ ih => rw [tableAfter_succ]; exact le_trans (processMask_le _ _ _ _ _) ih

theorem dpAt_initialTable (m S : Nat) (hS : S < 2 ^ m) :
    dpAt (initialTable m) S = if S = 0 then 0 else LLONG_MAX := by
  unfold initialTable
  rw [dpAt_set _ _ _ _ (by simp [Nat.one_shiftLeft])]
  split_ifs with h
  · rfl
  · unfold dpAt
    rw [Nat.one_shiftLeft]
    simp [List.getElem?_replicate, hS]

/-! ## Matchings -/

theorem flattenPairs_append (M N : List (Nat × Nat)) :
    flattenPairs (M ++ N) = flattenPairs M ++ flattenPairs N := by
  induction M with
  | nil => rfl
  | cons p M ih => obtain ⟨a, b⟩ := p; simp [flattenPairs, ih]

theorem matchingCost_append (dist : CostMatrix) (M N : List (Nat × Nat)) :
    matchingCost dist (M ++ N) = matchingCost dist M + matchingCost dist N := by
  induction M with
  | nil => simp [matchingCost]
  | cons p M ih => obtain ⟨a, b⟩ := p; simp [matchingCost, ih, add_assoc]

theorem length_flattenPairs (M : List (Nat × Nat)) :
    (flattenPairs M).length = 2 * M.length := by
  induction M with
  | nil => rfl
  | cons p M ih => obtain ⟨a, b⟩ := p; simp [flattenPairs, ih]; omega

theorem flattenPairs_pairUp : ∀ L : List Nat, L.length % 2 = 0 → flattenPairs (pairUp L) = L
  | [], _ => rfl
  | [a], h => by simp at h
  | a :: b :: rest, h => by
    have h' : rest.length % 2 = 0 := by
      simp only [List.length_cons] at h; omega
    simp [pairUp, flattenPairs, flattenPairs_pairUp rest h']

theorem flattenPairs_perm {M N : List (Nat × Nat)} (h : M.Perm N) :
    (flattenPairs M).Perm (flattenPairs N) := by
  induction h with
  | nil => exact List.Perm.refl _
  | cons p _ ih =>
    obtain ⟨a, b⟩ := p
    exact (ih.cons b).cons a
  | swap p q l =>
    obtain ⟨a, b⟩ := p
    obtain ⟨c, d⟩ := q
    simp only [flattenPairs]
    have e1 : c :: d :: a :: b :: flattenPairs l = [c, d] ++ ([a, b] ++ flattenPairs l) := rfl
    have e2 : a :: b :: c :: d :: flattenPairs l = [a, b] ++ ([c, d] ++ flattenPairs l) := rfl
    rw [e1, e2, ← List.append_assoc, ← List.append_assoc]
    exact List.Perm.append_right _ List.perm_append_comm
  | trans _ _ ih1 ih2 => exact ih1.trans ih2

theorem matchingCost_perm (dist : CostMatrix) {M N : List (Nat × Nat)} (h : M.Perm N) :
    matchingCost dist M = matchingCost dist N := by
  induction h with
  | nil => rfl
  | cons p _ ih => obtain ⟨a, b⟩ := p; simp [matchingCost, ih]
  | swap p q l =>
    obtain ⟨a, b⟩ := p
    obtain ⟨c, d⟩ := q
    simp only [matchingCost]; ring
  | trans _ _ ih1 ih2 => exact ih1.trans ih2

theorem isPerfectMatching_iff (n : Nat) (M : List (Nat × Nat)) :
    IsPerfectMatching n M ↔ (flattenPairs M).Nodup ∧ ∀ v, v ∈ flattenPairs M ↔ v < n := by
  unfold IsPerfectMatching
  constructor
  · intro h
    refine ⟨h.nodup_iff.mpr (List.nodup_range n), fun v => ?_⟩
    rw [h.mem_iff, List.mem_range]
  · rintro ⟨h1, h2⟩
    rw [List.perm_ext_iff_of_nodup h1 (List.nodup_range n)]
    intro v
    rw [h2, List.mem_range]

theorem exists_pair_of_mem {M : List (Nat × Nat)} {v : Nat} (h : v ∈ flattenPairs M) :
    ∃ a b, (a, b) ∈ M ∧ (v = a ∨ v = b) := by
  induction M with
  | nil => cases h
  | cons p M ih =>
    obtain ⟨a, b⟩ := p
    simp only [flattenPairs, List.mem_cons] at h
    rcases h with h | h | h
    · exact ⟨a, b, List.mem_cons_self _ _, Or.inl h⟩
    · exact ⟨a, b, List.mem_cons_self _ _, Or.inr h⟩
    · obtain ⟨a', b', hm, hv⟩ := ih h
      exact ⟨a', b', List.mem_cons_of_mem _ hm, hv⟩

theorem mem_flattenPairs_of_mem {M : List (Nat × Nat)} {a b : Nat} (h : (a, b) ∈ M) :
    a ∈ flattenPairs M ∧ b ∈ flattenPairs M := by
  induction M with
  | nil => cases h
  | cons p M ih =>
    obtain ⟨c, d⟩ := p
    simp only [flattenPairs, List.mem_cons]
    rcases List.mem_cons.mp h with h | h
    · cases h; exact ⟨Or.inl rfl, Or.inr (Or.inl rfl)⟩
    · exact ⟨Or.inr (Or.inr (ih h).1), Or.inr (Or.inr (ih h).2)⟩

theorem matchingCost_nonneg (n : Nat) (dist : CostMatrix) (hnn : IsNonneg n dist)
    (M : List (Nat × Nat)) (hM : ∀ v, v ∈ flattenPairs M → v < n) :
    0 ≤ matchingCost dist M := by
  induction M with
  | nil => exact le_refl _
  | cons p M ih =>
    obtain ⟨a, b⟩ := p
    simp only [matchingCost]
    have ha : a < n := hM a (by simp [flattenPairs])
    have hb : b < n := hM b (by simp [flattenPairs])
    have := hnn a ha b hb
    have := ih (fun v hv => hM v (by simp [flattenPairs, hv]))
    omega

/-- A list of disjoint pairs of indices below an even `m` extends to a perfect
matching of `{0, ..., m-1}`. -/
theorem exists_extension (m : Nat) (hm : m % 2 = 0) (M : List (Nat × Nat))
    (hnd : (flattenPairs M).Nodup) (hlt : ∀ v, v ∈ flattenPairs M → v < m) :
    ∃ N, IsPerfectMatching m (M ++ N) ∧ ∀ v, v ∈ flattenPairs N → v < m := by
  let L := (List.range m).filter (fun v => decide (v ∉ flattenPairs M))
  have hLnd : L.Nodup := (List.nodup_range m).filter _
  have hLmem : ∀ v, v ∈ L ↔ v < m ∧ v ∉ flattenPairs M := by
    intro v; simp [L, List.mem_filter]
  have hperm : (flattenPairs M ++ L).Perm (List.range m) := by
    rw [List.perm_ext_iff_of_nodup _ (List.nodup_range m)]
    · intro v
      rw [List.mem_append, hLmem, List.mem_range]
      constructor
      · rintro (h | h)
        · exact hlt v h
        · exact h.1
      · intro h
        by_cases hv : v ∈ flattenPairs M
        · exact Or.inl hv
        · exact Or.inr ⟨h, hv⟩
    · rw [List.nodup_append]
      refine ⟨hnd, hLnd, ?_⟩
      intro v hv hv'
      exact ((hLmem v).mp hv').2 hv
  have hlen : L.length % 2 = 0 := by
    have h1 := hperm.length_eq
    rw [List.length_append, length_flattenPairs, List.length_range] at h1
    omega
  refine ⟨pairUp L, ?_, ?_⟩
  · unfold IsPerfectMatching
    rw [flattenPairs_append, flattenPairs_pairUp L hlen]
    exact hperm
  · intro v hv
    rw [flattenPairs_pairUp L hlen] at hv
    exact ((hLmem v).mp hv).1

/-- With non-negative costs, the cost of disjoint pairs is at most the cost of
some perfect matching. -/
theorem exists_perfect_ge (m : Nat) (hm : m % 2 = 0) (dist : CostMatrix) (hnn : IsNonneg m dist)
    (M : List (Nat × Nat)) (hnd : (flattenPairs M).Nodup)
    (hlt : ∀ v, v ∈ flattenPairs M → v < m) :
    ∃ P, IsPerfectMatching m P ∧ matchingCost dist M ≤ matchingCost dist P := by
  obtain ⟨N, hP, hN⟩ := exists_extension m hm M hnd hlt
  refine ⟨M ++ N, hP, ?_⟩
  rw [matchingCost_append]
  have := matchingCost_nonneg m dist hnn N hN
  omega

/-! ## Correctness of the bitmask table -/

theorem covers_cons (m : Nat) (M : List (Nat × Nat)) (S i j : Nat) (h : Covers m M S)
    (hi : i < m) (hj : j < m) (hij : i ≠ j) (hSi : S.testBit i = false)
    (hSj : S.testBit j = false) :
    Covers m ((i, j) :: M) (S ||| 1 <<< i ||| 1 <<< j) := by
  obtain ⟨hnd, hmem⟩ := h
  have hi' : i ∉ flattenPairs M := fun hc => by
    have := ((hmem i).mp hc).2; rw [hSi] at this; cases this
  have hj' : j ∉ flattenPairs M := fun hc => by
    have := ((hmem j).mp hc).2; rw [hSj] at this; cases this
  refine ⟨?_, ?_⟩
  · simp only [flattenPairs, List.nodup_cons, List.mem_cons]
    exact ⟨fun hc => hc.elim hij hi', hj', hnd⟩
  · intro v
    simp only [flattenPairs, List.mem_cons, testBit_newMask, hmem v, Bool.or_eq_true,
      decide_eq_true_eq]
    constructor
    · rintro (h | h | h)
      · subst h; exact ⟨hi, Or.inl (Or.inr rfl)⟩
      · subst h; exact ⟨hj, Or.inr rfl⟩
      · exact ⟨h.1, Or.inl (Or.inl h.2)⟩
    · rintro ⟨h1, (h2 | h2) | h2⟩
      · exact Or.inr (Or.inr ⟨h1, h2⟩)
      · exact Or.inl h2.symm
      · exact Or.inr (Or.inl h2.symm)

theorem covers_lt (m : Nat) (M : List (Nat × Nat)) (S : Nat) (h : Covers m M S) :
    ∀ v, v ∈ flattenPairs M → v < m := fun v hv => ((h.2 v).mp hv).1

/-- The cost of disjoint pairs is a non-negative `long long` as soon as the costs of
the perfect matchings are at most `LLONG_MAX`. -/
theorem cost_bounds (m : Nat) (hm : m % 2 = 0) (dist : CostMatrix) (hnn : IsNonneg m dist)
    (hsum : ∀ P, IsPerfectMatching m P → matchingCost dist P ≤ 2 ^ 63 - 1)
    (M : List (Nat × Nat)) (hnd : (flattenPairs M).Nodup)
    (hlt : ∀ v, v ∈ flattenPairs M → v < m) :
    0 ≤ matchingCost dist M ∧ matchingCost dist M ≤ 2 ^ 63 - 1 := by
  obtain ⟨P, hP, hle⟩ := exists_perfect_ge m hm dist hnn M hnd hlt
  exact ⟨matchingCost_nonneg m dist hnn M hlt, le_trans hle (hsum P hP)⟩

/-- Every reached entry of the table is the cost of a list of pairs that covers
exactly the set bits of its mask. -/
theorem tableAfter_sound (m : Nat) (hm : m % 2 = 0) (dist : CostMatrix) (hnn : IsNonneg m dist)
    (hsum : ∀ P, IsPerfectMatching m P → matchingCost dist P ≤ 2 ^ 63 - 1) :
    ∀ k, k ≤ 2 ^ m → ∀ S, S < 2 ^ m → dpAt (tableAfter m dist k) S ≠ LLONG_MAX →
      ∃ M, Covers m M S ∧ matchingCost dist M = dpAt (tableAfter m dist k) S := by
  intro k
  induction k with
  | zero =>
    intro _ S hS hne
    have h0 : tableAfter m dist 0 = initialTable m := rfl
    rw [h0, dpAt_initialTable m S hS] at hne ⊢
    by_cases hS0 : S = 0
    · subst hS0
      refine ⟨[], ⟨List.nodup_nil, fun v => ?_⟩, by simp [matchingCost]⟩
      simp [flattenPairs]
    · rw [if_neg hS0] at hne; exact absurd rfl hne
  | succ k ih =>
    intro hk S hS hne
    have hk' : k < 2 ^ m := by omega
    rw [tableAfter_succ] at hne ⊢
    rcases processMask_cases m dist (tableAfter m dist k) k S with h | ⟨h1, hi, j, hij, hj, hbj, hSeq, hv⟩
    · rw [h] at hne ⊢
      exact ih (by omega) S hS hne
    · obtain ⟨M, hM, hcost⟩ := ih (by omega) k hk' h1
      have hbi := lowestUnset_unset m k hi
      have hcov := covers_cons m M k (lowestUnset m k) j hM hi hj (by omega) hbi hbj
      have hb := cost_bounds m hm dist hnn hsum _ hcov.1 (covers_lt m _ _ hcov)
      refine ⟨(lowestUnset m k, j) :: M, ?_, ?_⟩
      · rw [hSeq]; exact hcov
      · rw [hv, ← hcost]
        simp only [matchingCost] at hb ⊢
        rw [wrap64_of_isLongLong]
        · ring
        · unfold IsLongLong; constructor <;> omega

/-- A reached entry is non-negative. -/
theorem tableAfter_nonneg (m : Nat) (hm : m % 2 = 0) (dist : CostMatrix) (hnn : IsNonneg m dist)
    (hsum : ∀ P, IsPerfectMatching m P → matchingCost dist P ≤ 2 ^ 63 - 1)
    (k : Nat) (hk : k ≤ 2 ^ m) (S : Nat) (hS : S < 2 ^ m) :
    0 ≤ dpAt (tableAfter m dist k) S := by
  by_cases hne : dpAt (tableAfter m dist k) S = LLONG_MAX
  · rw [hne]; decide
  · obtain ⟨M, hM, hcost⟩ := tableAfter_sound m hm dist hnn hsum k hk S hS hne
    rw [← hcost]
    exact matchingCost_nonneg m dist hnn M (covers_lt m M S hM)

theorem eq_fullMask (m P : Nat) (hP : P < 2 ^ m) (h : ∀ v, v < m → P.testBit v = true) :
    P = 2 ^ m - 1 := by
  apply Nat.eq_of_testBit_eq
  intro v
  rw [Nat.testBit_two_pow_sub_one]
  by_cases hv : v < m
  · simp [hv, h v hv]
  · simp only [hv, decide_False]
    apply Nat.testBit_lt_two_pow
    exact lt_of_lt_of_le hP (Nat.pow_le_pow_right (by omega) (by omega))

/-- No entry of the table exceeds `LLONG_MAX`. -/
theorem tableAfter_le_max (m : Nat) (dist : CostMatrix) (k S : Nat) (hS : S < 2 ^ m) :
    dpAt (tableAfter m dist k) S ≤ LLONG_MAX := by
  refine le_trans (tableAfter_mono m dist S (Nat.zero_le k)) ?_
  have h0 : tableAfter m dist 0 = initialTable m := rfl
  rw [h0, dpAt_initialTable m S hS]
  split_ifs
  · decide
  · exact le_refl _

/-- From an entry `dp[P]` that is at most `c` before mask `P` is processed, the
pairs of any matching `R` of the unset indices of `P` are added one by one, the
lowest unset index first: the full mask ends with at most `c` plus the cost
of `R`. -/
theorem tableAfter_complete (m : Nat) (hm : m % 2 = 0) (dist : CostMatrix)
    (hsym : IsSymmetric m dist) (hnn : IsNonneg m dist)
    (hsum : ∀ P, IsPerfectMatching m P → matchingCost dist P ≤ 2 ^ 63 - 1) :
    ∀ (n : Nat) (R : List (Nat × Nat)), R.length = n → ∀ (P k : Nat) (c : Int),
      k ≤ P → P < 2 ^ m → (flattenPairs R).Nodup →
      (∀ v, v ∈ flattenPairs R ↔ (v < m ∧ P.testBit v = false)) →
      dpAt (tableAfter m dist k) P ≤ c → c + matchingCost dist R ≤ 2 ^ 63 - 1 →
      dpAt (tableAfter m dist (2 ^ m)) (2 ^ m - 1) ≤ c + matchingCost dist R := by
  intro n
  induction n with
  | zero =>
    intro R hR P k c hk hP _ hmem hc _
    have hR0 : R = [] := List.length_eq_zero.mp hR
    subst hR0
    have hall : ∀ v, v < m → P.testBit v = true := by
      intro v hv
      by_contra hcon
      have : v ∈ flattenPairs ([] : List (Nat × Nat)) := (hmem v).mpr ⟨hv, by simpa using hcon⟩
      simp [flattenPairs] at this
    have hPf := eq_fullMask m P hP hall
    subst hPf
    simp only [matchingCost, add_zero]
    exact le_trans (tableAfter_mono m dist _ (by omega)) hc
  | succ n ih =>
    intro R hR P k c hk hP hnd hmem hc hcR
    -- the lowest unset index of `P` exists and lies in a pair of `R`
    have hlt : ∀ v, v ∈ flattenPairs R → v < m := fun v hv => ((hmem v).mp hv).1
    have hRnn : 0 ≤ matchingCost dist R := matchingCost_nonneg m dist hnn R hlt
    obtain ⟨p0, hp0⟩ : ∃ p, p ∈ R := by
      cases R with
      | nil => simp at hR
      | cons p R => exact ⟨p, List.mem_cons_self _ _⟩
    have hi : lowestUnset m P < m := by
      by_contra hcon
      have h1 := (mem_flattenPairs_of_mem (a := p0.1) (b := p0.2) hp0).1
      have h2 := (hmem _).mp h1
      have h3 := lowestUnset_below m P p0.1 (by omega)
      rw [h2.2] at h3; cases h3
    have hbi := lowestUnset_unset m P hi
    obtain ⟨a, b, hab, hor⟩ := exists_pair_of_mem ((hmem _).mpr ⟨hi, hbi⟩)
    obtain ⟨R', hperm⟩ : ∃ R', R.Perm ((a, b) :: R') := ⟨_, List.perm_cons_erase hab⟩
    have hlen' : R'.length = n := by
      have := hperm.length_eq
      rw [hR, List.length_cons] at this
      omega
    have hfp := flattenPairs_perm hperm
    have hcostR := matchingCost_perm dist hperm
    simp only [flattenPairs] at hfp
    simp only [matchingCost] at hcostR
    have hnd' : (a :: b :: flattenPairs R').Nodup := hfp.nodup_iff.mp hnd
    simp only [List.nodup_cons, List.mem_cons, not_or] at hnd'
    obtain ⟨⟨hab_ne, ha'⟩, hb', hnd''⟩ := hnd'
    have hma := (hmem a).mp (mem_flattenPairs_of_mem hab).1
    have hmb := (hmem b).mp (mem_flattenPairs_of_mem hab).2
    -- the partner `j` of `i`
    obtain ⟨j, hj, hbj, hij, hentry, hset⟩ : ∃ j, j < m ∧ P.testBit j = false ∧
        lowestUnset m P ≠ j ∧ entry dist a b = entry dist (lowestUnset m P) j ∧
        (∀ v, (v = a ∨ v = b) ↔ (v = lowestUnset m P ∨ v = j)) := by
      rcases hor with h | h
      · exact ⟨b, hmb.1, hmb.2, by rw [h]; exact hab_ne, by rw [h], fun v => by rw [h]⟩
      · refine ⟨a, hma.1, hma.2, by rw [h]; exact fun e => hab_ne e.symm, ?_, fun v => ?_⟩
        · rw [h]; exact hsym a hma.1 b hmb.1
        · rw [h]; exact or_comm
    have hij' : lowestUnset m P < j := by
      rcases Nat.lt_trichotomy (lowestUnset m P) j with h | h | h
      · exact h
      · exact absurd h hij
      · have := lowestUnset_below m P j h
        rw [hbj] at this; cases this
    have hR'lt : ∀ v, v ∈ flattenPairs R' → v < m := fun v hv =>
      hlt v (hfp.mem_iff.mpr (by simp [hv]))
    have hR'nn : 0 ≤ matchingCost dist R' :=
      matchingCost_nonneg m dist hnn _ hR'lt
    have hdnn : 0 ≤ entry dist (lowestUnset m P) j := hnn _ hi _ hj
    -- the entry of `P` when `P` is processed
    have hPle : dpAt (tableAfter m dist P) P ≤ c := le_trans (tableAfter_mono m dist P hk) hc
    by_cases hPne : dpAt (tableAfter m dist P) P = LLONG_MAX
    · have h1 := tableAfter_le_max m dist (2 ^ m) (2 ^ m - 1) (by omega)
      rw [hPne] at hPle
      omega
    have hP0 := tableAfter_nonneg m hm dist hnn hsum P (by omega) P hP
    have hnew := newMask_lt_two_pow m P (lowestUnset m P) j hP hi hj
    have hstep := processMask_bound m dist (tableAfter m dist P) P j hPne hij' hj hbj
      (by rw [tableAfter_length]; exact hnew)
    rw [← tableAfter_succ, wrap64_of_isLongLong (by unfold IsLongLong; constructor <;> omega)]
      at hstep
    have hgt := newMask_gt P (lowestUnset m P) j hij' hbj
    have hres := ih R' hlen'
      (P ||| 1 <<< lowestUnset m P ||| 1 <<< j) (P + 1)
      (c + entry dist (lowestUnset m P) j) (by omega) hnew hnd''
      (by
        intro v
        have h1 : v ∈ flattenPairs R ↔ (v = a ∨ v = b ∨ v ∈ flattenPairs R') := by
          rw [hfp.mem_iff]; simp
        have h2 := hmem v
        have h3 := hset v
        rw [testBit_newMask]
        constructor
        · intro hv
          have hv1 : v ∈ flattenPairs R := h1.mpr (Or.inr (Or.inr hv))
          have hva : v ≠ a := fun e => ha' (e ▸ hv)
          have hvb : v ≠ b := fun e => hb' (e ▸ hv)
          have hvi : ¬ (v = lowestUnset m P ∨ v = j) := fun e => (h3.mpr e).elim hva hvb
          have hv2 := h2.mp hv1
          refine ⟨hv2.1, ?_⟩
          have e1 : ¬ lowestUnset m P = v := fun e => hvi (Or.inl e.symm)
          have e2 : ¬ j = v := fun e => hvi (Or.inr e.symm)
          simp [hv2.2, e1, e2]
        · rintro ⟨hv1, hv2⟩
          simp only [Bool.or_eq_false_iff, decide_eq_false_iff_not] at hv2
          obtain ⟨⟨hv2, hv3⟩, hv4⟩ := hv2
          have hv5 := h1.mp (h2.mpr ⟨hv1, hv2⟩)
          have hvab : ¬ (v = a ∨ v = b) := fun e =>
            (h3.mp e).elim (fun e => hv3 e.symm) (fun e => hv4 e.symm)
          rcases hv5 with e | e | e
          · exact absurd (Or.inl e) hvab
          · exact absurd (Or.inr e) hvab
          · exact e)
      (by omega) (by omega)
    rw [hcostR, hentry]
    have e : c + (entry dist (lowestUnset m P) j + matchingCost dist R')
        = c + entry dist (lowestUnset m P) j + matchingCost dist R' := by ring
    rw [e]
    exact hres

theorem tmod_two_of_even (m : Nat) (hm : m % 2 = 0) : Int.tmod (m : Int) 2 = 0 := by
  rw [Int.tmod_eq_emod (by omega) (by omega)]; omega

theorem tmod_two_of_odd (m : Nat) (hm : m % 2 = 1) : Int.tmod (m : Int) 2 = 1 := by
  rw [Int.tmod_eq_emod (by omega) (by omega)]; omega

theorem stateDPMatching_eq (m : Nat) (hm : m % 2 = 0) (h31 : m < 31) (dist : CostMatrix) :
    stateDPMatching (m : Int) dist = some (dpAt (tableAfter m dist (2 ^ m)) (2 ^ m - 1)) := by
  unfold stateDPMatching finalTable
  have h1 : ¬ Int.tmod (m : Int) 2 = 1 := by rw [tmod_two_of_even m hm]; decide
  have h2 : ¬ ((m : Int) < 0 ∨ 31 ≤ (m : Int)) := by omega
  have h3 : 2 ^ m - 1 + 1 = 2 ^ m := by
    have := Nat.two_pow_pos m
    omega
  rw [if_neg h1, if_neg h2, Int.toNat_ofNat, Nat.one_shiftLeft, h3]

theorem exists_perfectMatching (m : Nat) (hm : m % 2 = 0) : ∃ M, IsPerfectMatching m M := by
  obtain ⟨N, hN, _⟩ := exists_extension m hm [] (by simp [flattenPairs]) (by simp [flattenPairs])
  exact ⟨_, hN⟩

/-- The entry of the full mask at the end of the loop is the minimum cost of a
perfect matching. -/
theorem fullMask_isMin (m : Nat) (hm : m % 2 = 0) (dist : CostMatrix)
    (hsym : IsSymmetric m dist) (hnn : IsNonneg m dist)
    (hsum : ∀ P, IsPerfectMatching m P → matchingCost dist P ≤ 2 ^ 63 - 1) :
    IsMinMatchingCost m dist (dpAt (tableAfter m dist (2 ^ m)) (2 ^ m - 1)) := by
  have hpos := Nat.two_pow_pos m
  have hle : ∀ M, IsPerfectMatching m M →
      dpAt (tableAfter m dist (2 ^ m)) (2 ^ m - 1) ≤ matchingCost dist M := by
    intro M hM
    obtain ⟨hnd, hmem⟩ := (isPerfectMatching_iff m M).mp hM
    have h0 : dpAt (tableAfter m dist 0) 0 ≤ 0 := by
      have : tableAfter m dist 0 = initialTable m := rfl
      rw [this, dpAt_initialTable m 0 hpos, if_pos rfl]
    have := tableAfter_complete m hm dist hsym hnn hsum M.length M rfl 0 0 0 (le_refl _) hpos hnd
      (fun v => by rw [hmem v]; simp) h0 (by have := hsum M hM; omega)
    simpa using this
  refine ⟨?_, hle⟩
  obtain ⟨M0, hM0⟩ := exists_perfectMatching m hm
  by_cases hne : dpAt (tableAfter m dist (2 ^ m)) (2 ^ m - 1) = LLONG_MAX
  · refine ⟨M0, hM0, ?_⟩
    have h1 := hle M0 hM0
    have h2 := hsum M0 hM0
    rw [hne] at h1 ⊢
    unfold LLONG_MAX at h1 ⊢
    omega
  · obtain ⟨M, hM, hcost⟩ := tableAfter_sound m hm dist hnn hsum (2 ^ m) (le_refl _) (2 ^ m - 1)
      (by omega) hne
    refine ⟨M, ?_, hcost⟩
    rw [isPerfectMatching_iff]
    refine ⟨hM.1, fun v => ?_⟩
    rw [hM.2 v, Nat.testBit_two_pow_sub_one]
    simp

/-- The bitmask solver returns the minimum cost of a perfect matching, for every
even `m` that `1 << m` can take. -/
theorem stateDPMatching_isMin (m : Nat) (hm : m % 2 = 0) (h31 : m < 31) (dist : CostMatrix)
    (hsym : IsSymmetric m dist) (hnn : IsNonneg m dist)
    (hsum : ∀ P, IsPerfectMatching m P → matchingCost dist P ≤ 2 ^ 63 - 1) :
    ∃ r, stateDPMatching (m : Int) dist = some r ∧ IsMinMatchingCost m dist r :=
  ⟨_, stateDPMatching_eq m hm h31 dist, fullMask_isMin m hm dist hsym hnn hsum⟩

/-! ## `std::next_permutation` -/

theorem swapFirstGreater_none (a : Nat) (l : List Nat) (h : ∀ c, c ∈ l → c ≤ a) :
    swapFirstGreater a l = none := by
  induction l with
  | nil => rfl
  | cons c cs ih =>
    have hc : ¬ a < c := by have := h c (List.mem_cons_self _ _); omega
    simp only [swapFirstGreater, if_neg hc]
    rw [ih (fun d hd => h d (List.mem_cons_of_mem _ hd))]

theorem swapFirstGreater_append (a y : Nat) (pre post : List Nat) (h : ∀ c, c ∈ pre → c ≤ a)
    (hy : a < y) :
    swapFirstGreater a (pre ++ y :: post) = some (y, pre ++ a :: post) := by
  induction pre with
  | nil => simp [swapFirstGreater, hy]
  | cons c cs ih =>
    have hc : ¬ a < c := by have := h c (List.mem_cons_self _ _); omega
    rw [List.cons_append, swapFirstGreater, if_neg hc,
      ih (fun d hd => h d (List.mem_cons_of_mem _ hd))]
    rfl

/-- On a range in descending order `std::next_permutation` returns `false`. -/
theorem nextPermutation_descending (l : List Nat) (h : l.Pairwise (fun a b => b ≤ a)) :
    nextPermutation l = none := by
  induction l with
  | nil => rfl
  | cons a rest ih =>
    rw [List.pairwise_cons] at h
    simp only [nextPermutation, ih h.2]
    rw [swapFirstGreater_none a rest.reverse (fun c hc => h.1 c (List.mem_reverse.mp hc))]

theorem nextPermutation_reverse_sorted (s : List Nat) (h : s.Pairwise (fun a b => a < b)) :
    nextPermutation s.reverse = none := by
  apply nextPermutation_descending
  rw [List.pairwise_reverse]
  exact h.imp (fun hab => le_of_lt hab)

theorem nextPermutation_cons_of_some (x : Nat) {p r : List Nat} (h : nextPermutation p = some r) :
    nextPermutation (x :: p) = some (x :: r) := by
  simp only [nextPermutation, h]

/-! ## Runs of `std::next_permutation` -/

theorem steps_map_cons (x : Nat) : ∀ (L : List (List Nat)) (p q : List Nat), Steps p L q →
    Steps (x :: p) (L.map fun r => x :: r) (x :: q) := by
  intro L
  induction L with
  | nil => intro p q h; simp only [Steps] at h; simp [Steps, h]
  | cons r L ih =>
    intro p q h
    simp only [Steps] at h
    simp only [List.map_cons, Steps]
    exact ⟨nextPermutation_cons_of_some x h.1, ih r q h.2⟩

theorem steps_append : ∀ (L1 : List (List Nat)) (p q r t : List Nat) (L2 : List (List Nat)),
    Steps p L1 q → nextPermutation q = some r → Steps r L2 t → Steps p (L1 ++ r :: L2) t := by
  intro L1
  induction L1 with
  | nil =>
    intro p q r t L2 h1 h2 h3
    simp only [Steps] at h1
    subst h1
    exact ⟨h2, h3⟩
  | cons u L1 ih =>
    intro p q r t L2 h1 h2 h3
    simp only [Steps] at h1
    exact ⟨h1.1, ih u q r t L2 h1.2 h2 h3⟩

/-! ## The enumeration of all arrangements -/

theorem erase_middle (pre post : List Nat) (y : Nat) (h : y ∉ pre) :
    (pre ++ y :: post).erase y = pre ++ post := by
  rw [List.erase_append_right _ h, List.erase_cons_head]

theorem pairwise_lt_middle {pre post : List Nat} {y : Nat}
    (h : (pre ++ y :: post).Pairwise (fun a b => a < b)) :
    (∀ c, c ∈ pre → c < y) ∧ (∀ c, c ∈ post → y < c) ∧ y ∉ pre ∧
      (pre ++ post).Pairwise (fun a b => a < b) := by
  rw [List.pairwise_append] at h
  obtain ⟨h1, h2, h3⟩ := h
  rw [List.pairwise_cons] at h2
  refine ⟨fun c hc => h3 c hc y (List.mem_cons_self _ _), h2.1, ?_, ?_⟩
  · intro hy
    have := h3 y hy y (List.mem_cons_self _ _)
    omega
  · rw [List.pairwise_append]
    exact ⟨h1, h2.2, fun a ha b hb => h3 a ha b (List.mem_cons_of_mem _ hb)⟩

/-- Started on a strictly ascending range, `std::next_permutation` runs through
`lexPerms` and ends on the descending order. -/
theorem lexPerms_steps : ∀ (k : Nat) (s : List Nat), s.length = k →
    s.Pairwise (fun a b => a < b) →
    ∃ L, lexPerms k s = s :: L ∧ Steps s L s.reverse := by
  intro k
  induction k with
  | zero =>
    intro s hs _
    have : s = [] := List.length_eq_zero.mp hs
    subst this
    exact ⟨[], rfl, rfl⟩
  | succ k ih =>
    intro s hs hsorted
    -- the blocks of the elements of a suffix `t` of `s`
    have key : ∀ (t pre : List Nat) (y : Nat), s = pre ++ y :: t →
        ∃ L, (y :: t).flatMap (fun x => (lexPerms k (s.erase x)).map fun p => x :: p)
          = (y :: s.erase y) :: L ∧ Steps (y :: s.erase y) L s.reverse := by
      intro t
      induction t with
      | nil =>
        intro pre y hst
        have hmid := pairwise_lt_middle (hst ▸ hsorted)
        have he : s.erase y = pre := by rw [hst, erase_middle _ _ _ hmid.2.2.1]; simp
        have hlen : (s.erase y).length = k := by
          rw [he]; rw [hst] at hs; simp at hs; exact hs
        obtain ⟨L, hL, hsteps⟩ := ih (s.erase y) hlen (by rw [he]; simpa using hmid.2.2.2)
        refine ⟨L.map fun p => y :: p, by simp [hL], ?_⟩
        have hrev : s.reverse = y :: (s.erase y).reverse := by rw [he, hst]; simp
        rw [hrev]
        exact steps_map_cons y L _ _ hsteps
      | cons y' t iht =>
        intro pre y hst
        have hmid := pairwise_lt_middle (hst ▸ hsorted)
        have he : s.erase y = pre ++ y' :: t := by rw [hst, erase_middle _ _ _ hmid.2.2.1]
        have hlen : (s.erase y).length = k := by
          rw [he]; rw [hst] at hs; simp at hs ⊢; omega
        obtain ⟨L, hL, hsteps⟩ := ih (s.erase y) hlen (by rw [he]; exact hmid.2.2.2)
        have hst' : s = (pre ++ [y]) ++ y' :: t := by rw [hst]; simp
        obtain ⟨L2, hL2, hsteps2⟩ := iht (pre ++ [y]) y' hst'
        have hmid' := pairwise_lt_middle (hst' ▸ hsorted)
        have he' : s.erase y' = pre ++ y :: t := by
          rw [hst', erase_middle _ _ _ hmid'.2.2.1]; simp
        have hnext : nextPermutation (y :: (s.erase y).reverse) = some (y' :: s.erase y') := by
          have h1 : nextPermutation (s.erase y).reverse = none :=
            nextPermutation_reverse_sorted _ (by rw [he]; exact hmid.2.2.2)
          have hyy' : y < y' := hmid.2.1 y' (List.mem_cons_self _ _)
          have h2 : swapFirstGreater y (s.erase y) = some (y', s.erase y') := by
            rw [he, he']
            exact swapFirstGreater_append y y' pre t (fun c hc => le_of_lt (hmid.1 c hc)) hyy'
          simp only [nextPermutation, h1, List.reverse_reverse, h2]
        refine ⟨(L.map fun p => y :: p) ++ (y' :: s.erase y') :: L2, ?_, ?_⟩
        · rw [List.flatMap_cons, hL2, hL]; simp
        · exact steps_append _ _ _ _ _ _ (steps_map_cons y L _ _ hsteps) hnext hsteps2
    cases s with
    | nil => simp at hs
    | cons y t =>
      obtain ⟨L, hL, hsteps⟩ := key t [] y rfl
      refine ⟨L, ?_, ?_⟩
      · have : lexPerms (k + 1) (y :: t)
            = (y :: t).flatMap (fun x => (lexPerms k ((y :: t).erase x)).map fun p => x :: p) := rfl
        rw [this, hL]; simp
      · simpa using hsteps

theorem mem_lexPerms_of_perm : ∀ (k : Nat) (s p : List Nat), s.length = k → p.Perm s →
    p ∈ lexPerms k s := by
  intro k
  induction k with
  | zero =>
    intro s p hs hp
    have : s = [] := List.length_eq_zero.mp hs
    subst this
    simp [lexPerms, hp.eq_nil]
  | succ k ih =>
    intro s p hs hp
    cases p with
    | nil => have := hp.length_eq; simp [hs] at this
    | cons x q =>
      have hx := List.cons_perm_iff_perm_erase.mp hp
      simp only [lexPerms, List.mem_flatMap, List.mem_map]
      refine ⟨x, hx.1, q, ih _ _ ?_ hx.2, rfl⟩
      rw [List.length_erase_of_mem hx.1, hs]; rfl

theorem perm_of_mem_lexPerms : ∀ (k : Nat) (s p : List Nat), s.length = k → p ∈ lexPerms k s →
    p.Perm s := by
  intro k
  induction k with
  | zero =>
    intro s p hs hp
    have : s = [] := List.length_eq_zero.mp hs
    subst this
    simp [lexPerms] at hp
    subst hp
    exact List.Perm.refl _
  | succ k ih =>
    intro s p hs hp
    simp only [lexPerms, List.mem_flatMap, List.mem_map] at hp
    obtain ⟨x, hx, q, hq, rfl⟩ := hp
    have := ih (s.erase x) q (by rw [List.length_erase_of_mem hx, hs]; rfl) hq
    exact List.cons_perm_iff_perm_erase.mpr ⟨hx, this⟩

theorem length_lexPerms : ∀ (k : Nat) (s : List Nat), s.length = k →
    (lexPerms k s).length = Nat.factorial k := by
  intro k
  induction k with
  | zero => intro s _; rfl
  | succ k ih =>
    intro s hs
    have h : ∀ x, x ∈ s → ((lexPerms k (s.erase x)).map fun p => x :: p).length
        = Nat.factorial k := by
      intro x hx
      rw [List.length_map, ih _ (by rw [List.length_erase_of_mem hx, hs]; rfl)]
    have h2 : ∀ (t : List Nat), (∀ x, x ∈ t → x ∈ s) →
        (t.flatMap fun x => (lexPerms k (s.erase x)).map fun p => x :: p).length
          = t.length * Nat.factorial k := by
      intro t
      induction t with
      | nil => intro _; simp
      | cons a t iht =>
        intro ht
        rw [List.flatMap_cons, List.length_append, h a (ht a (List.mem_cons_self _ _)),
          iht (fun x hx => ht x (List.mem_cons_of_mem _ hx)), List.length_cons]
        ring
    have := h2 s (fun x hx => hx)
    simp only [lexPerms]
    rw [this, hs, Nat.factorial_succ]

/-! ## The loop of the brute-force solver -/

theorem isLongLong_wrap64 (x : Int) : IsLongLong (wrap64 x) := by
  unfold IsLongLong wrap64
  have h1 := Int.emod_nonneg (x + 2 ^ 63) (show (2 : Int) ^ 64 ≠ 0 by norm_num)
  have h2 := Int.emod_lt_of_pos (x + 2 ^ 63) (show (0 : Int) < 2 ^ 64 by norm_num)
  constructor <;> omega

theorem pairingCost_eq (dist : CostMatrix) : ∀ (l : List Nat) (acc : Int), IsLongLong acc →
    pairingCost dist acc l = wrap64 (acc + matchingCost dist (pairUp l))
  | [], acc, h => by simp [pairingCost, pairUp, matchingCost, wrap64_of_isLongLong h]
  | [_], acc, h => by simp [pairingCost, pairUp, matchingCost, wrap64_of_isLongLong h]
  | u :: v :: rest, acc, _ => by
    simp only [pairingCost, pairUp, matchingCost]
    rw [pairingCost_eq dist rest _ (isLongLong_wrap64 _), wrap64_add_wrap64, add_assoc]

theorem pairUp_flattenPairs (M : List (Nat × Nat)) : pairUp (flattenPairs M) = M := by
  induction M with
  | nil => rfl
  | cons p M ih => obtain ⟨a, b⟩ := p; simp [flattenPairs, pairUp, ih]

theorem bruteLoop_steps (dist : CostMatrix) (v0 : Nat) : ∀ (L : List (List Nat)) (p q : List Nat)
    (fuel : Nat) (minCost : Int), Steps p L q → nextPermutation q = none → L.length + 1 ≤ fuel →
    bruteLoop dist fuel (v0 :: p) minCost
      = some (((p :: L).map fun r => v0 :: r).foldl
          (fun mc vs => if pairingCost dist 0 vs < mc then pairingCost dist 0 vs else mc)
          minCost) := by
  intro L
  induction L with
  | nil =>
    intro p q fuel minCost hs hq hf
    simp only [Steps] at hs
    subst hs
    obtain ⟨f, rfl⟩ : ∃ f, fuel = f + 1 := ⟨fuel - 1, by simp at hf; omega⟩
    simp [bruteLoop, hq]
  | cons r L ih =>
    intro p q fuel minCost hs hq hf
    simp only [Steps] at hs
    obtain ⟨f, rfl⟩ : ∃ f, fuel = f + 1 := ⟨fuel - 1, by simp at hf; omega⟩
    have := ih r q f (if pairingCost dist 0 (v0 :: p) < minCost then pairingCost dist 0 (v0 :: p)
      else minCost) hs.2 hq (by simp at hf ⊢; omega)
    simp only [bruteLoop, hs.1, this]
    simp

theorem arrangements_steps (v0 : Nat) : ∀ (L : List (List Nat)) (p q : List Nat) (fuel : Nat),
    Steps p L q → nextPermutation q = none → L.length + 1 ≤ fuel →
    arrangements fuel (v0 :: p) = (p :: L).map fun r => v0 :: r := by
  intro L
  induction L with
  | nil =>
    intro p q fuel hs hq hf
    simp only [Steps] at hs
    subst hs
    obtain ⟨f, rfl⟩ : ∃ f, fuel = f + 1 := ⟨fuel - 1, by simp at hf; omega⟩
    simp [arrangements, hq]
  | cons r L ih =>
    intro p q fuel hs hq hf
    simp only [Steps] at hs
    obtain ⟨f, rfl⟩ : ∃ f, fuel = f + 1 := ⟨fuel - 1, by simp at hf; omega⟩
    have := ih r q f hs.2 hq (by simp at hf ⊢; omega)
    simp only [arrangements, hs.1, this]
    simp

/-! ## A running minimum -/

theorem foldl_min_le_init (c : List Nat → Int) (L : List (List Nat)) : ∀ init : Int,
    L.foldl (fun mc vs => if c vs < mc then c vs else mc) init ≤ init := by
  induction L with
  | nil => intro init; exact le_refl _
  | cons vs L ih =>
    intro init
    rw [List.foldl_cons]
    refine le_trans (ih _) ?_
    split_ifs with h
    · exact le_of_lt h
    · exact le_refl _

theorem foldl_min_le_mem (c : List Nat → Int) (L : List (List Nat)) (vs : List Nat)
    (hvs : vs ∈ L) : ∀ init : Int,
    L.foldl (fun mc vs => if c vs < mc then c vs else mc) init ≤ c vs := by
  induction L with
  | nil => cases hvs
  | cons ws L ih =>
    intro init
    rw [List.foldl_cons]
    rcases List.mem_cons.mp hvs with h | h
    · subst h
      refine le_trans (foldl_min_le_init c L _) ?_
      split_ifs with h
      · exact le_refl _
      · exact not_lt.mp h
    · exact ih h _

theorem foldl_min_cases (c : List Nat → Int) (L : List (List Nat)) : ∀ init : Int,
    L.foldl (fun mc vs => if c vs < mc then c vs else mc) init = init ∨
      ∃ vs, vs ∈ L ∧ L.foldl (fun mc vs => if c vs < mc then c vs else mc) init = c vs := by
  induction L with
  | nil => intro init; exact Or.inl rfl
  | cons ws L ih =>
    intro init
    rw [List.foldl_cons]
    rcases ih (if c ws < init then c ws else init) with h | ⟨vs, hvs, h⟩
    · split_ifs at h ⊢ with h1
      · exact Or.inr ⟨ws, List.mem_cons_self _ _, h⟩
      · exact Or.inl h
    · exact Or.inr ⟨vs, List.mem_cons_of_mem _ hvs, h⟩

/-! ## Correctness of the brute-force solver -/

theorem range_eq_zero_cons (n : Nat) (hn : 1 ≤ n) : List.range n = 0 :: List.range' 1 (n - 1) := by
  obtain ⟨k, rfl⟩ : ∃ k, n = k + 1 := ⟨n - 1, by omega⟩
  rw [List.range_eq_range', List.range'_succ]
  simp

/-- The vertex vectors on which the body of the loop runs: `0` followed by the
arrangements of `1, ..., n-1`; and the value the loop returns. -/
theorem bruteLoop_range (n : Nat) (hn : 1 ≤ n) (dist : CostMatrix) (fuel : Nat)
    (hf : Nat.factorial (n - 1) ≤ fuel) :
    arrangements fuel (List.range n)
        = (lexPerms (n - 1) (List.range' 1 (n - 1))).map (fun r => 0 :: r) ∧
      bruteLoop dist fuel (List.range n) LLONG_MAX
        = some (((lexPerms (n - 1) (List.range' 1 (n - 1))).map fun r => 0 :: r).foldl
            (fun mc vs => if pairingCost dist 0 vs < mc then pairingCost dist 0 vs else mc)
            LLONG_MAX) := by
  obtain ⟨L, hL, hsteps⟩ := lexPerms_steps (n - 1) (List.range' 1 (n - 1)) (by simp)
    (List.pairwise_lt_range' 1 (n - 1))
  have hlen := length_lexPerms (n - 1) (List.range' 1 (n - 1)) (by simp)
  rw [hL, List.length_cons] at hlen
  have hend := nextPermutation_reverse_sorted _ (List.pairwise_lt_range' 1 (n - 1))
  rw [range_eq_zero_cons n hn, hL]
  exact ⟨arrangements_steps 0 L _ _ fuel hsteps hend (by omega),
    bruteLoop_steps dist 0 L _ _ fuel LLONG_MAX hsteps hend (by omega)⟩

theorem bruteForceMatchingFuel_eq (n : Nat) (hn : n % 2 = 0) (dist : CostMatrix) (fuel : Nat) :
    bruteForceMatchingFuel fuel (n : Int) dist = bruteLoop dist fuel (List.range n) LLONG_MAX := by
  unfold bruteForceMatchingFuel
  have h1 : ¬ Int.tmod (n : Int) 2 = 1 := by rw [tmod_two_of_even n hn]; decide
  have h2 : ¬ ((n : Int) < 0) := by omega
  rw [if_neg h1, if_neg h2, Int.toNat_ofNat]

theorem factorial_pred_le (n : Nat) : Nat.factorial (n - 1) ≤ Nat.factorial n :=
  Nat.factorial_le (Nat.sub_le n 1)

/-- Every arrangement the loop visits is a perfect matching when read two by
two. -/
theorem isPerfectMatching_of_arrangement (n : Nat) (hn : n % 2 = 0) (h2 : 2 ≤ n) (r : List Nat)
    (hr : r ∈ lexPerms (n - 1) (List.range' 1 (n - 1))) :
    IsPerfectMatching n (pairUp (0 :: r)) := by
  have hperm := perm_of_mem_lexPerms (n - 1) _ r (by simp) hr
  unfold IsPerfectMatching
  have hlen : (0 :: r).length % 2 = 0 := by
    have := hperm.length_eq
    simp at this ⊢
    omega
  rw [flattenPairs_pairUp _ hlen, range_eq_zero_cons n (by omega)]
  exact hperm.cons 0

/-- Every perfect matching is the reading of some arrangement the loop visits. -/
theorem exists_arrangement (n : Nat) (h2 : 2 ≤ n) (dist : CostMatrix) (hsym : IsSymmetric n dist)
    (M : List (Nat × Nat)) (hM : IsPerfectMatching n M) :
    ∃ r, r ∈ lexPerms (n - 1) (List.range' 1 (n - 1)) ∧ Represents (0 :: r) M ∧
      matchingCost dist (pairUp (0 :: r)) = matchingCost dist M := by
  have hmem := (isPerfectMatching_iff n M).mp hM
  obtain ⟨a, b, hab, hor⟩ := exists_pair_of_mem ((hmem.2 0).mpr (by omega))
  obtain ⟨M', hperm⟩ : ∃ M', M.Perm ((a, b) :: M') := ⟨_, List.perm_cons_erase hab⟩
  have hfp := flattenPairs_perm hperm
  have hcost := matchingCost_perm dist hperm
  simp only [flattenPairs] at hfp
  simp only [matchingCost] at hcost
  have ha : a < n := (hmem.2 a).mp (mem_flattenPairs_of_mem hab).1
  have hb : b < n := (hmem.2 b).mp (mem_flattenPairs_of_mem hab).2
  obtain ⟨j, hj1, hj2, hj3⟩ : ∃ j, (a :: b :: flattenPairs M').Perm (0 :: j :: flattenPairs M') ∧
      entry dist a b = entry dist 0 j ∧ ((a, b) = (0, j) ∨ (a, b) = (j, 0)) := by
    rcases hor with h | h
    · exact ⟨b, by rw [← h], by rw [← h], Or.inl (by rw [← h])⟩
    · refine ⟨a, ?_, ?_, Or.inr (by rw [← h])⟩
      · rw [← h]; exact List.Perm.swap _ _ _
      · rw [← h]; exact hsym a ha 0 (by omega)
  have hq : (j :: flattenPairs M').Perm (List.range' 1 (n - 1)) := by
    have h1 : (0 :: j :: flattenPairs M').Perm (List.range n) := (hj1.symm.trans hfp.symm).trans hM
    rw [range_eq_zero_cons n (by omega)] at h1
    exact h1.cons_inv
  have hpu : pairUp (0 :: j :: flattenPairs M') = (0, j) :: M' := by
    simp [pairUp, pairUp_flattenPairs]
  refine ⟨j :: flattenPairs M', mem_lexPerms_of_perm _ _ _ (by simp) hq, ?_, ?_⟩
  · intro c d hcd
    rw [hpu]
    rcases List.mem_cons.mp (hperm.mem_iff.mp hcd) with h | h
    · rw [h]
      rcases hj3 with e | e
      · rw [e]; exact Or.inl (List.mem_cons_self _ _)
      · have e1 : a = j := (Prod.mk.inj e).1
        have e2 : b = 0 := (Prod.mk.inj e).2
        have h1 : c = a := (Prod.mk.inj h).1
        have h2 : d = b := (Prod.mk.inj h).2
        rw [h2, h1, e1, e2]
        exact Or.inr (List.mem_cons_self _ _)
    · exact Or.inl (List.mem_cons_of_mem _ h)
  · rw [hpu, hcost]
    simp only [matchingCost, hj2]

/-- For every even `n ≥ 2` the brute-force solver returns the minimum cost of a
perfect matching, with any bound of at least `(n-1)!` iterations. -/
theorem bruteForceMatchingFuel_isMin (n : Nat) (hn : n % 2 = 0) (h2 : 2 ≤ n) (dist : CostMatrix)
    (hsym : IsSymmetric n dist)
    (hsum : ∀ M, IsPerfectMatching n M → IsLongLong (matchingCost dist M))
    (fuel : Nat) (hf : Nat.factorial (n - 1) ≤ fuel) :
    ∃ r, bruteForceMatchingFuel fuel (n : Int) dist = some r ∧ IsMinMatchingCost n dist r := by
  rw [bruteForceMatchingFuel_eq n hn, (bruteLoop_range n (by omega) dist fuel hf).2]
  refine ⟨_, rfl, ?_⟩
  rw [List.foldl_map]
  have hc : ∀ r, r ∈ lexPerms (n - 1) (List.range' 1 (n - 1)) →
      pairingCost dist 0 (0 :: r) = matchingCost dist (pairUp (0 :: r)) ∧
        matchingCost dist (pairUp (0 :: r)) ≤ LLONG_MAX := by
    intro r hr
    have hP := isPerfectMatching_of_arrangement n hn h2 r hr
    have hll := hsum _ hP
    rw [pairingCost_eq dist _ 0 (by decide), zero_add, wrap64_of_isLongLong hll]
    exact ⟨rfl, hll.2⟩
  constructor
  · -- the result is the cost of a perfect matching
    rcases foldl_min_cases (fun r => pairingCost dist 0 (0 :: r))
      (lexPerms (n - 1) (List.range' 1 (n - 1))) LLONG_MAX with h | ⟨r, hr, h⟩
    · obtain ⟨M0, hM0⟩ := exists_perfectMatching n hn
      obtain ⟨r, hr, _, _⟩ := exists_arrangement n h2 dist hsym M0 hM0
      have h1 := foldl_min_le_mem (fun r => pairingCost dist 0 (0 :: r)) _ r hr LLONG_MAX
      refine ⟨pairUp (0 :: r), isPerfectMatching_of_arrangement n hn h2 r hr, ?_⟩
      have h3 := hc r hr
      rw [h] at h1 ⊢
      rw [h3.1] at h1
      exact le_antisymm h3.2 h1
    · refine ⟨pairUp (0 :: r), isPerfectMatching_of_arrangement n hn h2 r hr, ?_⟩
      rw [h, (hc r hr).1]
  · intro M hM
    obtain ⟨r, hr, _, hcost⟩ := exists_arrangement n h2 dist hsym M hM
    have h1 := foldl_min_le_mem (fun r => pairingCost dist 0 (0 :: r)) _ r hr LLONG_MAX
    rw [(hc r hr).1, hcost] at h1
    exact h1

/-! ## Bounds used to instantiate the theorems -/

theorem bruteLoop_fuel_mono (dist : CostMatrix) : ∀ (fuel : Nat) (vertices : List Nat)
    (minCost r : Int), bruteLoop dist fuel vertices minCost = some r →
    ∀ fuel', fuel ≤ fuel' → bruteLoop dist fuel' vertices minCost = some r := by
  intro fuel
  induction fuel with
  | zero => intro vertices minCost r h; simp [bruteLoop] at h
  | succ fuel ih =>
    intro vertices minCost r h fuel' hf
    obtain ⟨f, rfl⟩ : ∃ f, fuel' = f + 1 := ⟨fuel' - 1, by omega⟩
    cases vertices with
    | nil => simp [bruteLoop] at h
    | cons v0 rest =>
      simp only [bruteLoop] at h ⊢
      cases hnp : nextPermutation rest with
      | none => rw [hnp] at h; exact h
      | some rest' =>
        rw [hnp] at h
        exact ih _ _ _ h f (by omega)

theorem perfect_length (n : Nat) (M : List (Nat × Nat)) (h : IsPerfectMatching n M) :
    2 * M.length = n := by
  have := h.length_eq
  rw [length_flattenPairs, List.length_range] at this
  exact this

theorem matchingCost_le_mul (n : Nat) (dist : CostMatrix) (C : Int)
    (hC : ∀ u, u < n → ∀ v, v < n → entry dist u v ≤ C) (M : List (Nat × Nat))
    (hM : ∀ v, v ∈ flattenPairs M → v < n) : matchingCost dist M ≤ C * M.length := by
  induction M with
  | nil => simp [matchingCost]
  | cons p M ih =>
    obtain ⟨a, b⟩ := p
    have ha : a < n := hM a (by simp [flattenPairs])
    have hb : b < n := hM b (by simp [flattenPairs])
    have h1 := hC a ha b hb
    have h2 := ih (fun v hv => hM v (by simp [flattenPairs, hv]))
    simp only [matchingCost, List.length_cons, Nat.cast_add, Nat.cast_one]
    linarith

/-- The cost of a perfect matching of `n` indices is at most `n / 2` times the
largest entry. -/
theorem perfect_cost_le (n : Nat) (dist : CostMatrix) (C : Int)
    (hC : ∀ u, u < n → ∀ v, v < n → entry dist u v ≤ C) (M : List (Nat × Nat))
    (hM : IsPerfectMatching n M) : 2 * matchingCost dist M ≤ C * n := by
  have h1 := matchingCost_le_mul n dist C hC M
    (fun v hv => ((isPerfectMatching_iff n M).mp hM).2 v |>.mp hv)
  have h2 := perfect_length n M hM
  have h3 : (n : Int) = 2 * (M.length : Int) := by exact_mod_cast h2.symm
  rw [h3]
  linarith

theorem isMin_unique (n : Nat) (dist : CostMatrix) (r r' : Int) (h : IsMinMatchingCost n dist r)
    (h' : IsMinMatchingCost n dist r') : r = r' := by
  obtain ⟨⟨M, hM, hc⟩, hle⟩ := h
  obtain ⟨⟨M', hM', hc'⟩, hle'⟩ := h'
  have h1 := hle M' hM'
  have h2 := hle' M hM
  omega

theorem bruteForceMatching_isMin (n : Nat) (hn : n % 2 = 0) (h2 : 2 ≤ n) (dist : CostMatrix)
    (hsym : IsSymmetric n dist)
    (hsum : ∀ M, IsPerfectMatching n M → IsLongLong (matchingCost dist M)) :
    ∃ r, bruteForceMatching (n : Int) dist = some r ∧ IsMinMatchingCost n dist r := by
  unfold bruteForceMatching
  rw [Int.toNat_ofNat]
  exact bruteForceMatchingFuel_isMin n hn h2 dist hsym hsum _ (factorial_pred_le n)

/-! ## The claims on the two matrix solvers -/

/-- Claim C1: for every even `m` with `0 ≤ m ≤ 24` and every `m × m` symmetric
matrix of non-negative costs whose matching sums stay below `2^63 - 1`,
`stateDPMatching(m, dist)` returns the minimum, over the perfect matchings
of `{0, ..., m-1}`, of the sum of `dist[i][j]` over the pairs. -/
theorem stateDPMatching_returns_minimum (m : Nat) (hm : m % 2 = 0) (h24 : m ≤ 24)
    (dist : CostMatrix) (_hsq : IsSquare m dist) (hsym : IsSymmetric m dist)
    (hnn : IsNonneg m dist)
    (hsum : ∀ M, IsPerfectMatching m M → matchingCost dist M < 2 ^ 63 - 1) :
    ∃ r, stateDPMatching (m : Int) dist = some r ∧ IsMinMatchingCost m dist r :=
  stateDPMatching_isMin m hm (by omega) dist hsym hnn (fun M hM => le_of_lt (hsum M hM))

theorem stateDPMatching_returns_minimum_witness :
    ∃ r, stateDPMatching ((4 : Nat) : Int) exampleMatrix = some r ∧
      IsMinMatchingCost 4 exampleMatrix r :=
  stateDPMatching_returns_minimum 4 (by decide) (by decide) exampleMatrix (by decide)
    (by decide) (by decide)
    (fun M hM => by
      have := perfect_cost_le 4 exampleMatrix 6 (by decide) M hM
      omega)

/-- Claim C2: for every even `n ≥ 2` and every `n × n` symmetric matrix whose
matching sums fit in 64 bits, `bruteForceMatching(n, dist)` returns the
minimum, over the perfect matchings of `{0, ..., n-1}`, of the sum of
`dist[i][j]` over the pairs; every perfect matching is represented by a vertex
sequence the loop enumerates, and every enumerated sequence, read two by
two, is a perfect matching. -/
theorem bruteForceMatching_returns_minimum (n : Nat) (hn : n % 2 = 0) (h2 : 2 ≤ n)
    (dist : CostMatrix) (_hsq : IsSquare n dist) (hsym : IsSymmetric n dist)
    (hsum : ∀ M, IsPerfectMatching n M → IsLongLong (matchingCost dist M)) :
    (∃ r, bruteForceMatching (n : Int) dist = some r ∧ IsMinMatchingCost n dist r) ∧
      (∀ M, IsPerfectMatching n M →
        ∃ p, p ∈ arrangements (Nat.factorial n) (List.range n) ∧ Represents p M) ∧
      (∀ p, p ∈ arrangements (Nat.factorial n) (List.range n) →
        IsPerfectMatching n (pairUp p)) := by
  have harr := (bruteLoop_range n (by omega) dist (Nat.factorial n) (factorial_pred_le n)).1
  refine ⟨bruteForceMatching_isMin n hn h2 dist hsym hsum, ?_, ?_⟩
  · intro M hM
    obtain ⟨r, hr, hrep, _⟩ := exists_arrangement n h2 dist hsym M hM
    exact ⟨0 :: r, by rw [harr]; exact List.mem_map.mpr ⟨r, hr, rfl⟩, hrep⟩
  · intro p hp
    rw [harr] at hp
    obtain ⟨r, hr, rfl⟩ := List.mem_map.mp hp
    exact isPerfectMatching_of_arrangement n hn h2 r hr

theorem bruteForceMatching_returns_minimum_witness :
    (∃ r, bruteForceMatching ((4 : Nat) : Int) exampleMatrix = some r ∧
        IsMinMatchingCost 4 exampleMatrix r) ∧
      (∀ M, IsPerfectMatching 4 M →
        ∃ p, p ∈ arrangements (Nat.factorial 4) (List.range 4) ∧ Represents p M) ∧
      (∀ p, p ∈ arrangements (Nat.factorial 4) (List.range 4) →
        IsPerfectMatching 4 (pairUp p)) :=
  bruteForceMatching_returns_minimum 4 (by decide) (by decide) exampleMatrix (by decide)
    (by decide)
    (fun M hM => by
      have h1 := perfect_cost_le 4 exampleMatrix 6 (by decide) M hM
      have h2 := matchingCost_nonneg 4 exampleMatrix (by decide) M
        (fun v hv => ((isPerfectMatching_iff 4 M).mp hM).2 v |>.mp hv)
      unfold IsLongLong
      constructor <;> omega)

/-- Raising entries raises the cost of every list of pairs. -/
theorem matchingCost_mono (n : Nat) (dist dist' : CostMatrix)
    (hle : ∀ u, u < n → ∀ v, v < n → entry dist u v ≤ entry dist' u v) (M : List (Nat × Nat))
    (hM : ∀ v, v ∈ flattenPairs M → v < n) : matchingCost dist M ≤ matchingCost dist' M := by
  induction M with
  | nil => exact le_refl _
  | cons p M ih =>
    obtain ⟨a, b⟩ := p
    have ha : a < n := hM a (by simp [flattenPairs])
    have hb : b < n := hM b (by simp [flattenPairs])
    have h1 := hle a ha b hb
    have h2 := ih (fun v hv => hM v (by simp [flattenPairs, hv]))
    simp only [matchingCost]
    omega

/-- Two matrices that agree outside the pair `{i, j}` give the same cost to a
list of pairs that does not contain it. -/
theorem matchingCost_congr (n : Nat) (dist dist' : CostMatrix) (i j : Nat)
    (hsame : ∀ u, u < n → ∀ v, v < n → ¬ (u = i ∧ v = j) → ¬ (u = j ∧ v = i) →
      entry dist' u v = entry dist u v)
    (M : List (Nat × Nat)) (hM : ∀ v, v ∈ flattenPairs M → v < n)
    (hij : (i, j) ∉ M ∧ (j, i) ∉ M) : matchingCost dist' M = matchingCost dist M := by
  induction M with
  | nil => rfl
  | cons p M ih =>
    obtain ⟨a, b⟩ := p
    have ha : a < n := hM a (by simp [flattenPairs])
    have hb : b < n := hM b (by simp [flattenPairs])
    have h1 : entry dist' a b = entry dist a b := by
      apply hsame a ha b hb
      · rintro ⟨rfl, rfl⟩; exact hij.1 (List.mem_cons_self _ _)
      · rintro ⟨rfl, rfl⟩; exact hij.2 (List.mem_cons_self _ _)
    have h2 := ih (fun v hv => hM v (by simp [flattenPairs, hv]))
      ⟨fun h => hij.1 (List.mem_cons_of_mem _ h), fun h => hij.2 (List.mem_cons_of_mem _ h)⟩
    simp only [matchingCost, h1, h2]

theorem perfect_lt (n : Nat) (M : List (Nat × Nat)) (hM : IsPerfectMatching n M) :
    ∀ v, v ∈ flattenPairs M → v < n :=
  fun v hv => ((isPerfectMatching_iff n M).mp hM).2 v |>.mp hv

/-- With non-negative costs whose matching sums are at most `LLONG_MAX`, both matrix
solvers return the minimum cost of a perfect matching. -/
theorem both_isMin (n : Nat) (hn : n % 2 = 0) (h2 : 2 ≤ n) (h30 : n ≤ 30) (dist : CostMatrix)
    (hsym : IsSymmetric n dist) (hnn : IsNonneg n dist)
    (hsum : ∀ M, IsPerfectMatching n M → matchingCost dist M ≤ 2 ^ 63 - 1) :
    ∃ r, bruteForceMatching (n : Int) dist = some r ∧ stateDPMatching (n : Int) dist = some r ∧
      IsMinMatchingCost n dist r := by
  obtain ⟨r, hr, hmin⟩ := stateDPMatching_isMin n hn (by omega) dist hsym hnn hsum
  obtain ⟨r', hr', hmin'⟩ := bruteForceMatching_isMin n hn h2 dist hsym (fun M hM => by
    have h1 := hsum M hM
    have h2 := matchingCost_nonneg n dist hnn M (perfect_lt n M hM)
    unfold IsLongLong
    constructor <;> omega)
  have := isMin_unique n dist r r' hmin hmin'
  subst this
  exact ⟨r, hr', hr, hmin⟩

/-- Claim C3, as stated, fails: on a symmetric non-negative 4 x 4 matrix with an
entry `LLONG_MAX` the sum of one matching wraps around; the brute-force solver
returns the wrapped sum `-2^63`, the bitmask solver returns 10. -/
theorem brute_stateDP_differ_on_overflow :
    IsSquare 4 overflowMatrix ∧ IsSymmetric 4 overflowMatrix ∧ IsNonneg 4 overflowMatrix ∧
      (∀ row, row ∈ overflowMatrix → ∀ x, x ∈ row → IsLongLong x) ∧
      bruteForceMatching 4 overflowMatrix = some (-2 ^ 63) ∧
      stateDPMatching 4 overflowMatrix = some 10 ∧
      bruteForceMatching 4 overflowMatrix ≠ stateDPMatching 4 overflowMatrix := by
  refine ⟨by decide, by decide, by decide, by decide, by decide, by decide, by decide⟩

/-- Claim C3, amended: for every even `n` with `2 ≤ n ≤ 30` and every `n × n`
symmetric matrix of non-negative costs whose perfect-matching sums are all at
most `2^63 - 1`, `bruteForceMatching(n, dist)` and `stateDPMatching(n, dist)`
return the same value. -/
theorem brute_agrees_with_stateDP (n : Nat) (hn : n % 2 = 0) (h2 : 2 ≤ n) (h30 : n ≤ 30)
    (dist : CostMatrix) (_hsq : IsSquare n dist) (hsym : IsSymmetric n dist)
    (hnn : IsNonneg n dist)
    (hsum : ∀ M, IsPerfectMatching n M → matchingCost dist M ≤ 2 ^ 63 - 1) :
    ∃ r, bruteForceMatching (n : Int) dist = some r ∧ stateDPMatching (n : Int) dist = some r := by
  obtain ⟨r, h1, h2, _⟩ := both_isMin n hn h2 h30 dist hsym hnn hsum
  exact ⟨r, h1, h2⟩

theorem brute_agrees_with_stateDP_witness :
    ∃ r, bruteForceMatching ((4 : Nat) : Int) exampleMatrix = some r ∧
      stateDPMatching ((4 : Nat) : Int) exampleMatrix = some r :=
  brute_agrees_with_stateDP 4 (by decide) (by decide) (by decide) exampleMatrix (by decide)
    (by decide) (by decide)
    (fun M hM => by
      have := perfect_cost_le 4 exampleMatrix 6 (by decide) M hM
      omega)

/-- Claim C5: for every odd `n ≥ 1` and every matrix argument, of any shape,
`bruteForceMatching(n, dist)` and `stateDPMatching(n, dist)` return `-1`; and
for every point sequence of odd length `intervalDPMatching` returns `-1.0`. -/
theorem odd_count_returns_sentinel (n : Nat) (hn : n % 2 = 1) (dist : CostMatrix)
    {K : Type} [LinearOrderedField K] (sqrt : K → K) (points : List (Point K))
    (hp : points.length % 2 = 1) :
    bruteForceMatching (n : Int) dist = some (-1) ∧
      stateDPMatching (n : Int) dist = some (-1) ∧
      intervalDPMatching sqrt points = some (-1) := by
  have h := tmod_two_of_odd n hn
  refine ⟨?_, ?_, ?_⟩
  · simp [bruteForceMatching, bruteForceMatchingFuel, h]
  · simp [stateDPMatching, h]
  · simp [intervalDPMatching, hp]

theorem odd_count_returns_sentinel_witness :
    bruteForceMatching ((3 : Nat) : Int) [[7]] = some (-1) ∧
      stateDPMatching ((3 : Nat) : Int) [[7]] = some (-1) ∧
      intervalDPMatching (fun x : ℚ => x) [⟨0, 0⟩, ⟨1, 0⟩, ⟨2, 5⟩] = some (-1) :=
  odd_count_returns_sentinel 3 (by decide) [[7]] (fun x : ℚ => x) [⟨0, 0⟩, ⟨1, 0⟩, ⟨2, 5⟩]
    (by decide)

/-- Claim C7: for `n = 2` every solver returns the single pairwise cost: for
every 2 x 2 matrix of `long long` entries `bruteForceMatching(2, dist)` and
`stateDPMatching(2, dist)` return `dist[0][1]`, and for every sequence of two
points `intervalDPMatching` returns `euclideanDist(points[0], points[1])`. -/
theorem two_vertices_return_pair_cost (dist : CostMatrix) (_hsq : IsSquare 2 dist)
    (hd : IsLongLong (entry dist 0 1))
    {K : Type} [LinearOrderedField K] (sqrt : K → K) (p q : Point K) :
    bruteForceMatching 2 dist = some (entry dist 0 1) ∧
      stateDPMatching 2 dist = some (entry dist 0 1) ∧
      intervalDPMatching sqrt [p, q] = some (euclideanDist sqrt p q) := by
  have hw := wrap64_of_isLongLong hd
  have hle : entry dist 0 1 ≤ LLONG_MAX := hd.2
  have h0 : (0 : Int) ≠ LLONG_MAX := by decide
  refine ⟨?_, ?_, ?_⟩
  · simp [bruteForceMatching, bruteForceMatchingFuel, Nat.factorial, bruteLoop, List.range,
      List.range.loop, nextPermutation, swapFirstGreater, pairingCost, hw]
    intro h
    omega
  · simp [stateDPMatching, finalTable, tableAfter, initialTable, processMask, List.range,
      List.range.loop, lowestUnset, lowestUnsetFrom, bitSet, dpAt, relax, List.range', hw, h0]
    split_ifs with h
    · simp
    · simp; omega
  · simp [intervalDPMatching, intervalTable, baseDP, distTable, initialDP, tableSet, tableAt,
      pointAt, List.range, List.range.loop]

theorem two_vertices_return_pair_cost_witness :
    bruteForceMatching 2 [[0, 9], [9, 0]] = some (entry [[0, 9], [9, 0]] 0 1) ∧
      stateDPMatching 2 [[0, 9], [9, 0]] = some (entry [[0, 9], [9, 0]] 0 1) ∧
      intervalDPMatching (fun x : ℚ => x) [⟨0, 0⟩, ⟨3, 4⟩]
        = some (euclideanDist (fun x : ℚ => x) ⟨0, 0⟩ ⟨3, 4⟩) :=
  two_vertices_return_pair_cost [[0, 9], [9, 0]] (by decide) (by decide) (fun x : ℚ => x)
    ⟨0, 0⟩ ⟨3, 4⟩

/-- Claim C8, evaluated on the code: for `n = 0` the loop of `bruteForceMatching`
runs its body once and then calls `std::next_permutation` on the invalid
range `[begin() + 1, end())` of an empty vector, so no number of iterations
yields a value; `stateDPMatching(0, dist)` returns 0. -/
theorem bruteForce_empty_undefined :
    (∀ fuel, bruteForceMatchingFuel fuel 0 [] = none) ∧ bruteForceMatching 0 [] = none ∧
      stateDPMatching 0 [] = some 0 := by
  refine ⟨?_, by decide, by decide⟩
  intro fuel
  cases fuel <;> simp [bruteForceMatchingFuel, bruteLoop]

/-- Claim C9, as stated, fails: on the example matrix neither solver returns 4. -/
theorem spec_example_not_four :
    bruteForceMatching 4 exampleMatrix ≠ some 4 ∧ stateDPMatching 4 exampleMatrix ≠ some 4 := by
  constructor <;> decide

/-- Claim C9, amended: on `n = 4` with the cost matrix
`[[0,1,4,3],[1,0,2,5],[4,2,0,6],[3,5,6,0]]`, `bruteForceMatching` and
`stateDPMatching` both return 5, the cost of the pairing `{0,3}, {1,2}`. -/
theorem spec_example_returns_five :
    bruteForceMatching 4 exampleMatrix = some 5 ∧ stateDPMatching 4 exampleMatrix = some 5 ∧
      IsPerfectMatching 4 [(0, 3), (1, 2)] ∧ matchingCost exampleMatrix [(0, 3), (1, 2)] = 5 := by
  refine ⟨by decide, by decide, by decide, by decide⟩

/-- Claim C10, as stated, fails: raising the entry of the pair `{0, 1}` of a
symmetric non-negative 4 x 4 matrix from 3 to `LLONG_MAX - 1` makes the sum of
the matching `{0,1}, {2,3}` wrap around, and both solvers return less than
before. -/
theorem raising_edge_lowers_result :
    IsSquare 4 cheapEdgeMatrix ∧ IsSquare 4 dearEdgeMatrix ∧
      IsSymmetric 4 cheapEdgeMatrix ∧ IsSymmetric 4 dearEdgeMatrix ∧
      IsNonneg 4 cheapEdgeMatrix ∧ IsNonneg 4 dearEdgeMatrix ∧
      (∀ row, row ∈ dearEdgeMatrix → ∀ x, x ∈ row → IsLongLong x) ∧
      (∀ u, u < 4 → ∀ v, v < 4 → ¬ (u = 0 ∧ v = 1) → ¬ (u = 1 ∧ v = 0) →
        entry dearEdgeMatrix u v = entry cheapEdgeMatrix u v) ∧
      entry cheapEdgeMatrix 0 1 < entry dearEdgeMatrix 0 1 ∧
      stateDPMatching 4 cheapEdgeMatrix = some 8 ∧
      stateDPMatching 4 dearEdgeMatrix = some (-2 ^ 63 + 3) ∧
      bruteForceMatching 4 cheapEdgeMatrix = some 8 ∧
      bruteForceMatching 4 dearEdgeMatrix = some (-2 ^ 63 + 3) := by
  refine ⟨by decide, by decide, by decide, by decide, by decide, by decide, by decide,
    by decide, by decide, by decide, by decide, by decide, by decide⟩

/-- Claim C10, amended: for every even `n ≤ 30` and every two `n × n` symmetric
non-negative matrices `dist` and `dist'` that differ only in the entries
`[i][j]` and `[j][i]` of one pair `i ≠ j`, with `dist'[i][j] > dist[i][j]` and
all perfect-matching sums under `dist'` at most `2^63 - 1`, the result of
`stateDPMatching` and of `bruteForceMatching` under `dist'` is at least the
result under `dist`; the two are equal whenever no minimum-cost perfect
matching under `dist` contains the pair `{i, j}`. -/
theorem single_edge_monotone (n : Nat) (hn : n % 2 = 0) (h30 : n ≤ 30)
    (dist dist' : CostMatrix) (_hsq : IsSquare n dist) (_hsq' : IsSquare n dist')
    (hsym : IsSymmetric n dist) (hsym' : IsSymmetric n dist')
    (hnn : IsNonneg n dist) (hnn' : IsNonneg n dist')
    (i j : Nat) (hi : i < n) (hj : j < n) (_hij : i ≠ j)
    (hsame : ∀ u, u < n → ∀ v, v < n → ¬ (u = i ∧ v = j) → ¬ (u = j ∧ v = i) →
      entry dist' u v = entry dist u v)
    (hinc : entry dist i j < entry dist' i j)
    (hsum' : ∀ M, IsPerfectMatching n M → matchingCost dist' M ≤ 2 ^ 63 - 1) :
    ∃ r r', stateDPMatching (n : Int) dist = some r ∧ stateDPMatching (n : Int) dist' = some r' ∧
      bruteForceMatching (n : Int) dist = some r ∧ bruteForceMatching (n : Int) dist' = some r' ∧
      r ≤ r' ∧
      ((∀ M, IsPerfectMatching n M → matchingCost dist M = r → (i, j) ∉ M ∧ (j, i) ∉ M) →
        r' = r) := by
  have h2 : 2 ≤ n := by omega
  have hle : ∀ u, u < n → ∀ v, v < n → entry dist u v ≤ entry dist' u v := by
    intro u hu v hv
    by_cases h1 : u = i ∧ v = j
    · rw [h1.1, h1.2]; exact le_of_lt hinc
    · by_cases h2 : u = j ∧ v = i
      · rw [h2.1, h2.2, hsym j hj i hi, hsym' j hj i hi]; exact le_of_lt hinc
      · exact le_of_eq (hsame u hu v hv h1 h2).symm
  have hsum : ∀ M, IsPerfectMatching n M → matchingCost dist M ≤ 2 ^ 63 - 1 := fun M hM =>
    le_trans (matchingCost_mono n dist dist' hle M (perfect_lt n M hM)) (hsum' M hM)
  obtain ⟨r, hb, hs, hmin⟩ := both_isMin n hn h2 h30 dist hsym hnn hsum
  obtain ⟨r', hb', hs', hmin'⟩ := both_isMin n hn h2 h30 dist' hsym' hnn' hsum'
  refine ⟨r, r', hs, hs', hb, hb', ?_, ?_⟩
  · obtain ⟨M', hM', hc'⟩ := hmin'.1
    have h1 := hmin.2 M' hM'
    have h2 := matchingCost_mono n dist dist' hle M' (perfect_lt n M' hM')
    omega
  · intro hno
    obtain ⟨M, hM, hc⟩ := hmin.1
    obtain ⟨M', hM', hc'⟩ := hmin'.1
    have h1 := hmin.2 M' hM'
    have h2 := matchingCost_mono n dist dist' hle M' (perfect_lt n M' hM')
    have h3 := matchingCost_congr n dist dist' i j hsame M (perfect_lt n M hM) (hno M hM hc)
    have h4 := hmin'.2 M hM
    omega

theorem single_edge_monotone_witness :
    ∃ r r', stateDPMatching ((4 : Nat) : Int) exampleMatrix = some r ∧
      stateDPMatching ((4 : Nat) : Int) raisedMatrix = some r' ∧
      bruteForceMatching ((4 : Nat) : Int) exampleMatrix = some r ∧
      bruteForceMatching ((4 : Nat) : Int) raisedMatrix = some r' ∧
      r ≤ r' ∧
      ((∀ M, IsPerfectMatching 4 M → matchingCost exampleMatrix M = r →
          (0, 1) ∉ M ∧ (1, 0) ∉ M) → r' = r) :=
  single_edge_monotone 4 (by decide) (by decide) exampleMatrix raisedMatrix (by decide)
    (by decide) (by decide) (by decide) (by decide) (by decide) 0 1 (by decide) (by decide)
    (by decide) (by decide) (by decide)
    (fun M hM => by
      have := perfect_cost_le 4 raisedMatrix 6 (by decide) M hM
      omega)

/-! ## Two-dimensional tables -/

theorem isTable_row {K : Type} {m : Nat} {t : List (List K)} (h : IsTable m t) (i : Nat) (hi : i < m) :
    (t.getD i []).length = m := by
  apply h.2
  have hi' : i < t.length := by rw [h.1]; exact hi
  rw [List.getD_eq_getElem?_getD, List.getElem?_eq_getElem hi']
  exact List.getElem_mem _

theorem isTable_tableSet {K : Type} [LinearOrderedField K] {m : Nat} {t : List (List K)} (h : IsTable m t) (i j : Nat) (v : K) :
    IsTable m (tableSet t i j v) := by
  unfold tableSet
  refine ⟨by rw [List.length_set]; exact h.1, ?_⟩
  intro row hrow
  rcases List.mem_or_eq_of_mem_set hrow with h1 | h1
  · exact h.2 row h1
  · rw [h1, List.length_set]
    by_cases hi : i < m
    · exact isTable_row h i hi
    · have hlen : t.length ≤ i := by rw [h.1]; omega
      rw [List.set_eq_of_length_le hlen] at hrow
      have hnil : t.getD i [] = [] := by
        rw [List.getD_eq_getElem?_getD, List.getElem?_eq_none hlen]; rfl
      rw [h1, hnil] at hrow
      have := h.2 _ hrow
      rw [hnil]
      simpa using this

theorem tableAt_tableSet {K : Type} [LinearOrderedField K] {m : Nat} {t : List (List K)} (h : IsTable m t) (i j : Nat) (v : K)
    (hi : i < m) (hj : j < m) (a b : Nat) :
    tableAt (tableSet t i j v) a b = if a = i ∧ b = j then v else tableAt t a b := by
  have hi' : i < t.length := by rw [h.1]; exact hi
  have hj' : j < (t.getD i []).length := by rw [isTable_row h i hi]; exact hj
  unfold tableAt tableSet
  simp only [List.getD_eq_getElem?_getD, List.getElem?_set]
  by_cases hai : a = i
  · subst hai
    simp only [true_and, hi', if_true, Option.getD_some, List.getElem?_set]
    by_cases hbj : b = j
    · subst hbj
      simp only [List.getD_eq_getElem?_getD] at hj'
      simp [hj']
    · have : ¬ j = b := fun e => hbj e.symm
      simp [this, hbj]
  · have : ¬ i = a := fun e => hai e.symm
    simp [this, hai]

theorem isTable_initialDP {K : Type} [LinearOrderedField K] (m : Nat) : IsTable m (initialDP m : List (List K)) := by
  unfold initialDP
  refine ⟨by simp, ?_⟩
  intro row hrow
  rw [(List.mem_replicate.mp hrow).2]
  simp

theorem tableAt_initialDP {K : Type} [LinearOrderedField K] (m a b : Nat) (ha : a < m) (hb : b < m) :
    tableAt (initialDP m : List (List K)) a b = (DBL_MAX : K) := by
  unfold tableAt initialDP
  simp [List.getElem?_replicate, ha, hb]

theorem tableAt_distTable {K : Type} [LinearOrderedField K] (sqrt : K → K) (points : List (Point K)) (i j : Nat)
    (hi : i < points.length) (hj : j < points.length) (hij : i < j) :
    tableAt (distTable sqrt points) i j
      = euclideanDist sqrt (pointAt points i) (pointAt points j) := by
  unfold tableAt distTable
  simp [List.getElem?_map, List.getElem?_range, hi, hj, hij]

theorem euclideanDist_comm {K : Type} [LinearOrderedField K] (sqrt : K → K) (a b : Point K) :
    euclideanDist sqrt a b = euclideanDist sqrt b a := by
  unfold euclideanDist
  have h : (a.x - b.x) * (a.x - b.x) + (a.y - b.y) * (a.y - b.y)
      = (b.x - a.x) * (b.x - a.x) + (b.y - a.y) * (b.y - a.y) := by ring
  simp only [h]

/-! ## Matchings of a range of points -/

theorem matchingLength_append {K : Type} [LinearOrderedField K] (sqrt : K → K)
    (points : List (Point K)) (M N : List (Nat × Nat)) :
    matchingLength sqrt points (M ++ N)
      = matchingLength sqrt points M + matchingLength sqrt points N := by
  induction M with
  | nil => simp [matchingLength]
  | cons p M ih => obtain ⟨a, b⟩ := p; simp [matchingLength, ih, add_assoc]

theorem matchingLength_nonneg {K : Type} [LinearOrderedField K] (sqrt : K → K)
    (hs : ∀ x, 0 ≤ sqrt x) (points : List (Point K)) (M : List (Nat × Nat)) :
    0 ≤ matchingLength sqrt points M := by
  induction M with
  | nil => exact le_refl _
  | cons p M ih =>
    obtain ⟨a, b⟩ := p
    simp only [matchingLength]
    exact add_nonneg (hs _) ih

/-- The total length of a matching of a range of the points is non-negative and
below `DBL_MAX` as soon as the lengths of the perfect matchings are. -/
theorem rangeMatching_bounds {K : Type} [LinearOrderedField K] (sqrt : K → K)
    (hs : ∀ x, 0 ≤ sqrt x) (points : List (Point K)) (hm : points.length % 2 = 0)
    (hsum : ∀ M, IsPerfectMatching points.length M →
      matchingLength sqrt points M < (DBL_MAX : K))
    (s len : Nat) (v : K) (hr : s + len ≤ points.length)
    (h : IsRangeMatching sqrt points s len v) : 0 ≤ v ∧ v < (DBL_MAX : K) := by
  obtain ⟨M, hM, rfl⟩ := h
  refine ⟨matchingLength_nonneg sqrt hs points M, ?_⟩
  have hnd : (flattenPairs M).Nodup := hM.nodup_iff.mpr (List.nodup_range' s len)
  have hlt : ∀ v, v ∈ flattenPairs M → v < points.length := by
    intro v hv
    have := hM.mem_iff.mp hv
    rw [List.mem_range'_1] at this
    omega
  obtain ⟨N, hP, _⟩ := exists_extension points.length hm M hnd hlt
  have h1 := hsum _ hP
  rw [matchingLength_append] at h1
  have h2 := matchingLength_nonneg sqrt hs points N
  linarith

theorem isRangeMatching_empty {K : Type} [LinearOrderedField K] (sqrt : K → K)
    (points : List (Point K)) (s : Nat) : IsRangeMatching sqrt points s 0 0 :=
  ⟨[], by simp [flattenPairs], rfl⟩

/-- The pair `(l, l + 1 + a)` around a matching of the `a` points between them,
followed by a matching of the next `b` points, is a matching of the range. -/
theorem isRangeMatching_split {K : Type} [LinearOrderedField K] (sqrt : K → K)
    (points : List (Point K)) (l a b : Nat) (v1 v2 : K)
    (h1 : IsRangeMatching sqrt points (l + 1) a v1)
    (h2 : IsRangeMatching sqrt points (l + 1 + a + 1) b v2) :
    IsRangeMatching sqrt points l (a + b + 2)
      (euclideanDist sqrt (pointAt points l) (pointAt points (l + 1 + a)) + v1 + v2) := by
  obtain ⟨M1, hM1, rfl⟩ := h1
  obtain ⟨M2, hM2, rfl⟩ := h2
  refine ⟨(l, l + 1 + a) :: (M1 ++ M2), ?_, ?_⟩
  · simp only [flattenPairs, flattenPairs_append]
    have e : List.range' l (a + b + 2)
        = l :: (List.range' (l + 1) a ++ (l + 1 + a) :: List.range' (l + 1 + a + 1) b) := by
      have e1 : a + b + 2 = ((b + 1) + a) + 1 := by omega
      rw [e1, List.range'_succ, ← List.range'_append_1, List.range'_succ]
    rw [e]
    refine List.Perm.cons l ?_
    refine (List.perm_middle.symm).trans ?_
    exact List.Perm.append hM1 (List.Perm.cons _ hM2)
  · simp only [matchingLength, matchingLength_append]
    ring

/-! ## A running minimum over an ordered field -/

theorem foldl_minStep_spec {K : Type} [LinearOrderedField K] (dist dp : List (List K)) (l r : Nat)
    (ks : List Nat) : ∀ init : K,
    ks.foldl (minStep dist dp l r) init ≤ init ∧
      (∀ k, k ∈ ks → ks.foldl (minStep dist dp l r) init ≤ splitCost dist dp l r k) ∧
      (ks.foldl (minStep dist dp l r) init = init ∨
        ∃ k, k ∈ ks ∧ ks.foldl (minStep dist dp l r) init = splitCost dist dp l r k) := by
  induction ks with
  | nil => intro init; exact ⟨le_refl _, fun k hk => absurd hk (List.not_mem_nil k), Or.inl rfl⟩
  | cons k ks ih =>
    intro init
    rw [List.foldl_cons]
    obtain ⟨h1, h2, h3⟩ := ih (minStep dist dp l r init k)
    have hstep : minStep dist dp l r init k ≤ init ∧
        minStep dist dp l r init k ≤ splitCost dist dp l r k ∧
        (minStep dist dp l r init k = init ∨
          minStep dist dp l r init k = splitCost dist dp l r k) := by
      unfold minStep
      split_ifs with h
      · exact ⟨le_of_lt h, le_refl _, Or.inr rfl⟩
      · exact ⟨le_refl _, not_lt.mp h, Or.inl rfl⟩
    refine ⟨le_trans h1 hstep.1, ?_, ?_⟩
    · intro k' hk'
      rcases List.mem_cons.mp hk' with e | e
      · rw [e]; exact le_trans h1 hstep.2.1
      · exact h2 k' e
    · rcases h3 with e | ⟨k', hk', e⟩
      · rcases hstep.2.2 with e' | e'
        · exact Or.inl (e.trans e')
        · exact Or.inr ⟨k, List.mem_cons_self _ _, e.trans e'⟩
      · exact Or.inr ⟨k', List.mem_cons_of_mem _ hk', e⟩

theorem splitCost_eq {K : Type} [LinearOrderedField K] (dist dp : List (List K)) (l r k : Nat) :
    splitCost dist dp l r k
      = tableAt dist l k + (if l + 1 ≤ k - 1 then tableAt dp (l + 1) (k - 1) else 0)
        + (if k + 1 ≤ r then tableAt dp (k + 1) r else 0) := by
  unfold splitCost
  split_ifs <;> simp

/-! ## The invariant of the interval table -/

theorem dbl_max_pos {K : Type} [LinearOrderedField K] : (0 : K) < (DBL_MAX : K) := by
  have h : (0 : ℚ) < DBL_MAX := by
    unfold DBL_MAX
    apply mul_pos
    · norm_num
    · positivity
  exact_mod_cast h

theorem foldl_base {K : Type} [LinearOrderedField K] (m : Nat) (dist : List (List K)) :
    ∀ (is : List Nat), (∀ i, i ∈ is → i + 1 < m) → ∀ dp : List (List K), IsTable m dp →
      IsTable m (is.foldl (fun dp i => tableSet dp i (i + 1) (tableAt dist i (i + 1))) dp) ∧
      ∀ a b, tableAt (is.foldl (fun dp i => tableSet dp i (i + 1) (tableAt dist i (i + 1))) dp)
          a b = if a ∈ is ∧ b = a + 1 then tableAt dist a b else tableAt dp a b := by
  intro is
  induction is with
  | nil => intro _ dp hdp; exact ⟨hdp, fun a b => by simp⟩
  | cons i is ih =>
    intro his dp hdp
    rw [List.foldl_cons]
    have hi := his i (List.mem_cons_self _ _)
    obtain ⟨h1, h2⟩ := ih (fun j hj => his j (List.mem_cons_of_mem _ hj))
      (tableSet dp i (i + 1) (tableAt dist i (i + 1))) (isTable_tableSet hdp _ _ _)
    refine ⟨h1, fun a b => ?_⟩
    rw [h2 a b, tableAt_tableSet hdp i (i + 1) _ (by omega) hi a b]
    by_cases hc : a ∈ is ∧ b = a + 1
    · rw [if_pos hc, if_pos ⟨List.mem_cons_of_mem _ hc.1, hc.2⟩]
    · rw [if_neg hc]
      by_cases hc' : a = i ∧ b = i + 1
      · rw [if_pos hc', if_pos ⟨by rw [hc'.1]; exact List.mem_cons_self _ _, by omega⟩,
          hc'.1, hc'.2]
      · rw [if_neg hc', if_neg]
        rintro ⟨h3, h4⟩
        rcases List.mem_cons.mp h3 with e | e
        · exact hc' ⟨e, by omega⟩
        · exact hc ⟨e, h4⟩

theorem baseDP_spec {K : Type} [LinearOrderedField K] (m : Nat) (hm : m % 2 = 0)
    (dist : List (List K)) :
    IsTable m (baseDP m dist) ∧
      ∀ a b, a < m → b < m → tableAt (baseDP m dist) a b
        = if a % 2 = 0 ∧ b = a + 1 then tableAt dist a b else (DBL_MAX : K) := by
  unfold baseDP
  obtain ⟨h1, h2⟩ := foldl_base m dist ((List.range (m / 2)).map fun t => 2 * t)
    (by
      intro i hi
      obtain ⟨t, ht, rfl⟩ := List.mem_map.mp hi
      rw [List.mem_range] at ht
      omega)
    (initialDP m) (isTable_initialDP m)
  refine ⟨h1, fun a b ha hb => ?_⟩
  rw [h2 a b, tableAt_initialDP m a b ha hb]
  have hiff : (a ∈ (List.range (m / 2)).map (fun t => 2 * t) ∧ b = a + 1)
      ↔ (a % 2 = 0 ∧ b = a + 1) := by
    constructor
    · rintro ⟨h3, h4⟩
      obtain ⟨t, _, rfl⟩ := List.mem_map.mp h3
      exact ⟨by omega, h4⟩
    · rintro ⟨h3, h4⟩
      exact ⟨List.mem_map.mpr ⟨a / 2, by rw [List.mem_range]; omega, by omega⟩, h4⟩
  by_cases hc : a % 2 = 0 ∧ b = a + 1
  · rw [if_pos hc, if_pos (hiff.mpr hc)]
  · rw [if_neg hc, if_neg (fun h => hc (hiff.mp h))]

theorem isRangeMatching_pair {K : Type} [LinearOrderedField K] (sqrt : K → K)
    (points : List (Point K)) (a : Nat) :
    IsRangeMatching sqrt points a 2
      (euclideanDist sqrt (pointAt points a) (pointAt points (a + 1))) := by
  refine ⟨[(a, a + 1)], ?_, by simp [matchingLength]⟩
  simp [flattenPairs, List.range']

/-- After the loop of lines 74-75 the invariant holds for the length 4. -/
theorem intervalInv_base {K : Type} [LinearOrderedField K] (sqrt : K → K)
    (points : List (Point K)) (hm : points.length % 2 = 0) :
    IntervalInv sqrt points 4 0 (baseDP points.length (distTable sqrt points)) := by
  obtain ⟨h1, h2⟩ := baseDP_spec points.length hm (distTable sqrt points)
  refine ⟨h1, ?_, ?_⟩
  · intro a b ha hb
    rw [h2 a b ha hb]
    by_cases hc : a % 2 = 0 ∧ b = a + 1
    · rw [if_pos hc, hc.2, tableAt_distTable sqrt points a (a + 1) ha (by omega) (by omega)]
      have e : a + 1 + 1 - a = 2 := by omega
      rw [e]
      exact Or.inr (isRangeMatching_pair sqrt points a)
    · rw [if_neg hc]; exact Or.inl rfl
  · intro a len hr heven h2' hpar hdone
    have hlen : len = 2 := by omega
    subst hlen
    have e : a + 2 - 1 = a + 1 := by omega
    rw [e, h2 a (a + 1) (by omega) (by omega), if_pos ⟨hpar rfl, rfl⟩,
      tableAt_distTable sqrt points a (a + 1) (by omega) (by omega) (by omega)]
    exact isRangeMatching_pair sqrt points a

/-- A candidate `cost` of line 96 is `DBL_MAX` or more when it adds an unset
entry, and the total length of a matching of the range otherwise. -/
theorem splitCost_cases {K : Type} [LinearOrderedField K] (sqrt : K → K) (hs : ∀ x, 0 ≤ sqrt x)
    (points : List (Point K)) (hm : points.length % 2 = 0)
    (hsum : ∀ M, IsPerfectMatching points.length M →
      matchingLength sqrt points M < (DBL_MAX : K))
    (len l t : Nat) (hl : l + len ≤ points.length) (ht : 2 * t + 2 ≤ len)
    (inner tail : K)
    (hinner : inner = (DBL_MAX : K) ∨ IsRangeMatching sqrt points (l + 1) (2 * t) inner)
    (htail : tail = (DBL_MAX : K) ∨
      IsRangeMatching sqrt points (l + 1 + 2 * t + 1) (len - 2 - 2 * t) tail) :
    ((DBL_MAX : K) ≤ euclideanDist sqrt (pointAt points l) (pointAt points (l + 1 + 2 * t))
        + inner + tail ∧ (inner = (DBL_MAX : K) ∨ tail = (DBL_MAX : K))) ∨
      IsRangeMatching sqrt points l len
        (euclideanDist sqrt (pointAt points l) (pointAt points (l + 1 + 2 * t))
          + inner + tail) := by
  have hd : 0 ≤ euclideanDist sqrt (pointAt points l) (pointAt points (l + 1 + 2 * t)) := hs _
  have hB : (0 : K) ≤ (DBL_MAX : K) := le_of_lt dbl_max_pos
  have hi0 : 0 ≤ inner := by
    rcases hinner with h | h
    · rw [h]; exact hB
    · exact (rangeMatching_bounds sqrt hs points hm hsum _ _ _ (by omega) h).1
  have ht0 : 0 ≤ tail := by
    rcases htail with h | h
    · rw [h]; exact hB
    · exact (rangeMatching_bounds sqrt hs points hm hsum _ _ _ (by omega) h).1
  rcases hinner with h1 | h1
  · left; exact ⟨by rw [h1]; linarith, Or.inl h1⟩
  · rcases htail with h2 | h2
    · left; exact ⟨by rw [h2]; linarith, Or.inr h2⟩
    · right
      have := isRangeMatching_split sqrt points l (2 * t) (len - 2 - 2 * t) inner tail h1 h2
      have e : 2 * t + (len - 2 - 2 * t) + 2 = len := by omega
      rw [e] at this
      exact this

/-- One iteration of the loop over `l` keeps the invariant. -/
theorem fillRange_inv {K : Type} [LinearOrderedField K] (sqrt : K → K) (hs : ∀ x, 0 ≤ sqrt x)
    (points : List (Point K)) (hm : points.length % 2 = 0)
    (hsum : ∀ M, IsPerfectMatching points.length M →
      matchingLength sqrt points M < (DBL_MAX : K))
    (len l : Nat) (hlen : 4 ≤ len) (heven : len % 2 = 0) (hl : l + len ≤ points.length)
    (dp : List (List K)) (h : IntervalInv sqrt points len l dp) :
    IntervalInv sqrt points len (l + 1) (fillRange (distTable sqrt points) len dp l) := by
  obtain ⟨hT, hI1, hI2⟩ := h
  -- the two parts of a candidate
  have hparts : ∀ t, 2 * t + 2 ≤ len →
      splitCost (distTable sqrt points) dp l (l + len - 1) (l + 1 + 2 * t)
        = euclideanDist sqrt (pointAt points l) (pointAt points (l + 1 + 2 * t))
          + (if l + 1 ≤ l + 1 + 2 * t - 1 then tableAt dp (l + 1) (l + 1 + 2 * t - 1) else 0)
          + (if l + 1 + 2 * t + 1 ≤ l + len - 1 then tableAt dp (l + 1 + 2 * t + 1) (l + len - 1)
              else 0) := by
    intro t ht
    rw [splitCost_eq, tableAt_distTable sqrt points l (l + 1 + 2 * t) (by omega) (by omega)
      (by omega)]
  have hinner : ∀ t, 2 * t + 2 ≤ len →
      (if l + 1 ≤ l + 1 + 2 * t - 1 then tableAt dp (l + 1) (l + 1 + 2 * t - 1) else 0)
          = (DBL_MAX : K) ∨
        IsRangeMatching sqrt points (l + 1) (2 * t)
          (if l + 1 ≤ l + 1 + 2 * t - 1 then tableAt dp (l + 1) (l + 1 + 2 * t - 1) else 0) := by
    intro t ht
    by_cases hc : l + 1 ≤ l + 1 + 2 * t - 1
    · rw [if_pos hc]
      have := hI1 (l + 1) (l + 1 + 2 * t - 1) (by omega) (by omega)
      have e : l + 1 + 2 * t - 1 + 1 - (l + 1) = 2 * t := by omega
      rw [e] at this
      exact this
    · rw [if_neg hc]
      have e : 2 * t = 0 := by omega
      rw [e]
      exact Or.inr (isRangeMatching_empty sqrt points _)
  have htail : ∀ t, 2 * t + 2 ≤ len →
      (if l + 1 + 2 * t + 1 ≤ l + len - 1 then tableAt dp (l + 1 + 2 * t + 1) (l + len - 1)
          else 0) = (DBL_MAX : K) ∨
        IsRangeMatching sqrt points (l + 1 + 2 * t + 1) (len - 2 - 2 * t)
          (if l + 1 + 2 * t + 1 ≤ l + len - 1 then tableAt dp (l + 1 + 2 * t + 1) (l + len - 1)
            else 0) := by
    intro t ht
    by_cases hc : l + 1 + 2 * t + 1 ≤ l + len - 1
    · rw [if_pos hc]
      have := hI1 (l + 1 + 2 * t + 1) (l + len - 1) (by omega) (by omega)
      have e : l + len - 1 + 1 - (l + 1 + 2 * t + 1) = len - 2 - 2 * t := by omega
      rw [e] at this
      exact this
    · rw [if_neg hc]
      have e : len - 2 - 2 * t = 0 := by omega
      rw [e]
      exact Or.inr (isRangeMatching_empty sqrt points _)
  have hcand : ∀ t, 2 * t + 2 ≤ len →
      ((DBL_MAX : K) ≤ splitCost (distTable sqrt points) dp l (l + len - 1) (l + 1 + 2 * t)) ∨
        IsRangeMatching sqrt points l len
          (splitCost (distTable sqrt points) dp l (l + len - 1) (l + 1 + 2 * t)) := by
    intro t ht
    rw [hparts t ht]
    rcases splitCost_cases sqrt hs points hm hsum len l t hl ht _ _ (hinner t ht)
      (htail t ht) with h | h
    · exact Or.inl h.1
    · exact Or.inr h
  -- a candidate all of whose parts are set
  obtain ⟨t0, ht0, hgood⟩ : ∃ t, 2 * t + 2 ≤ len ∧ IsRangeMatching sqrt points l len
      (splitCost (distTable sqrt points) dp l (l + len - 1) (l + 1 + 2 * t)) := by
    by_cases hpar : l % 2 = 0
    · refine ⟨0, by omega, ?_⟩
      rw [hparts 0 (by omega)]
      have hin := hinner 0 (by omega)
      have hta : IsRangeMatching sqrt points (l + 1 + 2 * 0 + 1) (len - 2 - 2 * 0)
          (if l + 1 + 2 * 0 + 1 ≤ l + len - 1 then tableAt dp (l + 1 + 2 * 0 + 1) (l + len - 1)
            else 0) := by
        rw [if_pos (by omega)]
        have := hI2 (l + 2) (len - 2) (by omega) (by omega) (by omega) (fun _ => by omega)
          (Or.inl (by omega))
        have e1 : l + 2 + (len - 2) - 1 = l + len - 1 := by omega
        rw [e1] at this
        exact this
      have hin' : IsRangeMatching sqrt points (l + 1) (2 * 0)
          (if l + 1 ≤ l + 1 + 2 * 0 - 1 then tableAt dp (l + 1) (l + 1 + 2 * 0 - 1) else 0) := by
        rw [if_neg (by omega)]
        exact isRangeMatching_empty sqrt points _
      rcases splitCost_cases sqrt hs points hm hsum len l 0 hl (by omega) _ _ (Or.inr hin')
        (Or.inr hta) with h | h
      · exfalso
        have hb1 := (rangeMatching_bounds sqrt hs points hm hsum _ _ _ (by omega) hin').2
        have hb2 := (rangeMatching_bounds sqrt hs points hm hsum _ _ _ (by omega) hta).2
        rcases h.2 with e | e
        · rw [e] at hb1; exact lt_irrefl _ hb1
        · rw [e] at hb2; exact lt_irrefl _ hb2
      · exact h
    · refine ⟨len / 2 - 1, by omega, ?_⟩
      rw [hparts (len / 2 - 1) (by omega)]
      have hin' : IsRangeMatching sqrt points (l + 1) (2 * (len / 2 - 1))
          (if l + 1 ≤ l + 1 + 2 * (len / 2 - 1) - 1
            then tableAt dp (l + 1) (l + 1 + 2 * (len / 2 - 1) - 1) else 0) := by
        rw [if_pos (by omega)]
        have := hI2 (l + 1) (len - 2) (by omega) (by omega) (by omega) (fun _ => by omega)
          (Or.inl (by omega))
        have e1 : l + 1 + (len - 2) - 1 = l + 1 + 2 * (len / 2 - 1) - 1 := by omega
        have e2 : len - 2 = 2 * (len / 2 - 1) := by omega
        rw [e1, e2] at this
        exact this
      have hta : IsRangeMatching sqrt points (l + 1 + 2 * (len / 2 - 1) + 1)
          (len - 2 - 2 * (len / 2 - 1))
          (if l + 1 + 2 * (len / 2 - 1) + 1 ≤ l + len - 1
            then tableAt dp (l + 1 + 2 * (len / 2 - 1) + 1) (l + len - 1) else 0) := by
        rw [if_neg (by omega)]
        have e : len - 2 - 2 * (len / 2 - 1) = 0 := by omega
        rw [e]
        exact isRangeMatching_empty sqrt points _
      rcases splitCost_cases sqrt hs points hm hsum len l (len / 2 - 1) hl (by omega) _ _
        (Or.inr hin') (Or.inr hta) with h | h
      · exfalso
        have hb1 := (rangeMatching_bounds sqrt hs points hm hsum _ _ _ (by omega) hin').2
        have hb2 := (rangeMatching_bounds sqrt hs points hm hsum _ _ _ (by omega) hta).2
        rcases h.2 with e | e
        · rw [e] at hb1; exact lt_irrefl _ hb1
        · rw [e] at hb2; exact lt_irrefl _ hb2
      · exact h
  -- the minimum that is stored
  obtain ⟨hle, hmin, hcases⟩ := foldl_minStep_spec (distTable sqrt points) dp l (l + len - 1)
    ((List.range (len / 2)).map fun t => l + 1 + 2 * t) (DBL_MAX : K)
  have hmem : ∀ k, k ∈ (List.range (len / 2)).map (fun t => l + 1 + 2 * t) ↔
      ∃ t, 2 * t + 2 ≤ len ∧ k = l + 1 + 2 * t := by
    intro k
    rw [List.mem_map]
    constructor
    · rintro ⟨t, ht, rfl⟩
      rw [List.mem_range] at ht
      exact ⟨t, by omega, rfl⟩
    · rintro ⟨t, ht, rfl⟩
      exact ⟨t, by rw [List.mem_range]; omega, rfl⟩
  have hnew : IsRangeMatching sqrt points l len
      (((List.range (len / 2)).map fun t => l + 1 + 2 * t).foldl
        (minStep (distTable sqrt points) dp l (l + len - 1)) (DBL_MAX : K)) := by
    have h1 := hmin _ ((hmem _).mpr ⟨t0, ht0, rfl⟩)
    have h2 := (rangeMatching_bounds sqrt hs points hm hsum _ _ _ hl hgood).2
    rcases hcases with e | ⟨k, hk, e⟩
    · rw [e] at h1
      exact absurd (lt_of_le_of_lt h1 h2) (lt_irrefl _)
    · obtain ⟨t, ht, rfl⟩ := (hmem k).mp hk
      rcases hcand t ht with h3 | h3
      · rw [← e] at h3
        exact absurd (lt_of_le_of_lt (le_trans h3 h1) h2) (lt_irrefl _)
      · rw [e]; exact h3
  have hget := tableAt_tableSet hT l (l + len - 1)
    (((List.range (len / 2)).map fun t => l + 1 + 2 * t).foldl
      (minStep (distTable sqrt points) dp l (l + len - 1)) (DBL_MAX : K)) (by omega) (by omega)
  unfold fillRange
  refine ⟨isTable_tableSet hT _ _ _, ?_, ?_⟩
  · intro a b ha hb
    rw [hget a b]
    by_cases hc : a = l ∧ b = l + len - 1
    · rw [if_pos hc, hc.1, hc.2]
      have e : l + len - 1 + 1 - l = len := by omega
      rw [e]
      exact Or.inr hnew
    · rw [if_neg hc]
      exact hI1 a b ha hb
  · intro a len' hr hev h2 hpar hdone
    rw [hget a (a + len' - 1)]
    by_cases hc : a = l ∧ a + len' - 1 = l + len - 1
    · rw [if_pos hc]
      have e1 : a = l := hc.1
      have e2 : len' = len := by omega
      rw [e1, e2]
      exact hnew
    · rw [if_neg hc]
      apply hI2 a len' hr hev h2 hpar
      rcases hdone with h3 | h3
      · exact Or.inl h3
      · right
        refine ⟨h3.1, ?_⟩
        rcases Nat.lt_succ_iff_lt_or_eq.mp h3.2 with h4 | h4
        · exact h4
        · exfalso
          apply hc
          rw [h4, h3.1]
          exact ⟨rfl, rfl⟩

/-- One iteration of the loop over `len` keeps the invariant. -/
theorem fillLength_inv {K : Type} [LinearOrderedField K] (sqrt : K → K) (hs : ∀ x, 0 ≤ sqrt x)
    (points : List (Point K)) (hm : points.length % 2 = 0)
    (hsum : ∀ M, IsPerfectMatching points.length M →
      matchingLength sqrt points M < (DBL_MAX : K))
    (len : Nat) (hlen : 4 ≤ len) (heven : len % 2 = 0)
    (dp : List (List K)) (h : IntervalInv sqrt points len 0 dp) :
    IntervalInv sqrt points (len + 2) 0
      (fillLength points.length (distTable sqrt points) dp len) := by
  have hloop : ∀ c, c ≤ points.length + 1 - len →
      IntervalInv sqrt points len c
        ((List.range c).foldl (fillRange (distTable sqrt points) len) dp) := by
    intro c
    induction c with
    | zero => intro _; exact h
    | succ c ih =>
      intro hc
      rw [List.range_succ, List.foldl_append]
      exact fillRange_inv sqrt hs points hm hsum len c hlen heven (by omega) _ (ih (by omega))
  obtain ⟨hT, hI1, hI2⟩ := hloop (points.length + 1 - len) (le_refl _)
  unfold fillLength
  refine ⟨hT, hI1, ?_⟩
  intro a len' hr hev h2 hpar hdone
  apply hI2 a len' hr hev h2 hpar
  rcases hdone with h3 | h3
  · by_cases h4 : len' < len
    · exact Or.inl h4
    · exact Or.inr ⟨by omega, by omega⟩
  · exact absurd h3.2 (Nat.not_lt_zero a)

/-- The invariant holds for the table at the end of the loops. -/
theorem intervalTable_inv {K : Type} [LinearOrderedField K] (sqrt : K → K)
    (hs : ∀ x, 0 ≤ sqrt x) (points : List (Point K)) (hm : points.length % 2 = 0)
    (hsum : ∀ M, IsPerfectMatching points.length M →
      matchingLength sqrt points M < (DBL_MAX : K)) :
    IntervalInv sqrt points (2 * (points.length / 2 - 1) + 4) 0 (intervalTable sqrt points) := by
  have hloop : ∀ n,
      IntervalInv sqrt points (2 * n + 4) 0
        (((List.range n).map fun t => 2 * t + 4).foldl
          (fillLength points.length (distTable sqrt points))
          (baseDP points.length (distTable sqrt points))) := by
    intro n
    induction n with
    | zero => exact intervalInv_base sqrt points hm
    | succ n ih =>
      rw [List.range_succ, List.map_append, List.foldl_append]
      have := fillLength_inv sqrt hs points hm hsum (2 * n + 4) (by omega) (by omega) _ ih
      have e : 2 * n + 4 + 2 = 2 * (n + 1) + 4 := by ring
      rw [e] at this
      exact this
  exact hloop _

/-- On a non-empty point sequence of even length whose perfect matchings are all
shorter than `DBL_MAX`, the interval solver returns the total length of a
perfect matching of the points. -/
theorem intervalDPMatching_isMatching {K : Type} [LinearOrderedField K] (sqrt : K → K)
    (hs : ∀ x, 0 ≤ sqrt x) (points : List (Point K)) (hm : points.length % 2 = 0)
    (hne : points ≠ [])
    (hsum : ∀ M, IsPerfectMatching points.length M →
      matchingLength sqrt points M < (DBL_MAX : K)) :
    ∃ v, intervalDPMatching sqrt points = some v ∧
      (∃ M, IsPerfectMatching points.length M ∧ v = matchingLength sqrt points M) ∧
      0 ≤ v ∧ v < (DBL_MAX : K) := by
  have hpos : 0 < points.length := List.length_pos.mpr hne
  obtain ⟨_, _, hI2⟩ := intervalTable_inv sqrt hs points hm hsum
  have hfin := hI2 0 points.length (by omega) hm (by omega) (fun _ => rfl) (Or.inl (by omega))
  rw [Nat.zero_add] at hfin
  have hb := rangeMatching_bounds sqrt hs points hm hsum 0 points.length _ (by omega) hfin
  refine ⟨tableAt (intervalTable sqrt points) 0 (points.length - 1), ?_, ?_, hb.1, hb.2⟩
  · unfold intervalDPMatching
    rw [if_neg (by omega), if_neg (by omega)]
  · obtain ⟨M, hM, hv⟩ := hfin
    refine ⟨M, ?_, hv⟩
    unfold IsPerfectMatching
    rw [List.range_eq_range']
    exact hM

/-! ## Bounds used to instantiate the theorems on the interval solver -/

theorem euclideanDist_real_eq (a b : Point ℝ) (e : ℝ) (he : 0 ≤ e)
    (h : e * e = (a.x - b.x) * (a.x - b.x) + (a.y - b.y) * (a.y - b.y)) :
    euclideanDist Real.sqrt a b = e := by
  unfold euclideanDist
  simp only
  rw [← h]
  exact Real.sqrt_mul_self he

theorem lt_dbl_max {K : Type} [LinearOrderedField K] (c : ℚ) (h : c < 2 ^ 1023) :
    (c : K) < (DBL_MAX : K) := by
  have h1 : c < DBL_MAX := by
    unfold DBL_MAX
    have h2 : (1 : ℚ) ≤ 2 - 1 / 2 ^ 52 := by norm_num
    have h3 : (0 : ℚ) < 2 ^ 1023 := by positivity
    nlinarith
  exact_mod_cast h1

theorem matchingLength_le_mul {K : Type} [LinearOrderedField K] (sqrt : K → K)
    (points : List (Point K)) (n : Nat) (C : K)
    (hC : ∀ u, u < n → ∀ v, v < n →
      euclideanDist sqrt (pointAt points u) (pointAt points v) ≤ C)
    (M : List (Nat × Nat)) (hM : ∀ v, v ∈ flattenPairs M → v < n) :
    matchingLength sqrt points M ≤ C * M.length := by
  induction M with
  | nil => simp [matchingLength]
  | cons p M ih =>
    obtain ⟨a, b⟩ := p
    have ha : a < n := hM a (by simp [flattenPairs])
    have hb : b < n := hM b (by simp [flattenPairs])
    have h1 := hC a ha b hb
    have h2 := ih (fun v hv => hM v (by simp [flattenPairs, hv]))
    simp only [matchingLength, List.length_cons, Nat.cast_add, Nat.cast_one]
    linarith

/-- The result of the brute-force loop is `LLONG_MAX` or the value of
`currentCost` for one of the arrangements. -/
theorem bruteForceMatching_cases (n : Nat) (hn : n % 2 = 0) (h2 : 2 ≤ n) (dist : CostMatrix) :
    ∃ r, bruteForceMatching (n : Int) dist = some r ∧
      (r = LLONG_MAX ∨ ∃ p, p ∈ lexPerms (n - 1) (List.range' 1 (n - 1)) ∧
        r = pairingCost dist 0 (0 :: p)) := by
  unfold bruteForceMatching
  rw [Int.toNat_ofNat, bruteForceMatchingFuel_eq n hn,
    (bruteLoop_range n (by omega) dist _ (factorial_pred_le n)).2, List.foldl_map]
  refine ⟨_, rfl, ?_⟩
  exact foldl_min_cases (fun r => pairingCost dist 0 (0 :: r)) _ LLONG_MAX

/-! ## The claims that involve the interval solver -/

/-- Claim C4, evaluated on the code: on the four corners of a trapezoid, sorted by
`x`, with integer distances, `intervalDPMatching` returns 120, the length of
the pairing `{0,1}, {2,3}`, while the bitmask solver on the distance matrix
returns 110, the length of the nested pairing `{0,3}, {1,2}`: the entry
`dp[1][2]` is still `DBL_MAX` when the range `[0, 3]` reads it. -/
theorem interval_misses_nested_pairing :
    SortedByXY (trapezoid ℝ) ∧
      (∀ i, i < 4 → ∀ j, j < 4 → ((entry trapezoidMatrix i j : Int) : ℝ)
        = euclideanDist Real.sqrt (pointAt (trapezoid ℝ) i) (pointAt (trapezoid ℝ) j)) ∧
      intervalDPMatching Real.sqrt (trapezoid ℝ) = some 120 ∧
      stateDPMatching 4 trapezoidMatrix = some 110 ∧
      IsPerfectMatching 4 [(0, 3), (1, 2)] ∧
      matchingLength Real.sqrt (trapezoid ℝ) [(0, 3), (1, 2)] = 110 ∧
      tableAt (intervalTable Real.sqrt (trapezoid ℝ)) 1 2 = (DBL_MAX : ℝ) := by
  have h00 : euclideanDist Real.sqrt (⟨0, 0⟩ : Point ℝ) ⟨0, 0⟩ = 0 :=
    euclideanDist_real_eq _ _ 0 (by norm_num) (by norm_num)
  have h11 : euclideanDist Real.sqrt (⟨36, 48⟩ : Point ℝ) ⟨36, 48⟩ = 0 :=
    euclideanDist_real_eq _ _ 0 (by norm_num) (by norm_num)
  have h22 : euclideanDist Real.sqrt (⟨55, 48⟩ : Point ℝ) ⟨55, 48⟩ = 0 :=
    euclideanDist_real_eq _ _ 0 (by norm_num) (by norm_num)
  have h33 : euclideanDist Real.sqrt (⟨91, 0⟩ : Point ℝ) ⟨91, 0⟩ = 0 :=
    euclideanDist_real_eq _ _ 0 (by norm_num) (by norm_num)
  have h01 : euclideanDist Real.sqrt (⟨0, 0⟩ : Point ℝ) ⟨36, 48⟩ = 60 :=
    euclideanDist_real_eq _ _ 60 (by norm_num) (by norm_num)
  have h02 : euclideanDist Real.sqrt (⟨0, 0⟩ : Point ℝ) ⟨55, 48⟩ = 73 :=
    euclideanDist_real_eq _ _ 73 (by norm_num) (by norm_num)
  have h03 : euclideanDist Real.sqrt (⟨0, 0⟩ : Point ℝ) ⟨91, 0⟩ = 91 :=
    euclideanDist_real_eq _ _ 91 (by norm_num) (by norm_num)
  have h12 : euclideanDist Real.sqrt (⟨36, 48⟩ : Point ℝ) ⟨55, 48⟩ = 19 :=
    euclideanDist_real_eq _ _ 19 (by norm_num) (by norm_num)
  have h13 : euclideanDist Real.sqrt (⟨36, 48⟩ : Point ℝ) ⟨91, 0⟩ = 73 :=
    euclideanDist_real_eq _ _ 73 (by norm_num) (by norm_num)
  have h23 : euclideanDist Real.sqrt (⟨55, 48⟩ : Point ℝ) ⟨91, 0⟩ = 60 :=
    euclideanDist_real_eq _ _ 60 (by norm_num) (by norm_num)
  have hB : (120 : ℝ) < (DBL_MAX : ℝ) := by
    have := lt_dbl_max (K := ℝ) 120 (by norm_num)
    simpa using this
  have hB0 : (0 : ℝ) < (DBL_MAX : ℝ) := dbl_max_pos
  refine ⟨?_, ?_, ?_, by decide, by decide, ?_, ?_⟩
  · simp [SortedByXY, trapezoid]
    norm_num
  · intro i hi j hj
    interval_cases i <;> interval_cases j <;>
      simp [trapezoid, trapezoidMatrix, entry, pointAt, h00, h11, h22, h33, h01, h02, h03, h12,
        h13, h23, euclideanDist_comm Real.sqrt ⟨36, 48⟩ ⟨0, 0⟩,
        euclideanDist_comm Real.sqrt ⟨55, 48⟩ ⟨0, 0⟩, euclideanDist_comm Real.sqrt ⟨91, 0⟩ ⟨0, 0⟩,
        euclideanDist_comm Real.sqrt ⟨55, 48⟩ ⟨36, 48⟩,
        euclideanDist_comm Real.sqrt ⟨91, 0⟩ ⟨36, 48⟩,
        euclideanDist_comm Real.sqrt ⟨91, 0⟩ ⟨55, 48⟩]
  · simp [intervalDPMatching, intervalTable, baseDP, distTable, initialDP, tableSet, tableAt,
      pointAt, List.range, List.range.loop, fillLength, fillRange, minStep, splitCost,
      trapezoid, h01, h02, h03, h12, h13, h23]
    have e : (60 : ℝ) + 60 = 120 := by norm_num
    rw [e, if_pos hB, if_neg (by linarith)]
  · simp [matchingLength, pointAt, trapezoid, h03, h12]
    norm_num
  · simp [intervalTable, baseDP, distTable, initialDP, tableSet, tableAt,
      pointAt, List.range, List.range.loop, fillLength, fillRange, minStep, splitCost,
      trapezoid]

/-- Claim C6, as stated, fails: on four points in ascending order, three of them
at `x = DBL_MAX`, every candidate of the range `[0, 3]` is `DBL_MAX` or more and
`intervalDPMatching` returns `DBL_MAX`, the unset value. -/
theorem interval_returns_unset_value :
    SortedByXY (farPoints ℝ) ∧ (farPoints ℝ).length = 4 ∧
      intervalDPMatching Real.sqrt (farPoints ℝ) = some (DBL_MAX : ℝ) := by
  have hB0 : (0 : ℝ) < (DBL_MAX : ℝ) := dbl_max_pos
  have h01 : euclideanDist Real.sqrt (⟨0, 0⟩ : Point ℝ) ⟨(DBL_MAX : ℝ), 0⟩ = (DBL_MAX : ℝ) :=
    euclideanDist_real_eq _ _ _ (le_of_lt hB0) (by simp)
  have hBB : euclideanDist Real.sqrt (⟨(DBL_MAX : ℝ), 0⟩ : Point ℝ) ⟨(DBL_MAX : ℝ), 0⟩ = 0 :=
    euclideanDist_real_eq _ _ 0 (le_refl _) (by simp)
  refine ⟨?_, rfl, ?_⟩
  · simp [SortedByXY, farPoints, hB0]
  · simp [intervalDPMatching, intervalTable, baseDP, distTable, initialDP, tableSet, tableAt,
      pointAt, List.range, List.range.loop, fillLength, fillRange, minStep, splitCost,
      farPoints, h01, hBB]
    intro h
    have h0 : (0 : ℚ) < DBL_MAX := by exact_mod_cast hB0
    exact absurd (lt_trans h h0) (lt_irrefl _)

/-! ## Costs read in the upper triangle -/

theorem upperCost_perm (dist : CostMatrix) {M N : List (Nat × Nat)} (h : M.Perm N) :
    upperCost dist M = upperCost dist N := by
  induction h with
  | nil => rfl
  | cons p _ ih => obtain ⟨a, b⟩ := p; simp [upperCost, ih]
  | swap p q l =>
    obtain ⟨a, b⟩ := p
    obtain ⟨c, d⟩ := q
    simp only [upperCost]; ring
  | trans _ _ ih1 ih2 => exact ih1.trans ih2

theorem upperCost_nonneg (n : Nat) (dist : CostMatrix) (hnn : IsNonneg n dist)
    (M : List (Nat × Nat)) (hM : ∀ v, v ∈ flattenPairs M → v < n) : 0 ≤ upperCost dist M := by
  induction M with
  | nil => exact le_refl _
  | cons p M ih =>
    obtain ⟨a, b⟩ := p
    simp only [upperCost]
    have ha : a < n := hM a (by simp [flattenPairs])
    have hb : b < n := hM b (by simp [flattenPairs])
    have := hnn (min a b) (by omega) (max a b) (by omega)
    have := ih (fun v hv => hM v (by simp [flattenPairs, hv]))
    omega

theorem upperCost_eq_of_symmetric (n : Nat) (dist : CostMatrix) (hsym : IsSymmetric n dist)
    (M : List (Nat × Nat)) (hM : ∀ v, v ∈ flattenPairs M → v < n) :
    upperCost dist M = matchingCost dist M := by
  induction M with
  | nil => rfl
  | cons p M ih =>
    obtain ⟨a, b⟩ := p
    simp only [upperCost, matchingCost]
    have ha : a < n := hM a (by simp [flattenPairs])
    have hb : b < n := hM b (by simp [flattenPairs])
    rw [ih (fun v hv => hM v (by simp [flattenPairs, hv]))]
    rcases Nat.le_total a b with h | h
    · rw [Nat.min_eq_left h, Nat.max_eq_right h]
    · rw [Nat.min_eq_right h, Nat.max_eq_left h, hsym b hb a ha]

theorem upperCost_eq_of_oriented (dist : CostMatrix) (M : List (Nat × Nat))
    (hM : ∀ a b, (a, b) ∈ M → a < b) : upperCost dist M = matchingCost dist M := by
  induction M with
  | nil => rfl
  | cons p M ih =>
    obtain ⟨a, b⟩ := p
    simp only [upperCost, matchingCost]
    have hab := hM a b (List.mem_cons_self _ _)
    rw [ih (fun c d hcd => hM c d (List.mem_cons_of_mem _ hcd)),
      Nat.min_eq_left (le_of_lt hab), Nat.max_eq_right (le_of_lt hab)]

/-- The upper-triangle cost of a list of pairs is the cost of the same pairs, each
written with its lower index first. -/
theorem exists_oriented (dist : CostMatrix) (M : List (Nat × Nat)) :
    ∃ N, (flattenPairs N).Perm (flattenPairs M) ∧ matchingCost dist N = upperCost dist M := by
  induction M with
  | nil => exact ⟨[], List.Perm.refl _, rfl⟩
  | cons p M ih =>
    obtain ⟨a, b⟩ := p
    obtain ⟨N, hN, hc⟩ := ih
    refine ⟨(min a b, max a b) :: N, ?_, by simp only [matchingCost, upperCost, hc]⟩
    simp only [flattenPairs]
    rcases Nat.le_total a b with h | h
    · rw [Nat.min_eq_left h, Nat.max_eq_right h]
      exact (hN.cons b).cons a
    · rw [Nat.min_eq_right h, Nat.max_eq_left h]
      exact (List.Perm.swap a b _).trans ((hN.cons b).cons a)

theorem upperCost_le_of_perfect (m : Nat) (dist : CostMatrix) (B : Int)
    (hsum : ∀ P, IsPerfectMatching m P → matchingCost dist P ≤ B)
    (M : List (Nat × Nat)) (hM : IsPerfectMatching m M) : upperCost dist M ≤ B := by
  obtain ⟨N, hN, hc⟩ := exists_oriented dist M
  rw [← hc]
  exact hsum N (hN.trans hM)

/-! ## The lowest unset index of a mask -/

theorem lowestUnset_le_of_unset (m mask x : Nat) (hx : mask.testBit x = false) :
    lowestUnset m mask ≤ x := by
  by_contra hcon
  have := lowestUnset_below m mask x (by omega)
  rw [hx] at this; cases this

theorem lowestUnset_mono (m P S : Nat) (h : ∀ v, v < m → P.testBit v = true → S.testBit v = true) :
    lowestUnset m P ≤ lowestUnset m S := by
  by_contra hcon
  have hlt : lowestUnset m S < lowestUnset m P := by omega
  have h1 := lowestUnset_below m P _ hlt
  have hm : lowestUnset m S < m := lt_of_lt_of_le hlt (lowestUnset_le m P)
  have h2 := lowestUnset_unset m S hm
  rw [h _ hm h1] at h2
  cases h2

theorem lt_lowestUnset (m S i : Nat) (hi : i < m) (h : ∀ v, v ≤ i → S.testBit v = true) :
    i < lowestUnset m S := by
  by_contra hcon
  have hle : lowestUnset m S ≤ i := by omega
  have h1 := lowestUnset_unset m S (by omega)
  rw [h _ hle] at h1
  cases h1

theorem lowestUnset_fullMask (m : Nat) : lowestUnset m (2 ^ m - 1) = m := by
  apply le_antisymm (lowestUnset_le m _)
  by_contra hcon
  have h1 := lowestUnset_unset m (2 ^ m - 1) (by omega)
  rw [Nat.testBit_two_pow_sub_one] at h1
  simp at h1
  omega

/-! ## The entries of the bitmask table, mask by mask -/

theorem testBit_newMask_of_testBit (mask i j v : Nat) (h : mask.testBit v = true) :
    (mask ||| 1 <<< i ||| 1 <<< j).testBit v = true := by
  rw [testBit_newMask, h]; simp

/-- Every reached entry is the cost of pairs `(a, b)`, `a < b`, that cover exactly
the set bits of its mask and whose lower ends lie below the lowest unset index
of the mask. -/
theorem tableAfter_sound_low (m : Nat) (hm : m % 2 = 0) (dist : CostMatrix)
    (hnn : IsNonneg m dist)
    (hsum : ∀ P, IsPerfectMatching m P → matchingCost dist P ≤ 2 ^ 63 - 1) :
    ∀ k, k ≤ 2 ^ m → ∀ S, S < 2 ^ m → dpAt (tableAfter m dist k) S ≠ LLONG_MAX →
      ∃ M, Covers m M S ∧ (∀ a b, (a, b) ∈ M → a < b ∧ a < lowestUnset m S) ∧
        matchingCost dist M = dpAt (tableAfter m dist k) S := by
  intro k
  induction k with
  | zero =>
    intro _ S hS hne
    have h0 : tableAfter m dist 0 = initialTable m := rfl
    rw [h0, dpAt_initialTable m S hS] at hne ⊢
    by_cases hS0 : S = 0
    · subst hS0
      refine ⟨[], ⟨List.nodup_nil, fun v => ?_⟩, fun a b h => absurd h (List.not_mem_nil _),
        by simp [matchingCost]⟩
      simp [flattenPairs]
    · rw [if_neg hS0] at hne; exact absurd rfl hne
  | succ k ih =>
    intro hk S hS hne
    have hk' : k < 2 ^ m := by omega
    rw [tableAfter_succ] at hne ⊢
    rcases processMask_cases m dist (tableAfter m dist k) k S with
      h | ⟨h1, hi, j, hij, hj, hbj, hSeq, hv⟩
    · rw [h] at hne ⊢
      exact ih (by omega) S hS hne
    · obtain ⟨M, hM, hlow, hcost⟩ := ih (by omega) k hk' h1
      have hbi := lowestUnset_unset m k hi
      have hcov := covers_cons m M k (lowestUnset m k) j hM hi hj (by omega) hbi hbj
      have hb := cost_bounds m hm dist hnn hsum _ hcov.1 (covers_lt m _ _ hcov)
      refine ⟨(lowestUnset m k, j) :: M, ?_, ?_, ?_⟩
      · rw [hSeq]; exact hcov
      · intro a b hab
        rw [hSeq]
        rcases List.mem_cons.mp hab with e | e
        · have e1 : a = lowestUnset m k := (Prod.mk.inj e).1
          have e2 : b = j := (Prod.mk.inj e).2
          rw [e1, e2]
          refine ⟨hij, lt_lowestUnset m _ _ hi (fun v hv => ?_)⟩
          rcases Nat.lt_or_eq_of_le hv with h2 | h2
          · exact testBit_newMask_of_testBit _ _ _ _ (lowestUnset_below m k v h2)
          · rw [h2, testBit_newMask]; simp
        · have := hlow a b e
          refine ⟨this.1, lt_of_lt_of_le this.2 (lowestUnset_mono m k _ (fun v _ hv => ?_))⟩
          exact testBit_newMask_of_testBit _ _ _ _ hv
      · rw [hv, ← hcost]
        simp only [matchingCost] at hb ⊢
        rw [wrap64_of_isLongLong]
        · ring
        · unfold IsLongLong; constructor <;> omega

theorem eq_of_testBit_below (m P S : Nat) (hP : P < 2 ^ m) (hS : S < 2 ^ m)
    (h : ∀ v, v < m → P.testBit v = S.testBit v) : P = S := by
  apply Nat.eq_of_testBit_eq
  intro v
  by_cases hv : v < m
  · exact h v hv
  · have hpow : 2 ^ m ≤ 2 ^ v := Nat.pow_le_pow_right (by omega) (by omega)
    rw [Nat.testBit_lt_two_pow (lt_of_lt_of_le hP hpow),
      Nat.testBit_lt_two_pow (lt_of_lt_of_le hS hpow)]

/-- From an entry `dp[P]` that is at most `c` before mask `P` is processed, the
pairs of `R`, which cover the set bits of `S` missing in `P` and have their lower
ends below the lowest unset index of `S`, are added one by one: the entry of
`S` ends with at most `c` plus the upper-triangle cost of `R`. -/
theorem tableAfter_complete_to (m : Nat) (hm : m % 2 = 0) (dist : CostMatrix)
    (hnn : IsNonneg m dist)
    (hsum : ∀ P, IsPerfectMatching m P → matchingCost dist P ≤ 2 ^ 63 - 1)
    (S : Nat) (hS : S < 2 ^ m) :
    ∀ (n : Nat) (R : List (Nat × Nat)), R.length = n → ∀ (P k : Nat) (c : Int),
      k ≤ P → P < 2 ^ m → (flattenPairs R).Nodup →
      (∀ v, v ∈ flattenPairs R ↔ (v < m ∧ S.testBit v = true ∧ P.testBit v = false)) →
      (∀ v, v < m → P.testBit v = true → S.testBit v = true) →
      LowEndsBelowGap m S R →
      dpAt (tableAfter m dist k) P ≤ c → c + upperCost dist R ≤ 2 ^ 63 - 1 →
      dpAt (tableAfter m dist (2 ^ m)) S ≤ c + upperCost dist R := by
  intro n
  induction n with
  | zero =>
    intro R hR P k c hk hP _ hmem hsub _ hc _
    have hR0 : R = [] := List.length_eq_zero.mp hR
    subst hR0
    have hPS : P = S := by
      apply eq_of_testBit_below m P S hP hS
      intro v hv
      cases hPv : P.testBit v
      · cases hSv : S.testBit v
        · rfl
        · have : v ∈ flattenPairs ([] : List (Nat × Nat)) := (hmem v).mpr ⟨hv, hSv, hPv⟩
          simp [flattenPairs] at this
      · exact (hsub v hv hPv).symm
    subst hPS
    simp only [upperCost, add_zero]
    exact le_trans (tableAfter_mono m dist _ (by omega)) hc
  | succ n ih =>
    intro R hR P k c hk hP hnd hmem hsub hlow hc hcR
    have hlt : ∀ v, v ∈ flattenPairs R → v < m := fun v hv => ((hmem v).mp hv).1
    obtain ⟨p0, hp0⟩ : ∃ p, p ∈ R := by
      cases R with
      | nil => simp at hR
      | cons p R => exact ⟨p, List.mem_cons_self _ _⟩
    -- the lowest unset index of `P` lies in a pair of `R`
    have hx : lowestUnset m P < lowestUnset m S := by
      have h1 := hlow p0.1 p0.2 hp0
      have h2 := mem_flattenPairs_of_mem (a := p0.1) (b := p0.2) hp0
      have h3 : min p0.1 p0.2 ∈ flattenPairs R := by
        rcases Nat.le_total p0.1 p0.2 with h | h
        · rw [Nat.min_eq_left h]; exact h2.1
        · rw [Nat.min_eq_right h]; exact h2.2
      have h4 := lowestUnset_le_of_unset m P _ ((hmem _).mp h3).2.2
      omega
    have hi : lowestUnset m P < m := lt_of_lt_of_le hx (lowestUnset_le m S)
    have hbi := lowestUnset_unset m P hi
    have hSi := lowestUnset_below m S _ hx
    obtain ⟨a, b, hab, hor⟩ := exists_pair_of_mem ((hmem _).mpr ⟨hi, hSi, hbi⟩)
    obtain ⟨R', hperm⟩ : ∃ R', R.Perm ((a, b) :: R') := ⟨_, List.perm_cons_erase hab⟩
    have hlen' : R'.length = n := by
      have := hperm.length_eq
      rw [hR, List.length_cons] at this
      omega
    have hfp := flattenPairs_perm hperm
    have hcostR := upperCost_perm dist hperm
    simp only [flattenPairs] at hfp
    simp only [upperCost] at hcostR
    have hnd' : (a :: b :: flattenPairs R').Nodup := hfp.nodup_iff.mp hnd
    simp only [List.nodup_cons, List.mem_cons, not_or] at hnd'
    obtain ⟨⟨hab_ne, ha'⟩, hb', hnd''⟩ := hnd'
    have hma := (hmem a).mp (mem_flattenPairs_of_mem hab).1
    have hmb := (hmem b).mp (mem_flattenPairs_of_mem hab).2
    -- the partner `j` of `i`
    obtain ⟨j, hj, hSj, hbj, hij, hset⟩ : ∃ j, j < m ∧ S.testBit j = true ∧
        P.testBit j = false ∧ lowestUnset m P ≠ j ∧
        (∀ v, (v = a ∨ v = b) ↔ (v = lowestUnset m P ∨ v = j)) := by
      rcases hor with h | h
      · exact ⟨b, hmb.1, hmb.2.1, hmb.2.2, by rw [h]; exact hab_ne, fun v => by rw [h]⟩
      · exact ⟨a, hma.1, hma.2.1, hma.2.2, by rw [h]; exact fun e => hab_ne e.symm,
          fun v => by rw [h]; exact or_comm⟩
    have hij' : lowestUnset m P < j := by
      have := lowestUnset_le_of_unset m P j hbj
      omega
    have hentry : entry dist (min a b) (max a b) = entry dist (lowestUnset m P) j := by
      have h1 := (hset a).mp (Or.inl rfl)
      have h2 := (hset b).mp (Or.inr rfl)
      have h3 : min a b = lowestUnset m P ∧ max a b = j := by
        rcases h1 with e1 | e1 <;> rcases h2 with e2 | e2 <;> omega
      rw [h3.1, h3.2]
    have hR'lt : ∀ v, v ∈ flattenPairs R' → v < m := fun v hv =>
      hlt v (hfp.mem_iff.mpr (by simp [hv]))
    have hR'nn : 0 ≤ upperCost dist R' := upperCost_nonneg m dist hnn _ hR'lt
    have hdnn : 0 ≤ entry dist (lowestUnset m P) j := hnn _ hi _ hj
    have hPle : dpAt (tableAfter m dist P) P ≤ c := le_trans (tableAfter_mono m dist P hk) hc
    by_cases hPne : dpAt (tableAfter m dist P) P = LLONG_MAX
    · have h1 := tableAfter_le_max m dist (2 ^ m) S hS
      rw [hPne] at hPle
      omega
    have hP0 := tableAfter_nonneg m hm dist hnn hsum P (by omega) P hP
    have hnew := newMask_lt_two_pow m P (lowestUnset m P) j hP hi hj
    have hstep := processMask_bound m dist (tableAfter m dist P) P j hPne hij' hj hbj
      (by rw [tableAfter_length]; exact hnew)
    rw [← tableAfter_succ, wrap64_of_isLongLong (by unfold IsLongLong; constructor <;> omega)]
      at hstep
    have hgt := newMask_gt P (lowestUnset m P) j hij' hbj
    have hres := ih R' hlen'
      (P ||| 1 <<< lowestUnset m P ||| 1 <<< j) (P + 1)
      (c + entry dist (lowestUnset m P) j) (by omega) hnew hnd''
      (by
        intro v
        have h1 : v ∈ flattenPairs R ↔ (v = a ∨ v = b ∨ v ∈ flattenPairs R') := by
          rw [hfp.mem_iff]; simp
        have h2 := hmem v
        have h3 := hset v
        rw [testBit_newMask]
        constructor
        · intro hv
          have hv1 : v ∈ flattenPairs R := h1.mpr (Or.inr (Or.inr hv))
          have hva : v ≠ a := fun e => ha' (e ▸ hv)
          have hvb : v ≠ b := fun e => hb' (e ▸ hv)
          have hvi : ¬ (v = lowestUnset m P ∨ v = j) := fun e => (h3.mpr e).elim hva hvb
          have hv2 := h2.mp hv1
          refine ⟨hv2.1, hv2.2.1, ?_⟩
          have e1 : ¬ lowestUnset m P = v := fun e => hvi (Or.inl e.symm)
          have e2 : ¬ j = v := fun e => hvi (Or.inr e.symm)
          simp [hv2.2.2, e1, e2]
        · rintro ⟨hv1, hvS, hv2⟩
          simp only [Bool.or_eq_false_iff, decide_eq_false_iff_not] at hv2
          obtain ⟨⟨hv2, hv3⟩, hv4⟩ := hv2
          have hv5 := h1.mp (h2.mpr ⟨hv1, hvS, hv2⟩)
          have hvab : ¬ (v = a ∨ v = b) := fun e =>
            (h3.mp e).elim (fun e => hv3 e.symm) (fun e => hv4 e.symm)
          rcases hv5 with e | e | e
          · exact absurd (Or.inl e) hvab
          · exact absurd (Or.inr e) hvab
          · exact e)
      (by
        intro v hv hvP
        rw [testBit_newMask] at hvP
        simp only [Bool.or_eq_true, decide_eq_true_eq] at hvP
        rcases hvP with (h1 | h1) | h1
        · exact hsub v hv h1
        · rw [← h1]; exact hSi
        · rw [← h1]; exact hSj)
      (fun a' b' hab' => hlow a' b' (hperm.mem_iff.mpr (List.mem_cons_of_mem _ hab')))
      (by omega) (by omega)
    rw [hcostR, hentry]
    have e : c + (entry dist (lowestUnset m P) j + upperCost dist R')
        = c + entry dist (lowestUnset m P) j + upperCost dist R' := by ring
    rw [e]
    exact hres

theorem finalTable_eq (m : Nat) (dist : CostMatrix) :
    finalTable m dist = tableAfter m dist (2 ^ m) := by
  unfold finalTable
  have h3 : 2 ^ m - 1 + 1 = 2 ^ m := by
    have := Nat.two_pow_pos m
    omega
  rw [Nat.one_shiftLeft, h3]

/-- The final entry of a mask is at most the upper-triangle cost of any pairs that
cover the mask with their lower ends below its lowest unset index. -/
theorem finalEntry_le_upperCost (m : Nat) (hm : m % 2 = 0) (dist : CostMatrix)
    (hnn : IsNonneg m dist)
    (hsum : ∀ P, IsPerfectMatching m P → matchingCost dist P ≤ 2 ^ 63 - 1)
    (S : Nat) (hS : S < 2 ^ m) (M : List (Nat × Nat)) (hM : Covers m M S)
    (hlow : LowEndsBelowGap m S M) :
    dpAt (tableAfter m dist (2 ^ m)) S ≤ upperCost dist M := by
  have hpos := Nat.two_pow_pos m
  have h0 : dpAt (tableAfter m dist 0) 0 ≤ 0 := by
    have : tableAfter m dist 0 = initialTable m := rfl
    rw [this, dpAt_initialTable m 0 hpos, if_pos rfl]
  have hbound : upperCost dist M ≤ 2 ^ 63 - 1 := by
    obtain ⟨N, hN, hc⟩ := exists_oriented dist M
    rw [← hc]
    exact (cost_bounds m hm dist hnn hsum N (hN.nodup_iff.mpr hM.1)
      (fun v hv => covers_lt m M S hM v (hN.mem_iff.mp hv))).2
  have := tableAfter_complete_to m hm dist hnn hsum S hS M.length M rfl 0 0 0 (le_refl _) hpos
    hM.1 (fun v => by rw [hM.2 v]; simp) (fun v _ hv => by simp at hv) hlow h0 (by omega)
  simpa using this

/-- Without any symmetry, the entry of the full mask at the end of the loop is the
minimum over the perfect matchings of the cost read in the upper triangle. -/
theorem fullMask_isMinUpper (m : Nat) (hm : m % 2 = 0) (dist : CostMatrix)
    (hnn : IsNonneg m dist)
    (hsum : ∀ P, IsPerfectMatching m P → matchingCost dist P ≤ 2 ^ 63 - 1) :
    IsMinUpperCost m dist (dpAt (tableAfter m dist (2 ^ m)) (2 ^ m - 1)) := by
  have hpos := Nat.two_pow_pos m
  have hle : ∀ M, IsPerfectMatching m M →
      dpAt (tableAfter m dist (2 ^ m)) (2 ^ m - 1) ≤ upperCost dist M := by
    intro M hM
    obtain ⟨hnd, hmem⟩ := (isPerfectMatching_iff m M).mp hM
    apply finalEntry_le_upperCost m hm dist hnn hsum (2 ^ m - 1) (by omega) M
    · refine ⟨hnd, fun v => ?_⟩
      rw [hmem v, Nat.testBit_two_pow_sub_one]; simp
    · intro a b hab
      rw [lowestUnset_fullMask]
      have h1 := (hmem a).mp (mem_flattenPairs_of_mem hab).1
      omega
  refine ⟨?_, hle⟩
  obtain ⟨M0, hM0⟩ := exists_perfectMatching m hm
  by_cases hne : dpAt (tableAfter m dist (2 ^ m)) (2 ^ m - 1) = LLONG_MAX
  · refine ⟨M0, hM0, ?_⟩
    have h1 := hle M0 hM0
    have h2 := upperCost_le_of_perfect m dist (2 ^ 63 - 1) hsum M0 hM0
    rw [hne] at h1 ⊢
    unfold LLONG_MAX at h1 ⊢
    omega
  · obtain ⟨M, hM, hlow, hcost⟩ := tableAfter_sound_low m hm dist hnn hsum (2 ^ m) (le_refl _)
      (2 ^ m - 1) (by omega) hne
    refine ⟨M, ?_, ?_⟩
    · rw [isPerfectMatching_iff]
      refine ⟨hM.1, fun v => ?_⟩
      rw [hM.2 v, Nat.testBit_two_pow_sub_one]
      simp
    · rw [upperCost_eq_of_oriented dist M (fun a b hab => (hlow a b hab).1), hcost]

/-- The brute-force solver returns the least of the sums it reads over its
arrangements, whether the matrix is symmetric or not. -/
theorem bruteForceMatching_least (n : Nat) (hn : n % 2 = 0) (h2 : 2 ≤ n) (dist : CostMatrix)
    (hsum : ∀ M, IsPerfectMatching n M → IsLongLong (matchingCost dist M)) :
    ∃ r, bruteForceMatching (n : Int) dist = some r ∧
      (∃ p, p ∈ arrangements (Nat.factorial n) (List.range n) ∧
        r = matchingCost dist (pairUp p)) ∧
      (∀ p, p ∈ arrangements (Nat.factorial n) (List.range n) →
        r ≤ matchingCost dist (pairUp p)) := by
  have harr := (bruteLoop_range n (by omega) dist (Nat.factorial n) (factorial_pred_le n)).1
  have hc : ∀ r, r ∈ lexPerms (n - 1) (List.range' 1 (n - 1)) →
      pairingCost dist 0 (0 :: r) = matchingCost dist (pairUp (0 :: r)) ∧
        matchingCost dist (pairUp (0 :: r)) ≤ LLONG_MAX := by
    intro r hr
    have hP := isPerfectMatching_of_arrangement n hn h2 r hr
    have hll := hsum _ hP
    rw [pairingCost_eq dist _ 0 (by decide), zero_add, wrap64_of_isLongLong hll]
    exact ⟨rfl, hll.2⟩
  unfold bruteForceMatching
  rw [Int.toNat_ofNat, bruteForceMatchingFuel_eq n hn,
    (bruteLoop_range n (by omega) dist _ (factorial_pred_le n)).2, List.foldl_map, harr]
  refine ⟨_, rfl, ?_, ?_⟩
  · have h0 : List.range' 1 (n - 1) ∈ lexPerms (n - 1) (List.range' 1 (n - 1)) :=
      mem_lexPerms_of_perm _ _ _ (by simp) (List.Perm.refl _)
    rcases foldl_min_cases (fun r => pairingCost dist 0 (0 :: r))
      (lexPerms (n - 1) (List.range' 1 (n - 1))) LLONG_MAX with h | ⟨r, hr, h⟩
    · refine ⟨0 :: List.range' 1 (n - 1), List.mem_map.mpr ⟨_, h0, rfl⟩, ?_⟩
      have h1 := foldl_min_le_mem (fun r => pairingCost dist 0 (0 :: r)) _ _ h0 LLONG_MAX
      have h3 := hc _ h0
      rw [h] at h1 ⊢
      rw [h3.1] at h1
      exact le_antisymm h1 h3.2 |>.symm ▸ rfl
    · exact ⟨0 :: r, List.mem_map.mpr ⟨r, hr, rfl⟩, by rw [h, (hc r hr).1]⟩
  · intro p hp
    obtain ⟨r, hr, rfl⟩ := List.mem_map.mp hp
    have h1 := foldl_min_le_mem (fun r => pairingCost dist 0 (0 :: r)) _ r hr LLONG_MAX
    rw [(hc r hr).1] at h1
    exact h1

/-! ## Entries of the interval table that the main loops leave alone -/

theorem fillRange_frame {K : Type} [LinearOrderedField K] (m : Nat) (dist : List (List K))
    (len : Nat) (h4 : 4 ≤ len) (dp : List (List K)) (hT : IsTable m dp) (l : Nat)
    (hl : l + len - 1 < m) :
    IsTable m (fillRange dist len dp l) ∧
      ∀ a b, b < a + 3 → tableAt (fillRange dist len dp l) a b = tableAt dp a b := by
  unfold fillRange
  refine ⟨isTable_tableSet hT _ _ _, fun a b hab => ?_⟩
  rw [tableAt_tableSet hT l (l + len - 1) _ (by omega) hl a b, if_neg (by omega)]

theorem foldl_fillRange_frame {K : Type} [LinearOrderedField K] (m : Nat)
    (dist : List (List K)) (len : Nat) (h4 : 4 ≤ len) :
    ∀ (ls : List Nat), (∀ l, l ∈ ls → l + len - 1 < m) → ∀ dp : List (List K), IsTable m dp →
      IsTable m (ls.foldl (fillRange dist len) dp) ∧
        ∀ a b, b < a + 3 → tableAt (ls.foldl (fillRange dist len) dp) a b = tableAt dp a b := by
  intro ls
  induction ls with
  | nil => intro _ dp hT; exact ⟨hT, fun _ _ _ => rfl⟩
  | cons l ls ih =>
    intro hls dp hT
    obtain ⟨h1, h2⟩ := fillRange_frame m dist len h4 dp hT l (hls l (List.mem_cons_self _ _))
    obtain ⟨h3, h4⟩ := ih (fun x hx => hls x (List.mem_cons_of_mem _ hx)) _ h1
    rw [List.foldl_cons]
    exact ⟨h3, fun a b hab => by rw [h4 a b hab, h2 a b hab]⟩

theorem fillLength_frame {K : Type} [LinearOrderedField K] (m : Nat) (dist : List (List K))
    (len : Nat) (h4 : 4 ≤ len) (dp : List (List K)) (hT : IsTable m dp) :
    IsTable m (fillLength m dist dp len) ∧
      ∀ a b, b < a + 3 → tableAt (fillLength m dist dp len) a b = tableAt dp a b := by
  unfold fillLength
  apply foldl_fillRange_frame m dist len h4 _ _ dp hT
  intro l hl
  have := List.mem_range.mp hl
  omega

theorem foldl_fillLength_frame {K : Type} [LinearOrderedField K] (m : Nat)
    (dist : List (List K)) :
    ∀ (lens : List Nat), (∀ len, len ∈ lens → 4 ≤ len) → ∀ dp : List (List K), IsTable m dp →
      IsTable m (lens.foldl (fillLength m dist) dp) ∧
        ∀ a b, b < a + 3 → tableAt (lens.foldl (fillLength m dist) dp) a b = tableAt dp a b := by
  intro lens
  induction lens with
  | nil => intro _ dp hT; exact ⟨hT, fun _ _ _ => rfl⟩
  | cons len lens ih =>
    intro hls dp hT
    obtain ⟨h1, h2⟩ := fillLength_frame m dist len (hls len (List.mem_cons_self _ _)) dp hT
    obtain ⟨h3, h4⟩ := ih (fun x hx => hls x (List.mem_cons_of_mem _ hx)) _ h1
    rw [List.foldl_cons]
    exact ⟨h3, fun a b hab => by rw [h4 a b hab, h2 a b hab]⟩

/-- The loops over `len`, `l` and `k` write only entries `dp[l][r]` with `r ≥ l + 3`:
every entry nearer to the diagonal keeps the value the base loop left. -/
theorem intervalTable_near_diagonal {K : Type} [LinearOrderedField K] (sqrt : K → K)
    (points : List (Point K)) (hm : points.length % 2 = 0) :
    IsTable points.length (intervalTable sqrt points) ∧
      ∀ a b, a < points.length → b < points.length → b < a + 3 →
        tableAt (intervalTable sqrt points) a b
          = if a % 2 = 0 ∧ b = a + 1 then tableAt (distTable sqrt points) a b
            else (DBL_MAX : K) := by
  obtain ⟨hT, hbase⟩ := baseDP_spec points.length hm (distTable sqrt points)
  unfold intervalTable
  obtain ⟨h1, h2⟩ := foldl_fillLength_frame points.length (distTable sqrt points)
    ((List.range (points.length / 2 - 1)).map fun t => 2 * t + 4)
    (by
      intro len hlen
      obtain ⟨t, _, rfl⟩ := List.mem_map.mp hlen
      omega)
    _ hT
  exact ⟨h1, fun a b ha hb hab => by rw [h2 a b hab, hbase a b ha hb]⟩

/-! ## The record of the transitions of the bitmask solver -/

theorem relaxLog_def (dist : CostMatrix) (mask i : Nat) (st : List Int × List Transition)
    (j : Nat) :
    relaxLog dist mask i st j =
      if bitSet mask j = true then st
      else if wrap64 (dpAt st.1 mask + entry dist i j) < dpAt st.1 (mask ||| 1 <<< i ||| 1 <<< j)
        then (st.1.set (mask ||| 1 <<< i ||| 1 <<< j) (wrap64 (dpAt st.1 mask + entry dist i j)),
          st.2 ++ [⟨mask, i, j, dpAt st.1 mask + entry dist i j, true⟩])
        else (st.1, st.2 ++ [⟨mask, i, j, dpAt st.1 mask + entry dist i j, false⟩]) := rfl

theorem processMaskLog_def (m : Nat) (dist : CostMatrix) (st : List Int × List Transition)
    (mask : Nat) :
    processMaskLog m dist st mask =
      if dpAt st.1 mask = LLONG_MAX then st
      else if m ≤ lowestUnset m mask then st
        else (List.range' (lowestUnset m mask + 1) (m - (lowestUnset m mask + 1))).foldl
          (relaxLog dist mask (lowestUnset m mask)) st := rfl

theorem relaxLog_fst (dist : CostMatrix) (mask i : Nat) (st : List Int × List Transition)
    (j : Nat) : (relaxLog dist mask i st j).1 = relax dist mask i st.1 j := by
  rw [relaxLog_def, relax_def]
  split_ifs <;> rfl

theorem foldl_relaxLog_fst (dist : CostMatrix) (mask i : Nat) (js : List Nat) :
    ∀ st : List Int × List Transition,
      (js.foldl (relaxLog dist mask i) st).1 = js.foldl (relax dist mask i) st.1 := by
  induction js with
  | nil => intro st; rfl
  | cons j js ih => intro st; rw [List.foldl_cons, List.foldl_cons, ih, relaxLog_fst]

theorem processMaskLog_fst (m : Nat) (dist : CostMatrix) (st : List Int × List Transition)
    (mask : Nat) : (processMaskLog m dist st mask).1 = processMask m dist st.1 mask := by
  rw [processMaskLog_def, processMask_def]
  split_ifs
  · rfl
  · rfl
  · exact foldl_relaxLog_fst _ _ _ _ _

theorem logAfter_succ (m : Nat) (dist : CostMatrix) (k : Nat) :
    logAfter m dist (k + 1) = processMaskLog m dist (logAfter m dist k) k := by
  unfold logAfter
  rw [List.range_succ, List.foldl_append]
  rfl

/-- The table of the instrumented loop is the table of the loop. -/
theorem logAfter_fst (m : Nat) (dist : CostMatrix) (k : Nat) :
    (logAfter m dist k).1 = tableAfter m dist k := by
  induction k with
  | zero => rfl
  | succ k ih => rw [logAfter_succ, processMaskLog_fst, ih, tableAfter_succ]

/-- What one pass of the loop over `j` adds to the record. -/
theorem foldl_relaxLog_snd (dist : CostMatrix) (mask i : Nat) (js : List Nat) :
    ∀ st : List Int × List Transition,
      (∀ j, j ∈ js → mask ||| 1 <<< i ||| 1 <<< j < st.1.length) →
      ∀ t, t ∈ (js.foldl (relaxLog dist mask i) st).2 →
      t ∈ st.2 ∨ (t.mask = mask ∧ t.i = i ∧ t.j ∈ js ∧ bitSet mask t.j = false ∧
        t.sum = dpAt st.1 mask + entry dist i t.j ∧
        (t.stored = true →
          dpAt (js.foldl (relaxLog dist mask i) st).1 t.newMask ≤ wrap64 t.sum)) := by
  induction js with
  | nil => intro st _ t ht; exact Or.inl ht
  | cons j js ih =>
    intro st hlen t ht
    rw [List.foldl_cons] at ht ⊢
    have hlen' : ∀ j', j' ∈ js →
        mask ||| 1 <<< i ||| 1 <<< j' < (relaxLog dist mask i st j).1.length := by
      intro j' hj'
      rw [relaxLog_fst, relax_length]
      exact hlen j' (List.mem_cons_of_mem _ hj')
    have hnew : ∀ b, bitSet mask j = false →
        dpAt ((js.foldl (relaxLog dist mask i) (relaxLog dist mask i st j)).1)
          (Transition.newMask ⟨mask, i, j, dpAt st.1 mask + entry dist i j, b⟩)
          ≤ wrap64 (dpAt st.1 mask + entry dist i j) := by
      intro b hb
      rw [foldl_relaxLog_fst]
      refine le_trans (foldl_relax_le _ _ _ _ _ _) ?_
      rw [relaxLog_fst]
      exact relax_bound dist mask i st.1 j hb (hlen j (List.mem_cons_self _ _))
    rcases ih _ hlen' t ht with h | ⟨h1, h2, h3, h4, h5, h6⟩
    · rw [relaxLog_def] at h
      split_ifs at h with hb hlt
      · exact Or.inl h
      · rcases List.mem_append.mp h with h | h
        · exact Or.inl h
        · right
          rw [List.mem_singleton] at h
          subst h
          exact ⟨rfl, rfl, List.mem_cons_self _ _, by simpa using hb, rfl,
            fun _ => hnew true (by simpa using hb)⟩
      · rcases List.mem_append.mp h with h | h
        · exact Or.inl h
        · right
          rw [List.mem_singleton] at h
          subst h
          exact ⟨rfl, rfl, List.mem_cons_self _ _, by simpa using hb, rfl,
            fun hst => by cases hst⟩
    · right
      refine ⟨h1, h2, List.mem_cons_of_mem _ h3, h4, ?_, h6⟩
      rw [h5, relaxLog_fst, relax_self]

/-- What one pass of the loop over `mask` adds to the record. -/
theorem processMaskLog_snd (m : Nat) (dist : CostMatrix) (st : List Int × List Transition)
    (mask : Nat) (hmask : mask < 2 ^ m) (hlen : st.1.length = 2 ^ m) :
    ∀ t, t ∈ (processMaskLog m dist st mask).2 →
      t ∈ st.2 ∨ (t.mask = mask ∧ dpAt st.1 mask ≠ LLONG_MAX ∧ t.i = lowestUnset m mask ∧
        t.i < t.j ∧ t.j < m ∧ mask.testBit t.j = false ∧
        t.sum = dpAt st.1 mask + entry dist t.i t.j ∧
        (t.stored = true → dpAt (processMaskLog m dist st mask).1 t.newMask ≤ wrap64 t.sum)) := by
  intro t ht
  rw [processMaskLog_def] at ht ⊢
  split_ifs at ht ⊢ with h1 h2
  · exact Or.inl ht
  · exact Or.inl ht
  · have hi : lowestUnset m mask < m := by omega
    rcases foldl_relaxLog_snd dist mask (lowestUnset m mask) _ st (by
        intro j hj
        rw [List.mem_range'_1] at hj
        rw [hlen]
        exact newMask_lt_two_pow m mask _ j hmask hi (by omega)) t ht
      with h | ⟨h3, h4, h5, h6, h7, h8⟩
    · exact Or.inl h
    · right
      rw [List.mem_range'_1] at h5
      rw [bitSet_eq_testBit] at h6
      rw [h4]
      refine ⟨h3, h1, rfl, by omega, by omega, h6, h7, h8⟩

/-- Every transition of the record was computed from the table as it was when
the loop reached its mask; a stored value bounds the entry from then on. -/
theorem logAfter_snd (m : Nat) (dist : CostMatrix) (k : Nat) (hk : k ≤ 2 ^ m) :
    ∀ t, t ∈ (logAfter m dist k).2 →
      t.mask < k ∧ dpAt (tableAfter m dist t.mask) t.mask ≠ LLONG_MAX ∧
        t.i = lowestUnset m t.mask ∧ t.i < t.j ∧ t.j < m ∧ t.mask.testBit t.j = false ∧
        t.sum = dpAt (tableAfter m dist t.mask) t.mask + entry dist t.i t.j ∧
        (t.stored = true → dpAt (tableAfter m dist k) t.newMask ≤ wrap64 t.sum) := by
  induction k with
  | zero => intro t ht; cases ht
  | succ k ih =>
    intro t ht
    rw [logAfter_succ] at ht
    rcases processMaskLog_snd m dist (logAfter m dist k) k (by omega)
        (by rw [logAfter_fst, tableAfter_length]) t ht with h | ⟨h1, h2, h3, h4, h5, h6, h7, h8⟩
    · obtain ⟨g1, g2, g3, g4, g5, g6, g7, g8⟩ := ih (by omega) t h
      exact ⟨by omega, g2, g3, g4, g5, g6, g7,
        fun hst => le_trans (tableAfter_mono m dist _ (Nat.le_succ k)) (g8 hst)⟩
    · rw [logAfter_fst] at h2 h7
      rw [processMaskLog_fst, logAfter_fst, ← tableAfter_succ] at h8
      subst h1
      exact ⟨by omega, h2, h3, h4, h5, h6, h7, h8⟩

/-! ## Counting the candidates of the interval solver -/

theorem foldl_minStepCount {K : Type} [LinearOrderedField K] (dist dp : List (List K))
    (l r : Nat) (ks : List Nat) :
    ∀ st : K × Nat, ks.foldl (minStepCount dist dp l r) st
      = (ks.foldl (minStep dist dp l r) st.1, st.2 + ks.length) := by
  induction ks with
  | nil => intro st; rfl
  | cons k ks ih =>
    intro st
    rw [List.foldl_cons, ih, List.foldl_cons, List.length_cons]
    simp only [minStepCount]
    rw [Nat.add_assoc, Nat.add_comm 1]

theorem fillRangeCount_eq {K : Type} [LinearOrderedField K] (dist : List (List K)) (len : Nat)
    (st : List (List K) × Nat) (l : Nat) :
    fillRangeCount dist len st l = (fillRange dist len st.1 l, st.2 + len / 2) := by
  unfold fillRangeCount fillRange
  simp only [foldl_minStepCount, List.length_map, List.length_range]

theorem foldl_fillRangeCount {K : Type} [LinearOrderedField K] (dist : List (List K))
    (len : Nat) (ls : List Nat) :
    ∀ st : List (List K) × Nat, ls.foldl (fillRangeCount dist len) st
      = (ls.foldl (fillRange dist len) st.1, st.2 + ls.length * (len / 2)) := by
  induction ls with
  | nil => intro st; simp
  | cons l ls ih =>
    intro st
    rw [List.foldl_cons, ih, fillRangeCount_eq, List.foldl_cons, List.length_cons]
    simp only
    rw [Nat.add_assoc, Nat.succ_mul, Nat.add_comm (len / 2)]

theorem fillLengthCount_eq {K : Type} [LinearOrderedField K] (m : Nat) (dist : List (List K))
    (st : List (List K) × Nat) (len : Nat) :
    fillLengthCount m dist st len
      = (fillLength m dist st.1 len, st.2 + (m + 1 - len) * (len / 2)) := by
  unfold fillLengthCount fillLength
  rw [foldl_fillRangeCount, List.length_range]

theorem foldl_fillLengthCount {K : Type} [LinearOrderedField K] (m : Nat)
    (dist : List (List K)) (lens : List Nat) :
    ∀ st : List (List K) × Nat, lens.foldl (fillLengthCount m dist) st
      = (lens.foldl (fillLength m dist) st.1,
          st.2 + (lens.map fun len => (m + 1 - len) * (len / 2)).sum) := by
  induction lens with
  | nil => intro st; simp
  | cons len lens ih =>
    intro st
    rw [List.foldl_cons, ih, fillLengthCount_eq, List.foldl_cons, List.map_cons, List.sum_cons]
    simp only
    rw [Nat.add_assoc]

theorem sum_le_length_mul (B : Nat) : ∀ xs : List Nat, (∀ x, x ∈ xs → x ≤ B) →
    xs.sum ≤ xs.length * B := by
  intro xs
  induction xs with
  | nil => intro _; simp
  | cons x xs ih =>
    intro h
    rw [List.sum_cons, List.length_cons, Nat.succ_mul]
    have h1 := h x (List.mem_cons_self _ _)
    have h2 := ih (fun y hy => h y (List.mem_cons_of_mem _ hy))
    omega

/-- The instrumented loops compute the table of the interval solver, and the
number of candidates is the sum over `len = 4, 6, ..., m` of
`(m + 1 - len) * (len / 2)`, which is at most `m ^ 3`. -/
theorem intervalCount_eq {K : Type} [LinearOrderedField K] (sqrt : K → K)
    (points : List (Point K)) :
    (intervalCount sqrt points).1 = intervalTable sqrt points ∧
      (intervalCount sqrt points).2
        = ((List.range (points.length / 2 - 1)).map fun t =>
            (points.length + 1 - (2 * t + 4)) * (t + 2)).sum ∧
      (intervalCount sqrt points).2 ≤ points.length ^ 3 := by
  have h := foldl_fillLengthCount points.length (distTable sqrt points)
    ((List.range (points.length / 2 - 1)).map fun t => 2 * t + 4)
    (baseDP points.length (distTable sqrt points), 0)
  have hcount : (intervalCount sqrt points).2
      = ((List.range (points.length / 2 - 1)).map fun t =>
          (points.length + 1 - (2 * t + 4)) * (t + 2)).sum := by
    unfold intervalCount
    rw [h]
    simp only [Nat.zero_add, List.map_map]
    congr 1
    apply List.map_congr_left
    intro t _
    simp only [Function.comp]
    congr 1
    omega
  refine ⟨?_, hcount, ?_⟩
  · unfold intervalCount intervalTable
    rw [h]
  · rw [hcount]
    refine le_trans (sum_le_length_mul (points.length * points.length) _ ?_) ?_
    · intro x hx
      obtain ⟨t, ht, rfl⟩ := List.mem_map.mp hx
      rw [List.mem_range] at ht
      exact Nat.mul_le_mul (by omega) (by omega)
    · rw [List.length_map, List.length_range]
      have e : points.length ^ 3 = points.length * (points.length * points.length) := by ring
      rw [e]
      exact Nat.mul_le_mul_right _ (by omega)

theorem isTable_distTable {K : Type} [LinearOrderedField K] (sqrt : K → K)
    (points : List (Point K)) : IsTable points.length (distTable sqrt points) := by
  unfold distTable
  refine ⟨by simp, ?_⟩
  intro row hrow
  obtain ⟨i, _, rfl⟩ := List.mem_map.mp hrow
  simp

/-! ## The enumeration of the pairings -/

theorem pairings_nil (fuel : Nat) : pairings fuel [] = [[]] := by
  cases fuel <;> rfl

theorem mem_pairings_succ (fuel a : Nat) (rest : List Nat) (s : List (Nat × Nat)) :
    s ∈ pairings (fuel + 1) (a :: rest) ↔
      ∃ b, b ∈ rest ∧ ∃ t, t ∈ pairings fuel (rest.erase b) ∧ s = (a, b) :: t := by
  simp only [pairings, List.mem_flatMap, List.mem_map]
  constructor
  · rintro ⟨b, hb, t, ht, rfl⟩
    exact ⟨b, hb, t, ht, rfl⟩
  · rintro ⟨b, hb, t, ht, rfl⟩
    exact ⟨b, hb, t, ht, rfl⟩

theorem oddProduct_succ (k : Nat) :
    oddProduct (2 * (k + 1)) = (2 * k + 1) * oddProduct (2 * k) := by
  unfold oddProduct
  have h1 : 2 * (k + 1) / 2 = k + 1 := by omega
  have h2 : 2 * k / 2 = k := by omega
  rw [h1, h2, List.range_succ, List.map_append, List.prod_append]
  simp [Nat.mul_comm]

theorem oddProduct_pos (n : Nat) : 0 < oddProduct n := by
  unfold oddProduct
  apply List.prod_pos
  intro x hx
  obtain ⟨t, _, rfl⟩ := List.mem_map.mp hx
  omega

/-- The product of the odd numbers below `2 k` is the double factorial of `2 k - 1`. -/
theorem oddProduct_eq_doubleFactorial (k : Nat) :
    oddProduct (2 * k) = Nat.doubleFactorial (2 * k - 1) := by
  induction k with
  | zero => rfl
  | succ k ih =>
    rw [oddProduct_succ, ih]
    cases k with
    | zero => rfl
    | succ k =>
      have e1 : 2 * (k + 1 + 1) - 1 = (2 * (k + 1) - 1) + 2 := by omega
      have e2 : 2 * (k + 1) + 1 = (2 * (k + 1) - 1) + 2 := by omega
      rw [e1, Nat.doubleFactorial_add_two, e2]

theorem sum_map_const (c : Nat) (f : Nat → Nat) : ∀ l : List Nat, (∀ x, x ∈ l → f x = c) →
    (l.map f).sum = l.length * c := by
  intro l
  induction l with
  | nil => intro _; simp
  | cons x l ih =>
    intro h
    rw [List.map_cons, List.sum_cons, h x (List.mem_cons_self _ _),
      ih (fun y hy => h y (List.mem_cons_of_mem _ hy)), List.length_cons, Nat.succ_mul,
      Nat.add_comm]

/-- A list of `2 k` vertices has `(2k - 1) (2k - 3) ... 1` pairings. -/
theorem length_pairings : ∀ (k : Nat) (l : List Nat), l.length = 2 * k →
    (pairings k l).length = oddProduct (2 * k) := by
  intro k
  induction k with
  | zero =>
    intro l hl
    have : l = [] := List.length_eq_zero.mp (by omega)
    subst this
    rfl
  | succ k ih =>
    intro l hl
    cases l with
    | nil => simp at hl
    | cons a rest =>
      have hrest : rest.length = 2 * k + 1 := by
        rw [List.length_cons] at hl; omega
      simp only [pairings, List.length_flatMap]
      rw [sum_map_const (oddProduct (2 * k))]
      · rw [hrest, oddProduct_succ]
      · intro b hb
        simp only [Function.comp, List.length_map]
        apply ih
        rw [List.length_erase_of_mem hb, hrest]
        rfl

/-- Every pairing of `l` uses each vertex of `l` once. -/
theorem perm_of_mem_pairings : ∀ (k : Nat) (l : List Nat) (s : List (Nat × Nat)),
    s ∈ pairings k l → (flattenPairs s).Perm l := by
  intro k
  induction k with
  | zero =>
    intro l s hs
    cases l with
    | nil =>
      rw [pairings_nil, List.mem_singleton] at hs
      subst hs
      exact List.Perm.refl _
    | cons a rest => simp [pairings] at hs
  | succ k ih =>
    intro l s hs
    cases l with
    | nil =>
      rw [pairings_nil, List.mem_singleton] at hs
      subst hs
      exact List.Perm.refl _
    | cons a rest =>
      obtain ⟨b, hb, t, ht, rfl⟩ := (mem_pairings_succ k a rest s).mp hs
      have h1 := ih _ t ht
      show (a :: b :: flattenPairs t).Perm (a :: rest)
      exact ((h1.cons b).trans (List.perm_cons_erase hb).symm).cons a

theorem samePairs_refl (M : List (Nat × Nat)) : SamePairs M M := fun _ _ => Iff.rfl

theorem samePairs_symm {M N : List (Nat × Nat)} (h : SamePairs M N) : SamePairs N M :=
  fun a b => (h a b).symm

theorem samePairs_trans {M N P : List (Nat × Nat)} (h1 : SamePairs M N) (h2 : SamePairs N P) :
    SamePairs M P := fun a b => (h1 a b).trans (h2 a b)

theorem samePairs_of_perm {M N : List (Nat × Nat)} (h : M.Perm N) : SamePairs M N :=
  fun a b => by rw [h.mem_iff, h.mem_iff]

theorem samePairs_cons {M N : List (Nat × Nat)} (p : Nat × Nat) (h : SamePairs M N) :
    SamePairs (p :: M) (p :: N) := by
  intro a b
  simp only [List.mem_cons]
  have := h a b
  tauto

theorem samePairs_swap_head (a b : Nat) (M : List (Nat × Nat)) :
    SamePairs ((a, b) :: M) ((b, a) :: M) := by
  intro x y
  simp only [List.mem_cons, Prod.mk.injEq]
  tauto

theorem flattenPairs_eq_nil {M : List (Nat × Nat)} (h : flattenPairs M = []) : M = [] := by
  cases M with
  | nil => rfl
  | cons p M => obtain ⟨a, b⟩ := p; simp [flattenPairs] at h

/-- Every way to pair up the vertices of `l` has the same pairs as one of the
enumerated pairings. -/
theorem exists_pairing : ∀ (k : Nat) (l : List Nat) (M : List (Nat × Nat)), l.length = 2 * k →
    (flattenPairs M).Perm l → ∃ s, s ∈ pairings k l ∧ SamePairs s M := by
  intro k
  induction k with
  | zero =>
    intro l M hl hM
    have : l = [] := List.length_eq_zero.mp (by omega)
    subst this
    have hM' : M = [] := flattenPairs_eq_nil (List.perm_nil.mp hM)
    subst hM'
    exact ⟨[], by rw [pairings_nil]; exact List.mem_singleton.mpr rfl, samePairs_refl _⟩
  | succ k ih =>
    intro l M hl hM
    cases l with
    | nil => simp at hl
    | cons a rest =>
      have hrest : rest.length = 2 * k + 1 := by
        rw [List.length_cons] at hl; omega
      have ha : a ∈ flattenPairs M := hM.mem_iff.mpr (List.mem_cons_self _ _)
      obtain ⟨x, y, hxy, hv⟩ := exists_pair_of_mem ha
      obtain ⟨M', hperm⟩ : ∃ M', M.Perm ((x, y) :: M') := ⟨_, List.perm_cons_erase hxy⟩
      have hflat : (x :: y :: flattenPairs M').Perm (a :: rest) :=
        (flattenPairs_perm hperm).symm.trans hM
      -- the partner `b` of `a`, and the pairs without `a`
      have key : ∀ b, (a :: b :: flattenPairs M').Perm (a :: rest) →
          SamePairs ((a, b) :: M') M → ∃ s, s ∈ pairings (k + 1) (a :: rest) ∧ SamePairs s M := by
        intro b hab hsame
        have h1 : (b :: flattenPairs M').Perm rest := hab.cons_inv
        have hb : b ∈ rest := h1.mem_iff.mp (List.mem_cons_self _ _)
        have h2 : (flattenPairs M').Perm (rest.erase b) := by
          have := h1.erase b
          rwa [List.erase_cons_head] at this
        obtain ⟨t, ht, hts⟩ := ih (rest.erase b) M'
          (by rw [List.length_erase_of_mem hb, hrest]; rfl) h2
        exact ⟨(a, b) :: t, (mem_pairings_succ k a rest _).mpr ⟨b, hb, t, ht, rfl⟩,
          samePairs_trans (samePairs_cons (a, b) hts) hsame⟩
      rcases hv with hv | hv
      · subst hv
        exact key y hflat (samePairs_of_perm hperm.symm)
      · subst hv
        exact key x ((List.Perm.swap x a _).trans hflat)
          (samePairs_trans (samePairs_swap_head a x M') (samePairs_of_perm hperm.symm))

theorem samePairs_tail {a b : Nat} {t t' : List (Nat × Nat)} (h : a ∉ flattenPairs t)
    (h' : a ∉ flattenPairs t') (hs : SamePairs ((a, b) :: t) ((a, b) :: t')) :
    SamePairs t t' := by
  have half : ∀ (u u' : List (Nat × Nat)), a ∉ flattenPairs u →
      SamePairs ((a, b) :: u) ((a, b) :: u') →
      ∀ x y, ((x, y) ∈ u ∨ (y, x) ∈ u) → ((x, y) ∈ u' ∨ (y, x) ∈ u') := by
    intro u u' hu hsame x y hxy
    have hmem : x ∈ flattenPairs u ∧ y ∈ flattenPairs u := by
      rcases hxy with h1 | h1
      · exact mem_flattenPairs_of_mem h1
      · exact (mem_flattenPairs_of_mem h1).symm
    have h2 := (hsame x y).mp (by
      rcases hxy with h1 | h1
      · exact Or.inl (List.mem_cons_of_mem _ h1)
      · exact Or.inr (List.mem_cons_of_mem _ h1))
    rcases h2 with h2 | h2
    · rcases List.mem_cons.mp h2 with h3 | h3
      · exfalso
        have : x = a := (Prod.mk.inj h3).1
        exact hu (this ▸ hmem.1)
      · exact Or.inl h3
    · rcases List.mem_cons.mp h2 with h3 | h3
      · exfalso
        have : y = a := (Prod.mk.inj h3).1
        exact hu (this ▸ hmem.2)
      · exact Or.inr h3
  intro x y
  exact ⟨half t t' h hs x y, half t' t h' (samePairs_symm hs) x y⟩

/-- Two enumerated pairings of a list without repetition that have the same pairs
are equal. -/
theorem pairing_unique : ∀ (k : Nat) (l : List Nat) (s s' : List (Nat × Nat)), l.Nodup →
    s ∈ pairings k l → s' ∈ pairings k l → SamePairs s s' → s = s' := by
  intro k
  induction k with
  | zero =>
    intro l s s' _ hs hs' _
    cases l with
    | nil =>
      rw [pairings_nil, List.mem_singleton] at hs hs'
      rw [hs, hs']
    | cons a rest => simp [pairings] at hs
  | succ k ih =>
    intro l s s' hnd hs hs' hsame
    cases l with
    | nil =>
      rw [pairings_nil, List.mem_singleton] at hs hs'
      rw [hs, hs']
    | cons a rest =>
      obtain ⟨b, hb, t, ht, rfl⟩ := (mem_pairings_succ k a rest s).mp hs
      obtain ⟨b', hb', t', ht', rfl⟩ := (mem_pairings_succ k a rest s').mp hs'
      have hflat : ∀ c u, c ∈ rest → u ∈ pairings k (rest.erase c) →
          a ≠ c ∧ a ∉ flattenPairs u := by
        intro c u hc hu
        have h1 : (flattenPairs ((a, c) :: u)).Perm (a :: rest) :=
          perm_of_mem_pairings (k + 1) (a :: rest) _
            ((mem_pairings_succ k a rest _).mpr ⟨c, hc, u, hu, rfl⟩)
        have h2 : (a :: c :: flattenPairs u).Nodup := h1.nodup_iff.mpr hnd
        have h3 := (List.nodup_cons.mp h2).1
        exact ⟨fun e => h3 (e ▸ List.mem_cons_self _ _), fun e => h3 (List.mem_cons_of_mem _ e)⟩
      obtain ⟨hab, hat⟩ := hflat b t hb ht
      obtain ⟨_, hat'⟩ := hflat b' t' hb' ht'
      have hbb : b = b' := by
        have h1 := (hsame a b).mp (Or.inl (List.mem_cons_self _ _))
        rcases h1 with h1 | h1
        · rcases List.mem_cons.mp h1 with h2 | h2
          · exact (Prod.mk.inj h2).2
          · exact absurd (mem_flattenPairs_of_mem h2).1 hat'
        · rcases List.mem_cons.mp h1 with h2 | h2
          · exact absurd (Prod.mk.inj h2).1.symm hab
          · exact absurd (mem_flattenPairs_of_mem h2).2 hat'
      subst hbb
      have htt := ih (rest.erase b) t t' ((List.nodup_cons.mp hnd).2.erase b) ht ht'
        (samePairs_tail hat hat' hsame)
      rw [htt]

/-- The enumeration of the pairings of a list without repetition has no
repetition. -/
theorem nodup_pairings : ∀ (k : Nat) (l : List Nat), l.Nodup → (pairings k l).Nodup := by
  intro k
  induction k with
  | zero =>
    intro l _
    cases l with
    | nil => rw [pairings_nil]; exact List.nodup_singleton _
    | cons a rest => simp [pairings]
  | succ k ih =>
    intro l hnd
    cases l with
    | nil => rw [pairings_nil]; exact List.nodup_singleton _
    | cons a rest =>
      have hrest := (List.nodup_cons.mp hnd).2
      simp only [pairings]
      rw [List.nodup_flatMap]
      constructor
      · intro b _
        exact (ih _ (hrest.erase b)).map (fun s s' h => (List.cons.inj h).2)
      · refine hrest.imp ?_
        intro b b' hbb
        simp only [Function.onFun]
        rw [List.disjoint_left]
        intro s hs hs'
        obtain ⟨t, _, rfl⟩ := List.mem_map.mp hs
        obtain ⟨t', _, h⟩ := List.mem_map.mp hs'
        exact hbb (Prod.mk.inj (List.cons.inj h).1).2.symm

/-- A larger bound on the number of pairs does not change the enumeration. -/
theorem pairings_fuel : ∀ (k : Nat) (l : List Nat), l.length = 2 * k → ∀ fuel, k ≤ fuel →
    pairings fuel l = pairings k l := by
  intro k
  induction k with
  | zero =>
    intro l hl fuel _
    have : l = [] := List.length_eq_zero.mp (by omega)
    subst this
    rw [pairings_nil, pairings_nil]
  | succ k ih =>
    intro l hl fuel hfuel
    cases l with
    | nil => simp at hl
    | cons a rest =>
      have hrest : rest.length = 2 * k + 1 := by
        rw [List.length_cons] at hl; omega
      obtain ⟨fuel', rfl⟩ : ∃ f, fuel = f + 1 := ⟨fuel - 1, by omega⟩
      simp only [pairings]
      apply List.flatMap_congr
      intro b hb
      rw [ih (rest.erase b) (by rw [List.length_erase_of_mem hb, hrest]; rfl) fuel' (by omega)]

/-! ## The loop of `doubleFactorial` -/

/-- From the counter `2 k - 1` the loop multiplies `result` by the odd numbers below
`2 k`, as long as the product fits in 64 bits. -/
theorem doubleFactorialLoop_eq : ∀ (k fuel : Nat) (r : Int), k ≤ fuel → 0 ≤ r →
    r * (oddProduct (2 * k) : Int) ≤ 2 ^ 63 - 1 →
    doubleFactorialLoop fuel (2 * (k : Int) - 1) r = r * (oddProduct (2 * k) : Int) := by
  intro k
  induction k with
  | zero =>
    intro fuel r _ _ _
    have e : oddProduct (2 * 0) = 1 := rfl
    rw [e]
    cases fuel with
    | zero => simp [doubleFactorialLoop]
    | succ fuel => simp [doubleFactorialLoop]
  | succ k ih =>
    intro fuel r hfuel hr hfit
    obtain ⟨fuel', rfl⟩ : ∃ f, fuel = f + 1 := ⟨fuel - 1, by omega⟩
    have hP := oddProduct_pos (2 * k)
    have hP' : (1 : Int) ≤ (oddProduct (2 * k) : Int) := by exact_mod_cast hP
    have hsucc : (oddProduct (2 * (k + 1)) : Int)
        = (2 * (k : Int) + 1) * (oddProduct (2 * k) : Int) := by
      rw [oddProduct_succ]; push_cast; ring
    have hi : (0 : Int) < 2 * ((k + 1 : Nat) : Int) - 1 := by push_cast; omega
    have hr' : 0 ≤ r * (2 * (k : Int) + 1) := mul_nonneg hr (by omega)
    have hle : r * (2 * (k : Int) + 1) ≤ r * (oddProduct (2 * (k + 1)) : Int) := by
      rw [hsucc]
      have := mul_le_mul_of_nonneg_left hP' hr'
      linarith
    have hll : IsLongLong (r * (2 * ((k + 1 : Nat) : Int) - 1)) := by
      have e : 2 * ((k + 1 : Nat) : Int) - 1 = 2 * (k : Int) + 1 := by push_cast; ring
      rw [e]
      unfold IsLongLong
      constructor
      · linarith
      · linarith
    simp only [doubleFactorialLoop]
    rw [if_pos hi, wrap64_of_isLongLong hll]
    have e1 : 2 * ((k + 1 : Nat) : Int) - 1 - 2 = 2 * (k : Int) - 1 := by push_cast; ring
    have e2 : r * (2 * ((k + 1 : Nat) : Int) - 1) = r * (2 * (k : Int) + 1) := by
      push_cast; ring
    rw [e1, e2, ih fuel' _ (by omega) hr' (by rw [hsucc] at hfit; linarith), hsucc]
    ring

/-! ## The transition sequences are the pairings of the unset indices -/

theorem unset_filter_full (m mask : Nat) (h : m ≤ lowestUnset m mask) :
    (List.range m).filter (fun v => !mask.testBit v) = [] := by
  rw [List.filter_eq_nil_iff]
  intro v hv
  rw [List.mem_range] at hv
  rw [lowestUnset_below m mask v (by omega)]
  decide

theorem unset_filter_cons (m mask : Nat) (h : lowestUnset m mask < m) :
    (List.range m).filter (fun v => !mask.testBit v)
      = lowestUnset m mask ::
        (List.range' (lowestUnset m mask + 1) (m - (lowestUnset m mask + 1))).filter
          (fun v => !mask.testBit v) := by
  have e1 : List.range m = List.range' 0 (lowestUnset m mask)
      ++ lowestUnset m mask ::
        List.range' (lowestUnset m mask + 1) (m - (lowestUnset m mask + 1)) := by
    have e2 : m = (m - (lowestUnset m mask + 1) + 1) + lowestUnset m mask := by omega
    rw [List.range_eq_range']
    nth_rewrite 1 [e2]
    rw [← List.range'_append_1, Nat.zero_add, List.range'_succ]
  have e3 : (List.range' 0 (lowestUnset m mask)).filter (fun v => !mask.testBit v) = [] := by
    rw [List.filter_eq_nil_iff]
    intro v hv
    rw [List.mem_range'_1] at hv
    rw [lowestUnset_below m mask v (by omega)]
    decide
  rw [e1, List.filter_append, e3, List.nil_append, List.filter_cons,
    if_pos (by rw [lowestUnset_unset m mask h]; rfl)]

theorem unset_filter_newMask (m mask j : Nat) (h : lowestUnset m mask < m) :
    (List.range m).filter (fun v => !(mask ||| 1 <<< lowestUnset m mask ||| 1 <<< j).testBit v)
      = ((List.range' (lowestUnset m mask + 1) (m - (lowestUnset m mask + 1))).filter
          (fun v => !mask.testBit v)).erase j := by
  have hnd : ((List.range' (lowestUnset m mask + 1) (m - (lowestUnset m mask + 1))).filter
      (fun v => !mask.testBit v)).Nodup := (List.nodup_range' _ _).filter _
  rw [hnd.erase_eq_filter]
  have e1 : (fun v => !(mask ||| 1 <<< lowestUnset m mask ||| 1 <<< j).testBit v)
      = fun v => (v != j && v != lowestUnset m mask) && !mask.testBit v := by
    funext v
    rw [testBit_newMask]
    generalize lowestUnset m mask = i
    by_cases h1 : i = v
    · subst h1; simp
    · by_cases h2 : j = v
      · subst h2; simp
      · have h1' : ¬ v = i := fun e => h1 e.symm
        have h2' : ¬ v = j := fun e => h2 e.symm
        simp [h1, h2, h1', h2']
  rw [e1, ← List.filter_filter, unset_filter_cons m mask h, List.filter_cons,
    if_neg (by simp), List.filter_filter, List.filter_filter]
  apply List.filter_congr
  intro v hv
  rw [List.mem_range'_1] at hv
  have : v ≠ lowestUnset m mask := by omega
  by_cases h2 : v = j <;> cases mask.testBit v <;> simp [h2, this]

/-- The sequences of transitions from a mask are the pairings of its unset
indices, in ascending order. -/
theorem transitionSeqs_eq_pairings (m : Nat) : ∀ (fuel mask : Nat),
    transitionSeqs m fuel mask
      = pairings fuel ((List.range m).filter fun v => !mask.testBit v) := by
  have hbit : ∀ mask : Nat, (fun j => !bitSet mask j) = fun v => !mask.testBit v := by
    intro mask
    funext v
    rw [bitSet_eq_testBit]
  intro fuel
  induction fuel with
  | zero =>
    intro mask
    by_cases h : m ≤ lowestUnset m mask
    · rw [unset_filter_full m mask h, pairings_nil]
      simp only [transitionSeqs, if_pos h]
    · rw [unset_filter_cons m mask (by omega)]
      simp only [transitionSeqs, if_neg h, pairings]
  | succ fuel ih =>
    intro mask
    by_cases h : m ≤ lowestUnset m mask
    · rw [unset_filter_full m mask h, pairings_nil]
      simp only [transitionSeqs, if_pos h]
    · rw [unset_filter_cons m mask (by omega)]
      simp only [transitionSeqs, if_neg h, pairings]
      rw [hbit]
      apply List.flatMap_congr
      intro j hj
      rw [ih, unset_filter_newMask m mask j (by omega)]

theorem unset_filter_zero (m : Nat) :
    (List.range m).filter (fun v => !(0 : Nat).testBit v) = List.range m := by
  rw [List.filter_eq_self]
  intro v _
  simp

/-! ## The interval solver on four points -/

theorem partnersOf_four (l : Nat) : partnersOf l 4 = [l + 1, l + 3] := rfl

/-- On four points the range `[0, 3]` gets the length of the pairing `{0,1}, {2,3}` when
that is below `DBL_MAX`, and keeps `DBL_MAX` otherwise: the candidate `k = 3` adds
the entry `dp[1][2]`, which is `DBL_MAX`. -/
theorem intervalTable_four {K : Type} [LinearOrderedField K] (sqrt : K → K)
    (hs : ∀ x, 0 ≤ sqrt x) (p0 p1 p2 p3 : Point K) :
    tableAt (intervalTable sqrt [p0, p1, p2, p3]) 0 3
      = if euclideanDist sqrt p0 p1 + euclideanDist sqrt p2 p3 < (DBL_MAX : K)
        then euclideanDist sqrt p0 p1 + euclideanDist sqrt p2 p3 else (DBL_MAX : K) := by
  have hlen : [p0, p1, p2, p3].length = 4 := rfl
  obtain ⟨hT, hbase⟩ := baseDP_spec 4 (by decide) (distTable sqrt [p0, p1, p2, p3])
  have hd : ∀ i j, i < 4 → j < 4 → i < j →
      tableAt (distTable sqrt [p0, p1, p2, p3]) i j
        = euclideanDist sqrt (pointAt [p0, p1, p2, p3] i) (pointAt [p0, p1, p2, p3] j) :=
    fun i j hi hj hij => tableAt_distTable sqrt _ i j (by rw [hlen]; exact hi)
      (by rw [hlen]; exact hj) hij
  have h01 := hd 0 1 (by decide) (by decide) (by decide)
  have h03 := hd 0 3 (by decide) (by decide) (by decide)
  have h23 := hd 2 3 (by decide) (by decide) (by decide)
  have hb12 := hbase 1 2 (by decide) (by decide)
  have hb23 := hbase 2 3 (by decide) (by decide)
  rw [if_neg (by decide)] at hb12
  rw [if_pos (by decide), h23] at hb23
  have e0 : pointAt [p0, p1, p2, p3] 0 = p0 := rfl
  have e1 : pointAt [p0, p1, p2, p3] 1 = p1 := rfl
  have e2 : pointAt [p0, p1, p2, p3] 2 = p2 := rfl
  have e3 : pointAt [p0, p1, p2, p3] 3 = p3 := rfl
  rw [e0, e1] at h01
  rw [e0, e3] at h03
  rw [e2, e3] at hb23
  have hc1 : splitCost (distTable sqrt [p0, p1, p2, p3])
      (baseDP 4 (distTable sqrt [p0, p1, p2, p3])) 0 3 1
      = euclideanDist sqrt p0 p1 + euclideanDist sqrt p2 p3 := by
    rw [splitCost_eq, h01, if_neg (by decide), if_pos (by decide), hb23, add_zero]
  have hc3 : splitCost (distTable sqrt [p0, p1, p2, p3])
      (baseDP 4 (distTable sqrt [p0, p1, p2, p3])) 0 3 3
      = euclideanDist sqrt p0 p3 + (DBL_MAX : K) := by
    rw [splitCost_eq, h03, if_pos (by decide), if_neg (by decide), hb12, add_zero]
  have htab : intervalTable sqrt [p0, p1, p2, p3]
      = tableSet (baseDP 4 (distTable sqrt [p0, p1, p2, p3])) 0 3
          ([1, 3].foldl (minStep (distTable sqrt [p0, p1, p2, p3])
            (baseDP 4 (distTable sqrt [p0, p1, p2, p3])) 0 3) (DBL_MAX : K)) := by
    have e1 : ((List.range (4 / 2 - 1)).map fun t => 2 * t + 4) = [4] := by decide
    have e2 : List.range (4 + 1 - 4) = [0] := by decide
    have e3 : ((List.range (4 / 2)).map fun t => 0 + 1 + 2 * t) = [1, 3] := by decide
    have e4 : 0 + 4 - 1 = 3 := by decide
    unfold intervalTable
    rw [hlen, e1, List.foldl_cons, List.foldl_nil]
    unfold fillLength
    rw [e2, List.foldl_cons, List.foldl_nil]
    unfold fillRange
    rw [e3, e4]
  rw [htab, tableAt_tableSet hT 0 3 _ (by decide) (by decide) 0 3, if_pos ⟨rfl, rfl⟩]
  simp only [List.foldl_cons, List.foldl_nil, minStep, hc1, hc3]
  have h0 : 0 ≤ euclideanDist sqrt p0 p3 := hs _
  by_cases hlt : euclideanDist sqrt p0 p1 + euclideanDist sqrt p2 p3 < (DBL_MAX : K)
  · rw [if_pos hlt, if_neg (by linarith)]
  · rw [if_neg hlt, if_neg (by linarith)]

theorem intervalDPMatching_four {K : Type} [LinearOrderedField K] (sqrt : K → K)
    (hs : ∀ x, 0 ≤ sqrt x) (p0 p1 p2 p3 : Point K) :
    intervalDPMatching sqrt [p0, p1, p2, p3]
      = some (if euclideanDist sqrt p0 p1 + euclideanDist sqrt p2 p3 < (DBL_MAX : K)
        then euclideanDist sqrt p0 p1 + euclideanDist sqrt p2 p3 else (DBL_MAX : K)) := by
  rw [← intervalTable_four sqrt hs]
  have hlen : [p0, p1, p2, p3].length = 4 := rfl
  unfold intervalDPMatching
  rw [hlen, if_neg (by decide), if_neg (by decide)]

/-! ## The recurrence of the interval table -/

theorem mem_partnersOf {l len k : Nat} (h : k ∈ partnersOf l len) : l < k ∧ k ≤ l + len - 1 := by
  unfold partnersOf at h
  obtain ⟨t, ht, rfl⟩ := List.mem_map.mp h
  rw [List.mem_range] at ht
  omega

theorem fillRange_def {K : Type} [LinearOrderedField K] (dist : List (List K)) (len : Nat)
    (dp : List (List K)) (l : Nat) :
    fillRange dist len dp l
      = tableSet dp l (l + len - 1)
          ((partnersOf l len).foldl (minStep dist dp l (l + len - 1)) (DBL_MAX : K)) := rfl

/-- A candidate reads the table only at entries nearer to the diagonal than its
own range. -/
theorem splitCost_congr {K : Type} [LinearOrderedField K] (dist dp dp' : List (List K))
    (l r k d : Nat) (hlk : l < k) (hkr : k ≤ r) (hr : r ≤ l + d)
    (h : ∀ a b, b < a + d → tableAt dp a b = tableAt dp' a b) :
    splitCost dist dp l r k = splitCost dist dp' l r k := by
  rw [splitCost_eq, splitCost_eq]
  have h1 : (if l + 1 ≤ k - 1 then tableAt dp (l + 1) (k - 1) else 0)
      = if l + 1 ≤ k - 1 then tableAt dp' (l + 1) (k - 1) else 0 := by
    by_cases hc : l + 1 ≤ k - 1
    · rw [if_pos hc, if_pos hc, h _ _ (by omega)]
    · rw [if_neg hc, if_neg hc]
  have h2 : (if k + 1 ≤ r then tableAt dp (k + 1) r else 0)
      = if k + 1 ≤ r then tableAt dp' (k + 1) r else 0 := by
    by_cases hc : k + 1 ≤ r
    · rw [if_pos hc, if_pos hc, h _ _ (by omega)]
    · rw [if_neg hc, if_neg hc]
  rw [h1, h2]

theorem foldl_minStep_congr {K : Type} [LinearOrderedField K] (dist dp dp' : List (List K))
    (l r d : Nat) (hr : r ≤ l + d)
    (h : ∀ a b, b < a + d → tableAt dp a b = tableAt dp' a b) :
    ∀ (ks : List Nat), (∀ k, k ∈ ks → l < k ∧ k ≤ r) → ∀ init : K,
      ks.foldl (minStep dist dp l r) init = ks.foldl (minStep dist dp' l r) init := by
  intro ks
  induction ks with
  | nil => intro _ _; rfl
  | cons k ks ih =>
    intro hks init
    have hk := hks k (List.mem_cons_self _ _)
    rw [List.foldl_cons, List.foldl_cons, ih (fun x hx => hks x (List.mem_cons_of_mem _ hx))]
    unfold minStep
    rw [splitCost_congr dist dp dp' l r k d hk.1 hk.2 hr h]

/-- The recurrence at a range sees the table only at that range and at shorter
ranges. -/
theorem recurrenceAt_congr {K : Type} [LinearOrderedField K] (dist dp dp' : List (List K))
    (l len : Nat) (h1 : 1 ≤ len)
    (hself : tableAt dp' l (l + len - 1) = tableAt dp l (l + len - 1))
    (h : ∀ a b, b < a + (len - 1) → tableAt dp' a b = tableAt dp a b)
    (hrec : RecurrenceAt dist dp l len) : RecurrenceAt dist dp' l len := by
  unfold RecurrenceAt at hrec ⊢
  rw [hself, hrec]
  exact foldl_minStep_congr dist dp dp' l (l + len - 1) (len - 1) (by omega)
    (fun a b hab => (h a b hab).symm) _ (fun k hk => mem_partnersOf hk) _

/-- One iteration of the loop over `l` establishes the recurrence at its range and
keeps it at the ranges filled before. -/
theorem fillRange_recurrence {K : Type} [LinearOrderedField K] (m : Nat) (dist : List (List K))
    (L c : Nat) (hL : 4 ≤ L) (hc : c + L ≤ m) (dp : List (List K))
    (hinv : IsTable m dp ∧ ∀ a len, 4 ≤ len → len % 2 = 0 → a + len ≤ m →
      (len < L ∨ (len = L ∧ a < c)) → RecurrenceAt dist dp a len) :
    IsTable m (fillRange dist L dp c) ∧
      ∀ a len, 4 ≤ len → len % 2 = 0 → a + len ≤ m → (len < L ∨ (len = L ∧ a < c + 1)) →
        RecurrenceAt dist (fillRange dist L dp c) a len := by
  obtain ⟨hT, hI⟩ := hinv
  have hset : ∀ a b, tableAt (fillRange dist L dp c) a b
      = if a = c ∧ b = c + L - 1
        then (partnersOf c L).foldl (minStep dist dp c (c + L - 1)) (DBL_MAX : K)
        else tableAt dp a b := by
    intro a b
    rw [fillRange_def, tableAt_tableSet hT c (c + L - 1) _ (by omega) (by omega) a b]
  refine ⟨by rw [fillRange_def]; exact isTable_tableSet hT _ _ _, ?_⟩
  intro a len h4 hev ha hdone
  by_cases hnew : len = L ∧ a = c
  · obtain ⟨rfl, rfl⟩ := hnew
    unfold RecurrenceAt
    rw [hset, if_pos ⟨rfl, rfl⟩]
    exact foldl_minStep_congr dist dp _ a (a + len - 1) (len - 1) (by omega)
      (fun x y hxy => by rw [hset, if_neg (by omega)]) _ (fun k hk => mem_partnersOf hk) _
  · have hold : len < L ∨ (len = L ∧ a < c) := by omega
    apply recurrenceAt_congr dist dp _ a len (by omega) _ _ (hI a len h4 hev ha hold)
    · rw [hset, if_neg (by omega)]
    · intro x y hxy
      rw [hset, if_neg (by omega)]

/-- One iteration of the loop over `len` establishes the recurrence at all ranges
of that length. -/
theorem fillLength_recurrence {K : Type} [LinearOrderedField K] (m : Nat)
    (dist : List (List K)) (L : Nat) (hL : 4 ≤ L) (dp : List (List K))
    (hinv : IsTable m dp ∧ ∀ a len, 4 ≤ len → len % 2 = 0 → a + len ≤ m → len < L →
      RecurrenceAt dist dp a len) :
    IsTable m (fillLength m dist dp L) ∧
      ∀ a len, 4 ≤ len → len % 2 = 0 → a + len ≤ m → len < L + 1 →
        RecurrenceAt dist (fillLength m dist dp L) a len := by
  have hloop : ∀ c, c ≤ m + 1 - L →
      IsTable m ((List.range c).foldl (fillRange dist L) dp) ∧
        ∀ a len, 4 ≤ len → len % 2 = 0 → a + len ≤ m → (len < L ∨ (len = L ∧ a < c)) →
          RecurrenceAt dist ((List.range c).foldl (fillRange dist L) dp) a len := by
    intro c
    induction c with
    | zero =>
      intro _
      refine ⟨hinv.1, fun a len h4 hev ha hdone => hinv.2 a len h4 hev ha ?_⟩
      rcases hdone with h | h
      · exact h
      · exact absurd h.2 (Nat.not_lt_zero a)
    | succ c ih =>
      intro hc
      rw [List.range_succ, List.foldl_append]
      exact fillRange_recurrence m dist L c hL (by omega) _ (ih (by omega))
  obtain ⟨hT, hI⟩ := hloop (m + 1 - L) (le_refl _)
  unfold fillLength
  refine ⟨hT, fun a len h4 hev ha hlt => hI a len h4 hev ha ?_⟩
  by_cases h : len < L
  · exact Or.inl h
  · exact Or.inr ⟨by omega, by omega⟩

/-- When the loops are over, every range of an even number of at least four
points holds the value the loop over `k` computes from the final table. -/
theorem intervalTable_recurrence {K : Type} [LinearOrderedField K] (sqrt : K → K)
    (points : List (Point K)) (hm : points.length % 2 = 0) :
    ∀ a len, 4 ≤ len → len % 2 = 0 → a + len ≤ points.length →
      RecurrenceAt (distTable sqrt points) (intervalTable sqrt points) a len := by
  have hloop : ∀ n,
      IsTable points.length (((List.range n).map fun t => 2 * t + 4).foldl
          (fillLength points.length (distTable sqrt points))
          (baseDP points.length (distTable sqrt points))) ∧
        ∀ a len, 4 ≤ len → len % 2 = 0 → a + len ≤ points.length → len < 2 * n + 4 →
          RecurrenceAt (distTable sqrt points)
            (((List.range n).map fun t => 2 * t + 4).foldl
              (fillLength points.length (distTable sqrt points))
              (baseDP points.length (distTable sqrt points))) a len := by
    intro n
    induction n with
    | zero =>
      exact ⟨(baseDP_spec points.length hm _).1, fun a len h4 _ _ hlt => by omega⟩
    | succ n ih =>
      rw [List.range_succ, List.map_append, List.foldl_append]
      obtain ⟨hT, hI⟩ := fillLength_recurrence points.length (distTable sqrt points)
        (2 * n + 4) (by omega) _ ih
      exact ⟨hT, fun a len h4 hev ha hlt => hI a len h4 hev ha (by omega)⟩
  intro a len h4 hev ha
  exact (hloop (points.length / 2 - 1)).2 a len h4 hev ha (by omega)

theorem matchingLength_ge_mul {K : Type} [LinearOrderedField K] (sqrt : K → K)
    (points : List (Point K)) (n : Nat) (c : K)
    (hc : ∀ u, u < n → ∀ v, v < n → u ≠ v →
      c ≤ euclideanDist sqrt (pointAt points u) (pointAt points v))
    (M : List (Nat × Nat)) (hnd : (flattenPairs M).Nodup)
    (hM : ∀ v, v ∈ flattenPairs M → v < n) :
    c * M.length ≤ matchingLength sqrt points M := by
  induction M with
  | nil => simp [matchingLength]
  | cons p M ih =>
    obtain ⟨a, b⟩ := p
    have hnd' : (a :: b :: flattenPairs M).Nodup := hnd
    have ha : a < n := hM a (by simp [flattenPairs])
    have hb : b < n := hM b (by simp [flattenPairs])
    have hab : a ≠ b := fun e =>
      (List.nodup_cons.mp hnd').1 (e ▸ List.mem_cons_self _ _)
    have h1 := hc a ha b hb hab
    have h2 := ih (List.nodup_cons.mp (List.nodup_cons.mp hnd').2).2
      (fun v hv => hM v (by simp [flattenPairs, hv]))
    simp only [matchingLength, List.length_cons, Nat.cast_add, Nat.cast_one]
    linarith

theorem hugePoints_dist :
    euclideanDist Real.sqrt (⟨0, 0⟩ : Point ℝ) ⟨(DBL_MAX : ℝ), 0⟩ = (DBL_MAX : ℝ) :=
  euclideanDist_real_eq _ _ _ (le_of_lt dbl_max_pos) (by simp)

theorem trapezoid_value : intervalDPMatching Real.sqrt (trapezoid ℝ) = some 120 := by
  have h01 : euclideanDist Real.sqrt (⟨0, 0⟩ : Point ℝ) ⟨36, 48⟩ = 60 :=
    euclideanDist_real_eq _ _ 60 (by norm_num) (by norm_num)
  have h23 : euclideanDist Real.sqrt (⟨55, 48⟩ : Point ℝ) ⟨91, 0⟩ = 60 :=
    euclideanDist_real_eq _ _ 60 (by norm_num) (by norm_num)
  have hB : (120 : ℝ) < (DBL_MAX : ℝ) := by
    have := lt_dbl_max (K := ℝ) 120 (by norm_num)
    simpa using this
  have e : (60 : ℝ) + 60 = 120 := by norm_num
  unfold trapezoid
  rw [intervalDPMatching_four Real.sqrt Real.sqrt_nonneg, h01, h23, e, if_pos hB]

/-! ## The number of iterations of the brute-force loop -/

/-- The arrangements of a list without repetition are listed without repetition. -/
theorem nodup_lexPerms : ∀ (k : Nat) (s : List Nat), s.Nodup → (lexPerms k s).Nodup := by
  intro k
  induction k with
  | zero => intro s _; exact List.nodup_singleton _
  | succ k ih =>
    intro s hnd
    simp only [lexPerms]
    rw [List.nodup_flatMap]
    constructor
    · intro x _
      exact (ih _ (hnd.erase x)).map (fun p q h => (List.cons.inj h).2)
    · refine hnd.imp ?_
      intro x y hxy
      simp only [Function.onFun]
      rw [List.disjoint_left]
      intro p hp hp'
      obtain ⟨t, _, rfl⟩ := List.mem_map.mp hp
      obtain ⟨t', _, h⟩ := List.mem_map.mp hp'
      exact hxy (List.cons.inj h).1.symm

/-- With fewer iterations than there are arrangements left, the loop is still
running when the bound is used up. -/
theorem bruteLoop_short (dist : CostMatrix) (v0 : Nat) : ∀ (L : List (List Nat)) (p q : List Nat)
    (fuel : Nat) (minCost : Int), Steps p L q → fuel ≤ L.length →
    bruteLoop dist fuel (v0 :: p) minCost = none := by
  intro L
  induction L with
  | nil =>
    intro p q fuel minCost _ hf
    have : fuel = 0 := by simpa using hf
    subst this
    rfl
  | cons r L ih =>
    intro p q fuel minCost hs hf
    simp only [Steps] at hs
    cases fuel with
    | zero => rfl
    | succ f =>
      simp only [bruteLoop, hs.1]
      exact ih r q f _ hs.2 (by simpa using hf)

/-- The loop on `0, 1, ..., n-1` needs exactly `(n-1)!` iterations. -/
theorem bruteLoop_range_short (n : Nat) (hn : 1 ≤ n) (dist : CostMatrix) (fuel : Nat)
    (hf : fuel < Nat.factorial (n - 1)) :
    bruteLoop dist fuel (List.range n) LLONG_MAX = none := by
  obtain ⟨L, hL, hsteps⟩ := lexPerms_steps (n - 1) (List.range' 1 (n - 1)) (by simp)
    (List.pairwise_lt_range' 1 (n - 1))
  have hlen := length_lexPerms (n - 1) (List.range' 1 (n - 1)) (by simp)
  rw [hL, List.length_cons] at hlen
  rw [range_eq_zero_cons n hn]
  exact bruteLoop_short dist 0 L _ _ fuel _ hsteps (by omega)

/-! ## Masks are discovered upward -/

/-- A transition sets two more bits. -/
theorem bitCount_newMask (m mask i j : Nat) (hi : i < m) (hj : j < m) (hij : i ≠ j)
    (hbi : mask.testBit i = false) (hbj : mask.testBit j = false) :
    bitCount m (mask ||| 1 <<< i ||| 1 <<< j) = bitCount m mask + 2 := by
  unfold bitCount
  have hperm : ((List.range m).filter fun v => (mask ||| 1 <<< i ||| 1 <<< j).testBit v).Perm
      (i :: j :: (List.range m).filter fun v => mask.testBit v) := by
    rw [List.perm_ext_iff_of_nodup ((List.nodup_range m).filter _)]
    · intro v
      simp only [List.mem_filter, List.mem_range, List.mem_cons, testBit_newMask,
        Bool.or_eq_true, decide_eq_true_eq]
      constructor
      · rintro ⟨hv, (h | h) | h⟩
        · exact Or.inr (Or.inr ⟨hv, h⟩)
        · exact Or.inl h.symm
        · exact Or.inr (Or.inl h.symm)
      · rintro (h | h | h)
        · exact ⟨by omega, Or.inl (Or.inr h.symm)⟩
        · exact ⟨by omega, Or.inr h.symm⟩
        · exact ⟨h.1, Or.inl (Or.inl h.2)⟩
    · refine List.nodup_cons.mpr ⟨?_, List.nodup_cons.mpr ⟨?_, (List.nodup_range m).filter _⟩⟩
      · intro h
        rcases List.mem_cons.mp h with h | h
        · exact hij h
        · have := (List.mem_filter.mp h).2
          rw [hbi] at this
          cases this
      · intro h
        have := (List.mem_filter.mp h).2
        rw [hbj] at this
        cases this
  rw [hperm.length_eq, List.length_cons, List.length_cons]

/-- An entry does not change once the loop has come to its mask. -/
theorem tableAfter_stable (m : Nat) (dist : CostMatrix) (S : Nat) :
    ∀ k, S ≤ k → dpAt (tableAfter m dist k) S = dpAt (tableAfter m dist S) S := by
  intro k hk
  induction hk with
  | refl => rfl
  | step hk ih =>
    rename_i k
    rw [tableAfter_succ, ← ih]
    rcases processMask_cases m dist (tableAfter m dist k) k S with h | ⟨_, _, j, hij, _, hb, hS, _⟩
    · exact h
    · exfalso
      have := newMask_gt k (lowestUnset m k) j hij hb
      rw [← hS] at this
      exact absurd this (by
        have : S ≤ k := hk
        omega)

/-- A reached mask has an even number of set bits. -/
theorem tableAfter_even (m : Nat) (dist : CostMatrix) :
    ∀ k S, S < 2 ^ m → dpAt (tableAfter m dist k) S ≠ LLONG_MAX → bitCount m S % 2 = 0 := by
  intro k
  induction k with
  | zero =>
    intro S hS hne
    have h0 : tableAfter m dist 0 = initialTable m := rfl
    rw [h0, dpAt_initialTable m S hS] at hne
    by_cases h : S = 0
    · subst h
      unfold bitCount
      simp
    · rw [if_neg h] at hne
      exact absurd rfl hne
  | succ k ih =>
    intro S hS hne
    rw [tableAfter_succ] at hne
    rcases processMask_cases m dist (tableAfter m dist k) k S
      with h | ⟨hk, hi, j, hij, hj, hb, hSeq, _⟩
    · rw [h] at hne
      exact ih S hS hne
    · have hgt := newMask_gt k (lowestUnset m k) j hij hb
      rw [← hSeq] at hgt
      have h1 := ih k (by omega) hk
      rw [hSeq, bitCount_newMask m k (lowestUnset m k) j hi hj (by omega)
        (lowestUnset_unset m k hi) hb]
      omega

/-! ## Only the upper triangle is read -/

theorem relax_congr_dist (dist dist' : CostMatrix) (mask i : Nat) (dp : List Int) (j : Nat)
    (h : entry dist i j = entry dist' i j) : relax dist mask i dp j = relax dist' mask i dp j := by
  rw [relax_def, relax_def, h]

theorem foldl_relax_congr_dist (dist dist' : CostMatrix) (mask i : Nat) :
    ∀ (js : List Nat), (∀ j, j ∈ js → entry dist i j = entry dist' i j) → ∀ dp : List Int,
      js.foldl (relax dist mask i) dp = js.foldl (relax dist' mask i) dp := by
  intro js
  induction js with
  | nil => intro _ _; rfl
  | cons j js ih =>
    intro h dp
    rw [List.foldl_cons, List.foldl_cons, relax_congr_dist dist dist' mask i dp j
      (h j (List.mem_cons_self _ _)), ih (fun x hx => h x (List.mem_cons_of_mem _ hx))]

theorem processMask_congr_dist (m : Nat) (dist dist' : CostMatrix)
    (h : ∀ i j, i < j → j < m → entry dist i j = entry dist' i j) (dp : List Int) (mask : Nat) :
    processMask m dist dp mask = processMask m dist' dp mask := by
  rw [processMask_def, processMask_def]
  split_ifs with h1 h2
  · rfl
  · rfl
  · apply foldl_relax_congr_dist
    intro j hj
    rw [List.mem_range'_1] at hj
    exact h _ j (by omega) (by omega)

/-- Two matrices with the same entries above the diagonal give the same table. -/
theorem tableAfter_congr_dist (m : Nat) (dist dist' : CostMatrix)
    (h : ∀ i j, i < j → j < m → entry dist i j = entry dist' i j) (k : Nat) :
    tableAfter m dist k = tableAfter m dist' k := by
  induction k with
  | zero => rfl
  | succ k ih => rw [tableAfter_succ, tableAfter_succ, ih, processMask_congr_dist m dist dist' h]

/-! ## The indices of the interval solver -/

theorem distAccesses_inTable (m : Nat) : ∀ p, p ∈ distAccesses m → InTable m p := by
  intro p hp
  unfold distAccesses at hp
  obtain ⟨i, hi, hp⟩ := List.mem_flatMap.mp hp
  obtain ⟨j, hj, hp⟩ := List.mem_flatMap.mp hp
  rw [List.mem_range] at hi
  rw [List.mem_range'_1] at hj
  unfold InTable
  rcases List.mem_cons.mp hp with rfl | hp
  · simp only; omega
  · rcases List.mem_cons.mp hp with rfl | hp
    · simp only; omega
    · cases hp

theorem baseAccesses_inTable (m : Nat) (hm : m % 2 = 0) :
    ∀ p, p ∈ baseAccesses m → InTable m p := by
  intro p hp
  unfold baseAccesses at hp
  obtain ⟨t, ht, rfl⟩ := List.mem_map.mp hp
  rw [List.mem_range] at ht
  unfold InTable
  simp only
  omega

theorem candidateAccesses_inTable (m l r k : Nat) (hlk : l < k) (hkr : k ≤ r) (hr : r < m) :
    ∀ p, p ∈ candidateAccesses l r k → InTable m p := by
  intro p hp
  unfold candidateAccesses at hp
  unfold InTable
  rcases List.mem_cons.mp hp with rfl | hp
  · simp only; omega
  · rcases List.mem_append.mp hp with hp | hp
    · split_ifs at hp with h
      · rw [List.mem_singleton] at hp
        subst hp
        simp only; omega
      · cases hp
    · split_ifs at hp with h
      · rw [List.mem_singleton] at hp
        subst hp
        simp only; omega
      · cases hp

theorem rangeAccesses_inTable (m len l : Nat) (h4 : 4 ≤ len) (hl : l + len ≤ m) :
    ∀ p, p ∈ rangeAccesses len l → InTable m p := by
  intro p hp
  unfold rangeAccesses at hp
  rcases List.mem_append.mp hp with hp | hp
  · obtain ⟨k, hk, hp⟩ := List.mem_flatMap.mp hp
    have := mem_partnersOf hk
    exact candidateAccesses_inTable m l (l + len - 1) k this.1 this.2 (by omega) p hp
  · rw [List.mem_singleton] at hp
    subst hp
    unfold InTable
    simp only
    omega

theorem loopAccesses_inTable (m : Nat) (hm : m % 2 = 0) :
    ∀ p, p ∈ loopAccesses m → InTable m p := by
  intro p hp
  unfold loopAccesses at hp
  obtain ⟨len, hlen, hp⟩ := List.mem_flatMap.mp hp
  obtain ⟨t, ht, rfl⟩ := List.mem_map.mp hlen
  obtain ⟨l, hl, hp⟩ := List.mem_flatMap.mp hp
  rw [List.mem_range] at ht hl
  exact rangeAccesses_inTable m (2 * t + 4) l (by omega) (by omega) p hp

/-- On a non-empty vector of even length every access stays inside the tables. -/
theorem tableAccesses_inTable (m : Nat) (hm : m % 2 = 0) (h2 : 2 ≤ m) :
    ∀ p, p ∈ tableAccesses m → InTable m p := by
  intro p hp
  unfold tableAccesses at hp
  rcases List.mem_append.mp hp with hp | hp
  · rcases List.mem_append.mp hp with hp | hp
    · rcases List.mem_append.mp hp with hp | hp
      · exact distAccesses_inTable m p hp
      · exact baseAccesses_inTable m hm p hp
    · exact loopAccesses_inTable m hm p hp
  · rw [List.mem_singleton] at hp
    subst hp
    unfold InTable finalAccess
    simp only
    omega

/-! ## Every entry of the interval table is unset or the length of a matching -/

/-- A candidate `cost` of line 96 is `DBL_MAX` or more when one of its parts is
unset, and the total length of a matching of the range otherwise; no bound
on the lengths is assumed. -/
theorem splitCost_unset_or_matching {K : Type} [LinearOrderedField K] (sqrt : K → K)
    (hs : ∀ x, 0 ≤ sqrt x) (points : List (Point K)) (len l t : Nat) (ht : 2 * t + 2 ≤ len)
    (inner tail : K)
    (hinner : inner = (DBL_MAX : K) ∨ IsRangeMatching sqrt points (l + 1) (2 * t) inner)
    (htail : tail = (DBL_MAX : K) ∨
      IsRangeMatching sqrt points (l + 1 + 2 * t + 1) (len - 2 - 2 * t) tail) :
    (DBL_MAX : K) ≤ euclideanDist sqrt (pointAt points l) (pointAt points (l + 1 + 2 * t))
        + inner + tail ∨
      IsRangeMatching sqrt points l len
        (euclideanDist sqrt (pointAt points l) (pointAt points (l + 1 + 2 * t))
          + inner + tail) := by
  have hd : 0 ≤ euclideanDist sqrt (pointAt points l) (pointAt points (l + 1 + 2 * t)) := hs _
  have hB : (0 : K) ≤ (DBL_MAX : K) := le_of_lt dbl_max_pos
  have hnn : ∀ (s n : Nat) (v : K), v = (DBL_MAX : K) ∨ IsRangeMatching sqrt points s n v →
      0 ≤ v := by
    intro s n v hv
    rcases hv with h | ⟨M, _, rfl⟩
    · rw [h]; exact hB
    · exact matchingLength_nonneg sqrt hs points M
  have hi0 := hnn _ _ _ hinner
  have ht0 := hnn _ _ _ htail
  rcases hinner with h1 | h1
  · left; rw [h1]; linarith
  · rcases htail with h2 | h2
    · left; rw [h2]; linarith
    · right
      have := isRangeMatching_split sqrt points l (2 * t) (len - 2 - 2 * t) inner tail h1 h2
      have e : 2 * t + (len - 2 - 2 * t) + 2 = len := by omega
      rw [e] at this
      exact this

/-- One iteration of the loop over `l` keeps every entry unset or the length of a
matching of its range. -/
theorem fillRange_unset_or_matching {K : Type} [LinearOrderedField K] (sqrt : K → K)
    (hs : ∀ x, 0 ≤ sqrt x) (points : List (Point K)) (len l : Nat) (hlen : 4 ≤ len)
    (hl : l + len ≤ points.length) (dp : List (List K))
    (h : IsTable points.length dp ∧ ∀ a b, a < points.length → b < points.length →
      tableAt dp a b = (DBL_MAX : K) ∨
        IsRangeMatching sqrt points a (b + 1 - a) (tableAt dp a b)) :
    IsTable points.length (fillRange (distTable sqrt points) len dp l) ∧
      ∀ a b, a < points.length → b < points.length →
        tableAt (fillRange (distTable sqrt points) len dp l) a b = (DBL_MAX : K) ∨
          IsRangeMatching sqrt points a (b + 1 - a)
            (tableAt (fillRange (distTable sqrt points) len dp l) a b) := by
  obtain ⟨hT, hI⟩ := h
  have hparts : ∀ t, 2 * t + 2 ≤ len →
      splitCost (distTable sqrt points) dp l (l + len - 1) (l + 1 + 2 * t)
        = euclideanDist sqrt (pointAt points l) (pointAt points (l + 1 + 2 * t))
          + (if l + 1 ≤ l + 1 + 2 * t - 1 then tableAt dp (l + 1) (l + 1 + 2 * t - 1) else 0)
          + (if l + 1 + 2 * t + 1 ≤ l + len - 1 then tableAt dp (l + 1 + 2 * t + 1) (l + len - 1)
              else 0) := by
    intro t ht
    rw [splitCost_eq, tableAt_distTable sqrt points l (l + 1 + 2 * t) (by omega) (by omega)
      (by omega)]
  have hinner : ∀ t, 2 * t + 2 ≤ len →
      (if l + 1 ≤ l + 1 + 2 * t - 1 then tableAt dp (l + 1) (l + 1 + 2 * t - 1) else 0)
          = (DBL_MAX : K) ∨
        IsRangeMatching sqrt points (l + 1) (2 * t)
          (if l + 1 ≤ l + 1 + 2 * t - 1 then tableAt dp (l + 1) (l + 1 + 2 * t - 1) else 0) := by
    intro t ht
    by_cases hc : l + 1 ≤ l + 1 + 2 * t - 1
    · rw [if_pos hc]
      have := hI (l + 1) (l + 1 + 2 * t - 1) (by omega) (by omega)
      have e : l + 1 + 2 * t - 1 + 1 - (l + 1) = 2 * t := by omega
      rw [e] at this
      exact this
    · rw [if_neg hc]
      have e : 2 * t = 0 := by omega
      rw [e]
      exact Or.inr (isRangeMatching_empty sqrt points _)
  have htail : ∀ t, 2 * t + 2 ≤ len →
      (if l + 1 + 2 * t + 1 ≤ l + len - 1 then tableAt dp (l + 1 + 2 * t + 1) (l + len - 1)
          else 0) = (DBL_MAX : K) ∨
        IsRangeMatching sqrt points (l + 1 + 2 * t + 1) (len - 2 - 2 * t)
          (if l + 1 + 2 * t + 1 ≤ l + len - 1 then tableAt dp (l + 1 + 2 * t + 1) (l + len - 1)
            else 0) := by
    intro t ht
    by_cases hc : l + 1 + 2 * t + 1 ≤ l + len - 1
    · rw [if_pos hc]
      have := hI (l + 1 + 2 * t + 1) (l + len - 1) (by omega) (by omega)
      have e : l + len - 1 + 1 - (l + 1 + 2 * t + 1) = len - 2 - 2 * t := by omega
      rw [e] at this
      exact this
    · rw [if_neg hc]
      have e : len - 2 - 2 * t = 0 := by omega
      rw [e]
      exact Or.inr (isRangeMatching_empty sqrt points _)
  obtain ⟨hle, _, hcases⟩ := foldl_minStep_spec (distTable sqrt points) dp l (l + len - 1)
    (partnersOf l len) (DBL_MAX : K)
  have hnew : (partnersOf l len).foldl (minStep (distTable sqrt points) dp l (l + len - 1))
        (DBL_MAX : K) = (DBL_MAX : K) ∨
      IsRangeMatching sqrt points l len
        ((partnersOf l len).foldl (minStep (distTable sqrt points) dp l (l + len - 1))
          (DBL_MAX : K)) := by
    rcases hcases with e | ⟨k, hk, e⟩
    · exact Or.inl e
    · unfold partnersOf at hk
      obtain ⟨t, ht, rfl⟩ := List.mem_map.mp hk
      rw [List.mem_range] at ht
      have ht' : 2 * t + 2 ≤ len := by omega
      rw [hparts t ht'] at e
      rcases splitCost_unset_or_matching sqrt hs points len l t ht' _ _ (hinner t ht')
        (htail t ht') with h3 | h3
      · left
        rw [← e] at h3
        exact le_antisymm hle h3
      · right
        rw [e]
        exact h3
  rw [fillRange_def]
  refine ⟨isTable_tableSet hT _ _ _, ?_⟩
  intro a b ha hb
  rw [tableAt_tableSet hT l (l + len - 1) _ (by omega) (by omega) a b]
  by_cases hc : a = l ∧ b = l + len - 1
  · rw [if_pos hc, hc.1, hc.2]
    have e : l + len - 1 + 1 - l = len := by omega
    rw [e]
    exact hnew
  · rw [if_neg hc]
    exact hI a b ha hb

/-- When the loops are over, every entry is `DBL_MAX` or the total length of a
matching of its range. -/
theorem intervalTable_unset_or_matching {K : Type} [LinearOrderedField K] (sqrt : K → K)
    (hs : ∀ x, 0 ≤ sqrt x) (points : List (Point K)) (hm : points.length % 2 = 0) :
    ∀ a b, a < points.length → b < points.length →
      tableAt (intervalTable sqrt points) a b = (DBL_MAX : K) ∨
        IsRangeMatching sqrt points a (b + 1 - a) (tableAt (intervalTable sqrt points) a b) := by
  have hrange : ∀ len, 4 ≤ len → ∀ c, c ≤ points.length + 1 - len → ∀ dp : List (List K),
      (IsTable points.length dp ∧ ∀ a b, a < points.length → b < points.length →
        tableAt dp a b = (DBL_MAX : K) ∨
          IsRangeMatching sqrt points a (b + 1 - a) (tableAt dp a b)) →
      (IsTable points.length ((List.range c).foldl (fillRange (distTable sqrt points) len) dp) ∧
        ∀ a b, a < points.length → b < points.length →
          tableAt ((List.range c).foldl (fillRange (distTable sqrt points) len) dp) a b
              = (DBL_MAX : K) ∨
            IsRangeMatching sqrt points a (b + 1 - a)
              (tableAt ((List.range c).foldl (fillRange (distTable sqrt points) len) dp)
                a b)) := by
    intro len h4 c
    induction c with
    | zero => intro _ dp h; exact h
    | succ c ih =>
      intro hc dp h
      rw [List.range_succ, List.foldl_append]
      exact fillRange_unset_or_matching sqrt hs points len c h4 (by omega) _ (ih (by omega) dp h)
  have hloop : ∀ n,
      IsTable points.length (((List.range n).map fun t => 2 * t + 4).foldl
          (fillLength points.length (distTable sqrt points))
          (baseDP points.length (distTable sqrt points))) ∧
        ∀ a b, a < points.length → b < points.length →
          tableAt (((List.range n).map fun t => 2 * t + 4).foldl
              (fillLength points.length (distTable sqrt points))
              (baseDP points.length (distTable sqrt points))) a b = (DBL_MAX : K) ∨
            IsRangeMatching sqrt points a (b + 1 - a)
              (tableAt (((List.range n).map fun t => 2 * t + 4).foldl
                (fillLength points.length (distTable sqrt points))
                (baseDP points.length (distTable sqrt points))) a b) := by
    intro n
    induction n with
    | zero =>
      have := intervalInv_base sqrt points hm
      exact ⟨this.1, this.2.1⟩
    | succ n ih =>
      rw [List.range_succ, List.map_append, List.foldl_append]
      exact hrange (2 * n + 4) (by omega) _ (le_refl _) _ ih
  exact (hloop _).2

/-- On a non-empty point sequence of even length the interval solver returns
`DBL_MAX`, the value the table starts with, or the total length of a perfect
matching of the points. -/
theorem intervalDPMatching_unset_or_matching {K : Type} [LinearOrderedField K] (sqrt : K → K)
    (hs : ∀ x, 0 ≤ sqrt x) (points : List (Point K)) (hm : points.length % 2 = 0)
    (hne : points ≠ []) :
    ∃ v, intervalDPMatching sqrt points = some v ∧
      (v = (DBL_MAX : K) ∨
        ∃ M, IsPerfectMatching points.length M ∧ v = matchingLength sqrt points M) := by
  have hpos : 0 < points.length := List.length_pos.mpr hne
  refine ⟨tableAt (intervalTable sqrt points) 0 (points.length - 1), ?_, ?_⟩
  · unfold intervalDPMatching
    rw [if_neg (by omega), if_neg (by omega)]
  · rcases intervalTable_unset_or_matching sqrt hs points hm 0 (points.length - 1) hpos
      (by omega) with h | ⟨M, hM, hv⟩
    · exact Or.inl h
    · right
      refine ⟨M, ?_, hv⟩
      unfold IsPerfectMatching
      rw [List.range_eq_range']
      have e : points.length - 1 + 1 - 0 = points.length := by omega
      rw [e] at hM
      exact hM

/-! ## The transitions the loop executes -/

theorem stepsFrom_append (L L' : List Transition) (mask0 : Nat) :
    stepsFrom (L ++ L') mask0 = stepsFrom L mask0 ++ stepsFrom L' mask0 := by
  unfold stepsFrom
  rw [List.filter_append, List.map_append]

theorem stepsFrom_singleton (t : Transition) (mask0 : Nat) :
    stepsFrom [t] mask0 = if t.mask = mask0 then [(t.i, t.j)] else [] := by
  unfold stepsFrom
  by_cases h : t.mask = mask0
  · simp [h]
  · simp [h]

theorem relaxLog_steps (dist : CostMatrix) (mask i : Nat) (st : List Int × List Transition)
    (j mask0 : Nat) :
    stepsFrom (relaxLog dist mask i st j).2 mask0
      = stepsFrom st.2 mask0
        ++ (if bitSet mask j = true then [] else if mask = mask0 then [(i, j)] else []) := by
  rw [relaxLog_def]
  split_ifs with h1 h2 h3 h4
  · rw [List.append_nil]
  · rw [stepsFrom_append, stepsFrom_singleton, if_pos h3]
  · rw [stepsFrom_append, stepsFrom_singleton, if_neg h3]
  · rw [stepsFrom_append, stepsFrom_singleton, if_pos h4]
  · rw [stepsFrom_append, stepsFrom_singleton, if_neg h4]

/-- The loop over `j` records one transition for every unset `j`. -/
theorem foldl_relaxLog_steps (dist : CostMatrix) (mask i mask0 : Nat) (js : List Nat) :
    ∀ st : List Int × List Transition,
      stepsFrom (js.foldl (relaxLog dist mask i) st).2 mask0
        = stepsFrom st.2 mask0
          ++ (if mask = mask0 then (js.filter fun j => !bitSet mask j).map fun j => (i, j)
              else []) := by
  induction js with
  | nil => intro st; simp
  | cons j js ih =>
    intro st
    rw [List.foldl_cons, ih, relaxLog_steps, List.append_assoc]
    congr 1
    by_cases hb : bitSet mask j = true
    · have hf : (j :: js).filter (fun j => !bitSet mask j)
          = js.filter (fun j => !bitSet mask j) := by
        rw [List.filter_cons]
        simp [hb]
      rw [if_pos hb, List.nil_append, hf]
    · have hf : (j :: js).filter (fun j => !bitSet mask j)
          = j :: js.filter (fun j => !bitSet mask j) := by
        rw [List.filter_cons]
        simp [hb]
      rw [if_neg hb, hf]
      by_cases hm : mask = mask0
      · rw [if_pos hm, if_pos hm, if_pos hm]
        rfl
      · rw [if_neg hm, if_neg hm, if_neg hm, List.append_nil]

/-- One pass of the loop over `mask` records the transitions of `stepsAt`. -/
theorem processMaskLog_steps (m : Nat) (dist : CostMatrix) (st : List Int × List Transition)
    (mask mask0 : Nat) :
    stepsFrom (processMaskLog m dist st mask).2 mask0
      = stepsFrom st.2 mask0 ++ (if mask = mask0 then stepsAt m st.1 mask else []) := by
  rw [processMaskLog_def]
  unfold stepsAt
  by_cases h1 : dpAt st.1 mask = LLONG_MAX
  · simp only [if_pos h1]
    simp
  · by_cases h2 : m ≤ lowestUnset m mask
    · simp only [if_neg h1, if_pos h2]
      simp
    · simp only [if_neg h1, if_neg h2]
      rw [foldl_relaxLog_steps]

/-- The record holds, for every mask the loop has come to, the transitions of
`stepsAt` at the table of that moment, and no others. -/
theorem logAfter_steps (m : Nat) (dist : CostMatrix) (mask0 : Nat) : ∀ k,
    stepsFrom (logAfter m dist k).2 mask0
      = if mask0 < k then stepsAt m (tableAfter m dist mask0) mask0 else [] := by
  intro k
  induction k with
  | zero => rfl
  | succ k ih =>
    rw [logAfter_succ, processMaskLog_steps, ih, logAfter_fst]
    by_cases h1 : mask0 < k
    · rw [if_pos h1, if_neg (by omega), if_pos (by omega), List.append_nil]
    · rw [if_neg h1, List.nil_append]
      by_cases h2 : k = mask0
      · rw [if_pos h2, if_pos (by omega), h2]
      · rw [if_neg h2, if_neg (by omega)]

/-- With non-negative costs whose matching sums stay below `LLONG_MAX`, a transition
out of a reached mask leads to a mask that is reached when the loop comes
to it. -/
theorem reached_newMask (m : Nat) (hm : m % 2 = 0) (dist : CostMatrix) (hnn : IsNonneg m dist)
    (hsum : ∀ P, IsPerfectMatching m P → matchingCost dist P < 2 ^ 63 - 1)
    (mask j : Nat) (hmask : mask < 2 ^ m) (hi : lowestUnset m mask < m)
    (hij : lowestUnset m mask < j) (hj : j < m) (hb : mask.testBit j = false)
    (hne : dpAt (tableAfter m dist mask) mask ≠ LLONG_MAX) :
    dpAt (tableAfter m dist (mask ||| 1 <<< lowestUnset m mask ||| 1 <<< j))
      (mask ||| 1 <<< lowestUnset m mask ||| 1 <<< j) ≠ LLONG_MAX := by
  have hsum' : ∀ P, IsPerfectMatching m P → matchingCost dist P ≤ 2 ^ 63 - 1 :=
    fun P hP => le_of_lt (hsum P hP)
  obtain ⟨M, hM, hcost⟩ := tableAfter_sound m hm dist hnn hsum' mask (le_of_lt hmask) mask hmask
    hne
  have hcov := covers_cons m M mask (lowestUnset m mask) j hM hi hj (by omega)
    (lowestUnset_unset m mask hi) hb
  obtain ⟨P, hP, hle⟩ := exists_perfect_ge m hm dist hnn _ hcov.1 (covers_lt m _ _ hcov)
  have h0 := matchingCost_nonneg m dist hnn _ (covers_lt m _ _ hcov)
  have hlt := hsum P hP
  have hcons : matchingCost dist ((lowestUnset m mask, j) :: M)
      = entry dist (lowestUnset m mask) j + matchingCost dist M := rfl
  rw [hcons, hcost] at hle h0
  have hll : IsLongLong (dpAt (tableAfter m dist mask) mask + entry dist (lowestUnset m mask) j) := by
    unfold IsLongLong
    constructor <;> omega
  have hnew := newMask_lt_two_pow m mask (lowestUnset m mask) j hmask hi hj
  have hgt := newMask_gt mask (lowestUnset m mask) j hij hb
  have h1 := processMask_bound m dist (tableAfter m dist mask) mask j hne hij hj hb
    (by rw [tableAfter_length]; exact hnew)
  rw [← tableAfter_succ, wrap64_of_isLongLong hll] at h1
  have h2 := tableAfter_mono m dist (mask ||| 1 <<< lowestUnset m mask ||| 1 <<< j)
    (show mask + 1 ≤ mask ||| 1 <<< lowestUnset m mask ||| 1 <<< j from hgt)
  intro hmax
  rw [hmax] at h2
  unfold LLONG_MAX at h2
  omega

theorem fullMask_iff (m mask : Nat) (hmask : mask < 2 ^ m) :
    mask = (1 <<< m) - 1 ↔ m ≤ lowestUnset m mask := by
  rw [Nat.one_shiftLeft]
  constructor
  · intro h
    rw [h, lowestUnset_fullMask]
  · intro h
    exact eq_fullMask m mask hmask (fun v hv => lowestUnset_below m mask v (by omega))

/-- With non-negative costs whose matching sums stay below `LLONG_MAX`, the executed
sequences from a reached mask are the canonical pairing sequences. -/
theorem executedSeqs_eq (m : Nat) (hm : m % 2 = 0) (dist : CostMatrix) (hnn : IsNonneg m dist)
    (hsum : ∀ P, IsPerfectMatching m P → matchingCost dist P < 2 ^ 63 - 1) :
    ∀ fuel mask, mask < 2 ^ m → dpAt (tableAfter m dist mask) mask ≠ LLONG_MAX →
      executedSeqs m (logAfter m dist (2 ^ m)).2 fuel mask = transitionSeqs m fuel mask := by
  intro fuel
  induction fuel with
  | zero =>
    intro mask hmask _
    simp only [executedSeqs, transitionSeqs]
    by_cases h : mask = (1 <<< m) - 1
    · rw [if_pos h, if_pos ((fullMask_iff m mask hmask).mp h)]
    · rw [if_neg h, if_neg (fun hc => h ((fullMask_iff m mask hmask).mpr hc))]
  | succ fuel ih =>
    intro mask hmask hne
    simp only [executedSeqs, transitionSeqs]
    by_cases h : mask = (1 <<< m) - 1
    · rw [if_pos h, if_pos ((fullMask_iff m mask hmask).mp h)]
    · have hi : ¬ m ≤ lowestUnset m mask := fun hc => h ((fullMask_iff m mask hmask).mpr hc)
      rw [if_neg h, if_neg hi, logAfter_steps, if_pos hmask]
      unfold stepsAt
      rw [if_neg hne, if_neg hi, List.flatMap_map]
      apply List.flatMap_congr
      intro j hj
      obtain ⟨hj1, hj2⟩ := List.mem_filter.mp hj
      rw [List.mem_range'_1] at hj1
      have hb : mask.testBit j = false := by
        rw [← bitSet_eq_testBit]
        simpa using hj2
      simp only [Function.comp]
      rw [ih _ (newMask_lt_two_pow m mask _ j hmask (by omega) (by omega))
        (reached_newMask m hm dist hnn hsum mask j hmask (by omega) (by omega) (by omega) hb hne)]

/-- The canonical pairing sequences from the mask 0 are the perfect matchings of
`{0, ..., m-1}`, each once, for every even `m`: every perfect matching has the pairs
of exactly one sequence, the list has no repetition and `(m-1)!!` members, and a
bound above `m / 2` on the number of pairs changes nothing. -/
theorem transitionSeqs_canonical (m : Nat) (hm : m % 2 = 0) :
    (∀ M, IsPerfectMatching m M →
        ∃ s, s ∈ transitionSeqs m (m / 2) 0 ∧ SamePairs s M ∧
          ∀ s', s' ∈ transitionSeqs m (m / 2) 0 → SamePairs s' M → s' = s) ∧
      (transitionSeqs m (m / 2) 0).Nodup ∧
      (∀ s, s ∈ transitionSeqs m (m / 2) 0 → IsPerfectMatching m s) ∧
      (transitionSeqs m (m / 2) 0).length = Nat.doubleFactorial (m - 1) ∧
      (∀ fuel, m / 2 ≤ fuel → transitionSeqs m fuel 0 = transitionSeqs m (m / 2) 0) := by
  have hm2 : m = 2 * (m / 2) := by omega
  have hlen : (List.range m).length = 2 * (m / 2) := by
    rw [List.length_range]; exact hm2
  have heq : ∀ fuel, transitionSeqs m fuel 0 = pairings fuel (List.range m) := by
    intro fuel
    rw [transitionSeqs_eq_pairings, unset_filter_zero]
  rw [heq]
  refine ⟨?_, nodup_pairings _ _ (List.nodup_range m), ?_, ?_, ?_⟩
  · intro M hM
    obtain ⟨s, hs, hsame⟩ := exists_pairing (m / 2) (List.range m) M hlen hM
    refine ⟨s, hs, hsame, fun s' hs' hsame' => ?_⟩
    exact pairing_unique _ _ s' s (List.nodup_range m) hs' hs
      (samePairs_trans hsame' (samePairs_symm hsame))
  · intro s hs
    exact perm_of_mem_pairings _ _ s hs
  · rw [length_pairings (m / 2) (List.range m) hlen, oddProduct_eq_doubleFactorial, ← hm2]
  · intro fuel hfuel
    rw [heq, pairings_fuel (m / 2) (List.range m) hlen fuel hfuel]

theorem transitionLog_eq (m : Nat) (dist : CostMatrix) :
    transitionLog m dist = logAfter m dist (2 ^ m) := by
  have hpos := Nat.two_pow_pos m
  unfold transitionLog
  rw [Nat.one_shiftLeft]
  congr 1
  omega

/-- With non-negative costs whose matching sums stay below `LLONG_MAX`, the sequences the
loop executes from the mask 0 are the canonical pairing sequences. -/
theorem executedSeqs_zero (m : Nat) (hm : m % 2 = 0) (dist : CostMatrix) (hnn : IsNonneg m dist)
    (hsum : ∀ P, IsPerfectMatching m P → matchingCost dist P < 2 ^ 63 - 1) (fuel : Nat) :
    executedSeqs m (transitionLog m dist).2 fuel 0 = transitionSeqs m fuel 0 := by
  rw [transitionLog_eq]
  apply executedSeqs_eq m hm dist hnn hsum fuel 0 (Nat.two_pow_pos m)
  have h0 : tableAfter m dist 0 = initialTable m := rfl
  rw [h0, dpAt_initialTable m 0 (Nat.two_pow_pos m), if_pos rfl]
  decide

/-! ## Inputs outside the precondition -/

/-- Claim C11, as stated, fails: on the 2 x 2 matrix with `dist[0][1] = 1` and
`dist[1][0] = 2`, which is not symmetric, both matrix solvers return the cost 1
and not the failure signal `-1`. -/
theorem nonsymmetric_returns_cost :
    IsSquare 2 skewMatrix ∧ ¬ IsSymmetric 2 skewMatrix ∧
      bruteForceMatching 2 skewMatrix = some 1 ∧ stateDPMatching 2 skewMatrix = some 1 := by
  decide

/-- Claim C11, amended: for every even `n ≤ 30` and every `n × n` matrix of
non-negative costs that is not symmetric and whose matching sums are at most
`2^63 - 1`, neither matrix solver returns `-1`: `stateDPMatching(n, dist)` returns
the minimum over the perfect matchings of the cost read in the upper triangle
(`dist[min a b][max a b]` for the pair `{a, b}`), and `bruteForceMatching(n, dist)`
returns the least of the sums `dist[p[0]][p[1]] + dist[p[2]][p[3]] + ...` over the
vertex sequences `p` of its loop; both values are `≥ 0`. -/
theorem nonsymmetric_computes_cost (n : Nat) (hn : n % 2 = 0) (h30 : n ≤ 30)
    (dist : CostMatrix) (_hsq : IsSquare n dist) (hns : ¬ IsSymmetric n dist)
    (hnn : IsNonneg n dist)
    (hsum : ∀ M, IsPerfectMatching n M → matchingCost dist M ≤ 2 ^ 63 - 1) :
    (∃ r, stateDPMatching (n : Int) dist = some r ∧ 0 ≤ r ∧ IsMinUpperCost n dist r) ∧
      (∃ r, bruteForceMatching (n : Int) dist = some r ∧ 0 ≤ r ∧
        (∃ p, p ∈ arrangements (Nat.factorial n) (List.range n) ∧
          r = matchingCost dist (pairUp p)) ∧
        (∀ p, p ∈ arrangements (Nat.factorial n) (List.range n) →
          r ≤ matchingCost dist (pairUp p))) := by
  have h2 : 2 ≤ n := by
    by_contra hcon
    have h0 : n = 0 := by omega
    apply hns
    intro u hu
    omega
  have hpos := Nat.two_pow_pos n
  refine ⟨⟨_, stateDPMatching_eq n hn (by omega) dist, ?_, ?_⟩, ?_⟩
  · exact tableAfter_nonneg n hn dist hnn hsum (2 ^ n) (le_refl _) (2 ^ n - 1) (by omega)
  · exact fullMask_isMinUpper n hn dist hnn hsum
  · have hll : ∀ M, IsPerfectMatching n M → IsLongLong (matchingCost dist M) := by
      intro M hM
      have h1 := hsum M hM
      have h3 := matchingCost_nonneg n dist hnn M (perfect_lt n M hM)
      unfold IsLongLong
      constructor <;> omega
    obtain ⟨r, hr, ⟨p, hp, hrp⟩, hle⟩ := bruteForceMatching_least n hn h2 dist hll
    refine ⟨r, hr, ?_, ⟨p, hp, hrp⟩, hle⟩
    have harr := (bruteLoop_range n (by omega) dist (Nat.factorial n) (factorial_pred_le n)).1
    rw [harr] at hp
    obtain ⟨q, hq, rfl⟩ := List.mem_map.mp hp
    have hP := isPerfectMatching_of_arrangement n hn h2 q hq
    rw [hrp]
    exact matchingCost_nonneg n dist hnn _ (perfect_lt n _ hP)

theorem nonsymmetric_computes_cost_witness :
    (∃ r, stateDPMatching ((2 : Nat) : Int) skewMatrix = some r ∧ 0 ≤ r ∧
        IsMinUpperCost 2 skewMatrix r) ∧
      (∃ r, bruteForceMatching ((2 : Nat) : Int) skewMatrix = some r ∧ 0 ≤ r ∧
        (∃ p, p ∈ arrangements (Nat.factorial 2) (List.range 2) ∧
          r = matchingCost skewMatrix (pairUp p)) ∧
        (∀ p, p ∈ arrangements (Nat.factorial 2) (List.range 2) →
          r ≤ matchingCost skewMatrix (pairUp p))) :=
  nonsymmetric_computes_cost 2 (by decide) (by decide) skewMatrix (by decide) (by decide)
    (by decide)
    (fun M hM => by
      have := perfect_cost_le 2 skewMatrix 2 (by decide) M hM
      omega)

/-- Claim C13 fails in the code: for a negative odd `n` the C++ remainder `n % 2` is
`-1`, so the test `n % 2 == 1` does not fire; at `n = -3` neither matrix solver
returns `-1` (the vector of size `n` cannot be built, the shift `1 << m` is
undefined), and no negative `n` at all is answered with `-1`. -/
theorem negative_odd_not_rejected :
    Int.tmod (-3) 2 = -1 ∧ bruteForceMatching (-3) [] = none ∧
      stateDPMatching (-3) [] = none ∧
      ∀ (n : Int) (dist : CostMatrix), n < 0 →
        bruteForceMatching n dist = none ∧ stateDPMatching n dist = none := by
  refine ⟨by decide, by decide, by decide, ?_⟩
  intro n dist hn
  have h1 : ¬ Int.tmod n 2 = 1 := by
    intro h
    obtain ⟨k, rfl⟩ := Int.eq_negSucc_of_lt_zero hn
    have h2 : Int.tmod (Int.negSucc k) 2 = -(((k + 1) % 2 : Nat) : Int) := rfl
    omega
  have h3 : n < 0 ∨ 31 ≤ n := Or.inl hn
  unfold bruteForceMatching bruteForceMatchingFuel stateDPMatching
  simp only [if_neg h1, if_pos hn, if_pos h3]
  exact ⟨trivial, trivial⟩

/-! ## The table of the bitmask solver -/

/-- Claim C14: for every even `m` with `0 ≤ m ≤ 24` and every `m × m` matrix of
non-negative costs whose matching sums stay below `2^63 - 1`, the entry
`dp[fullMask]` is reached when the loop of `stateDPMatching` is over: the value
returned is that entry and it is not the sentinel `LLONG_MAX`. -/
theorem fullMask_reached (m : Nat) (hm : m % 2 = 0) (h24 : m ≤ 24) (dist : CostMatrix)
    (_hsq : IsSquare m dist) (hnn : IsNonneg m dist)
    (hsum : ∀ M, IsPerfectMatching m M → matchingCost dist M < 2 ^ 63 - 1) :
    ∃ r, stateDPMatching (m : Int) dist = some r ∧
      r = dpAt (finalTable m dist) (2 ^ m - 1) ∧ r ≠ LLONG_MAX := by
  refine ⟨_, stateDPMatching_eq m hm (by omega) dist, by rw [finalTable_eq], ?_⟩
  have hsum' : ∀ P, IsPerfectMatching m P → matchingCost dist P ≤ 2 ^ 63 - 1 :=
    fun P hP => le_of_lt (hsum P hP)
  obtain ⟨M0, hM0⟩ := exists_perfectMatching m hm
  have h1 := (fullMask_isMinUpper m hm dist hnn hsum').2 M0 hM0
  have h2 := upperCost_le_of_perfect m dist (2 ^ 63 - 2)
    (fun P hP => by have := hsum P hP; omega) M0 hM0
  intro h
  rw [h] at h1
  unfold LLONG_MAX at h1
  omega

theorem fullMask_reached_witness :
    ∃ r, stateDPMatching ((4 : Nat) : Int) exampleMatrix = some r ∧
      r = dpAt (finalTable 4 exampleMatrix) (2 ^ 4 - 1) ∧ r ≠ LLONG_MAX :=
  fullMask_reached 4 (by decide) (by decide) exampleMatrix (by decide) (by decide)
    (fun M hM => by
      have := perfect_cost_le 4 exampleMatrix 6 (by decide) M hM
      omega)

/-- Claim C18, as stated, fails: with six vertices where the pairs `{0, 1}` and
`{4, 5}` cost 0 and every other pair costs 10, the entry of the mask `110011`
(the set `{0, 1, 4, 5}`) is reached and holds 20 when the loop is over, but the
matching `{0, 1}, {4, 5}` of exactly that set costs 0. -/
theorem gap_mask_not_minimum :
    IsSymmetric 6 gapMatrix ∧ IsNonneg 6 gapMatrix ∧
      dpAt (finalTable 6 gapMatrix) 51 = 20 ∧ (20 : Int) ≠ LLONG_MAX ∧
      Covers 6 [(0, 1), (4, 5)] 51 ∧ matchingCost gapMatrix [(0, 1), (4, 5)] = 0 := by
  refine ⟨by decide, by decide, by decide, by decide, ?_, by decide⟩
  refine ⟨by decide, fun v => ?_⟩
  by_cases hv : v < 6
  · interval_cases v <;> simp [flattenPairs] <;> decide
  · have h1 : ¬ v ∈ flattenPairs [(0, 1), (4, 5)] := by
      simp only [flattenPairs, List.mem_cons, List.mem_nil_iff, or_false]
      omega
    simp [h1, hv]

/-- Claim C18, amended: for every even `m ≤ 30`, every `m × m` matrix of
non-negative costs whose matching sums are at most `2^63 - 1`, and every mask
whose entry is reached when the loop of `stateDPMatching` is over, `dp[mask]` is
the minimum cost, read in the upper triangle, over the matchings of exactly the
index set of the mask in which every pair has its lower index below the
lowest index not in the mask; on a symmetric matrix that cost is the sum of
`dist[a][b]` over the pairs. -/
theorem reached_entry_is_gap_minimum (m : Nat) (hm : m % 2 = 0) (_h30 : m ≤ 30)
    (dist : CostMatrix) (_hsq : IsSquare m dist) (hnn : IsNonneg m dist)
    (hsum : ∀ M, IsPerfectMatching m M → matchingCost dist M ≤ 2 ^ 63 - 1)
    (mask : Nat) (hmask : mask < 2 ^ m)
    (hreach : dpAt (finalTable m dist) mask ≠ LLONG_MAX) :
    (∃ M, Covers m M mask ∧ LowEndsBelowGap m mask M ∧
        upperCost dist M = dpAt (finalTable m dist) mask) ∧
      (∀ M, Covers m M mask → LowEndsBelowGap m mask M →
        dpAt (finalTable m dist) mask ≤ upperCost dist M) ∧
      (IsSymmetric m dist → ∀ M, Covers m M mask → upperCost dist M = matchingCost dist M) := by
  rw [finalTable_eq] at hreach ⊢
  refine ⟨?_, ?_, ?_⟩
  · obtain ⟨M, hM, hlow, hcost⟩ := tableAfter_sound_low m hm dist hnn hsum (2 ^ m) (le_refl _)
      mask hmask hreach
    refine ⟨M, hM, ?_, ?_⟩
    · intro a b hab
      have := hlow a b hab
      rw [min_eq_left (le_of_lt this.1)]
      exact this.2
    · rw [upperCost_eq_of_oriented dist M (fun a b hab => (hlow a b hab).1), hcost]
  · intro M hM hlow
    exact finalEntry_le_upperCost m hm dist hnn hsum mask hmask M hM hlow
  · intro hsym M hM
    exact upperCost_eq_of_symmetric m dist hsym M (covers_lt m M mask hM)

theorem reached_entry_is_gap_minimum_witness :
    (∃ M, Covers 6 M 51 ∧ LowEndsBelowGap 6 51 M ∧
        upperCost gapMatrix M = dpAt (finalTable 6 gapMatrix) 51) ∧
      (∀ M, Covers 6 M 51 → LowEndsBelowGap 6 51 M →
        dpAt (finalTable 6 gapMatrix) 51 ≤ upperCost gapMatrix M) ∧
      (IsSymmetric 6 gapMatrix → ∀ M, Covers 6 M 51 →
        upperCost gapMatrix M = matchingCost gapMatrix M) :=
  reached_entry_is_gap_minimum 6 (by decide) (by decide) gapMatrix (by decide) (by decide)
    (fun M hM => by
      have := perfect_cost_le 6 gapMatrix 10 (by decide) M hM
      omega)
    51 (by decide) (by decide)

/-! ## The interval solver outside its precondition, and its base case -/

/-- Claim C12, as stated, fails: on the two points `(3, 4), (0, 0)`, which are not in
ascending order, `intervalDPMatching` returns their distance 5 and not `-1.0`. -/
theorem unsorted_returns_cost :
    (unsortedPoints ℝ).length % 2 = 0 ∧ ¬ SortedByXY (unsortedPoints ℝ) ∧
      intervalDPMatching Real.sqrt (unsortedPoints ℝ) = some 5 := by
  have h01 : euclideanDist Real.sqrt (⟨3, 4⟩ : Point ℝ) ⟨0, 0⟩ = 5 :=
    euclideanDist_real_eq _ _ 5 (by norm_num) (by norm_num)
  refine ⟨rfl, ?_, ?_⟩
  · simp [SortedByXY, unsortedPoints]
  · simp [intervalDPMatching, intervalTable, baseDP, distTable, initialDP, tableSet, tableAt,
      pointAt, List.range, List.range.loop, unsortedPoints, h01]

/-- Claim C12, amended: for every non-empty point sequence of even length that is
not in ascending (x, then y) order, `intervalDPMatching` does not return `-1.0`: it
returns the entry `dp[0][n-1]` of the table it has computed, a value `v ≥ 0`, which
is the distance of the two points when `n = 2` and, from four points on, the
value `min_cost` of the loop over `k` on the whole range, at most `DBL_MAX`. -/
theorem unsorted_computes_cost {K : Type} [LinearOrderedField K] (sqrt : K → K)
    (hs : ∀ x, 0 ≤ sqrt x) (points : List (Point K)) (hm : points.length % 2 = 0)
    (hne : points ≠ []) (_hns : ¬ SortedByXY points) :
    ∃ v, intervalDPMatching sqrt points = some v ∧ v ≠ -1 ∧ 0 ≤ v ∧
      v = tableAt (intervalTable sqrt points) 0 (points.length - 1) ∧
      (points.length = 2 → v = euclideanDist sqrt (pointAt points 0) (pointAt points 1)) ∧
      (4 ≤ points.length →
        v = (partnersOf 0 points.length).foldl
            (minStep (distTable sqrt points) (intervalTable sqrt points) 0 (points.length - 1))
            (DBL_MAX : K) ∧
          v ≤ (DBL_MAX : K)) := by
  have hpos : 0 < points.length := List.length_pos.mpr hne
  have hv : intervalDPMatching sqrt points
      = some (tableAt (intervalTable sqrt points) 0 (points.length - 1)) := by
    unfold intervalDPMatching
    rw [if_neg (by omega), if_neg (by omega)]
  have h0 : 0 ≤ tableAt (intervalTable sqrt points) 0 (points.length - 1) := by
    obtain ⟨v, hv', hcase⟩ := intervalDPMatching_unset_or_matching sqrt hs points hm hne
    rw [hv] at hv'
    rw [Option.some.inj hv']
    rcases hcase with h | ⟨M, _, h⟩
    · rw [h]; exact le_of_lt dbl_max_pos
    · rw [h]; exact matchingLength_nonneg sqrt hs points M
  refine ⟨_, hv, ?_, h0, rfl, ?_, ?_⟩
  · intro h
    rw [h] at h0
    linarith
  · intro h2
    have e : points.length - 1 = 1 := by omega
    rw [e, (intervalTable_near_diagonal sqrt points hm).2 0 1 (by omega) (by omega) (by omega),
      if_pos ⟨rfl, rfl⟩, tableAt_distTable sqrt points 0 1 (by omega) (by omega) (by omega)]
  · intro h4
    have hrec := intervalTable_recurrence sqrt points hm 0 points.length h4 hm (by omega)
    unfold RecurrenceAt at hrec
    rw [Nat.zero_add] at hrec
    refine ⟨hrec, ?_⟩
    rw [hrec]
    exact (foldl_minStep_spec (distTable sqrt points) (intervalTable sqrt points) 0
      (points.length - 1) (partnersOf 0 points.length) (DBL_MAX : K)).1

theorem unsorted_computes_cost_witness :
    ∃ v, intervalDPMatching Real.sqrt (unsortedPoints ℝ) = some v ∧ v ≠ -1 ∧ 0 ≤ v ∧
      v = tableAt (intervalTable Real.sqrt (unsortedPoints ℝ)) 0
        ((unsortedPoints ℝ).length - 1) ∧
      ((unsortedPoints ℝ).length = 2 →
        v = euclideanDist Real.sqrt (pointAt (unsortedPoints ℝ) 0)
          (pointAt (unsortedPoints ℝ) 1)) ∧
      (4 ≤ (unsortedPoints ℝ).length →
        v = (partnersOf 0 (unsortedPoints ℝ).length).foldl
            (minStep (distTable Real.sqrt (unsortedPoints ℝ))
              (intervalTable Real.sqrt (unsortedPoints ℝ)) 0 ((unsortedPoints ℝ).length - 1))
            (DBL_MAX : ℝ) ∧
          v ≤ (DBL_MAX : ℝ)) :=
  unsorted_computes_cost Real.sqrt Real.sqrt_nonneg (unsortedPoints ℝ) (by decide)
    (by simp [unsortedPoints]) (by simp [SortedByXY, unsortedPoints])

/-- Claim C20 fails in the code: the base loop steps `i += 2`, and the later loops
write only entries `dp[l][r]` with `r ≥ l + 3`, so after a run on a sequence of
even length `dp[i][i+1]` is the distance of the two points for even `i` but is
still `DBL_MAX` for every odd `i`; on the four corners of the trapezoid
`dp[1][2]` is `DBL_MAX` while the points 1 and 2 are 19 apart. -/
theorem base_case_skips_odd_start :
    (trapezoid ℝ).length = 4 ∧
      tableAt (intervalTable Real.sqrt (trapezoid ℝ)) 1 2 = (DBL_MAX : ℝ) ∧
      euclideanDist Real.sqrt (pointAt (trapezoid ℝ) 1) (pointAt (trapezoid ℝ) 2) = 19 ∧
      (DBL_MAX : ℝ) ≠ 19 ∧
      (∀ (sqrt : ℝ → ℝ) (points : List (Point ℝ)) (i : Nat), points.length % 2 = 0 →
        i + 1 < points.length →
        tableAt (intervalTable sqrt points) i (i + 1)
          = if i % 2 = 0 then euclideanDist sqrt (pointAt points i) (pointAt points (i + 1))
            else (DBL_MAX : ℝ)) := by
  have hgen : ∀ (sqrt : ℝ → ℝ) (points : List (Point ℝ)) (i : Nat), points.length % 2 = 0 →
      i + 1 < points.length →
      tableAt (intervalTable sqrt points) i (i + 1)
        = if i % 2 = 0 then euclideanDist sqrt (pointAt points i) (pointAt points (i + 1))
          else (DBL_MAX : ℝ) := by
    intro sqrt points i hm hi
    rw [(intervalTable_near_diagonal sqrt points hm).2 i (i + 1) (by omega) hi (by omega)]
    by_cases hpar : i % 2 = 0
    · rw [if_pos ⟨hpar, rfl⟩, if_pos hpar,
        tableAt_distTable sqrt points i (i + 1) (by omega) hi (by omega)]
    · rw [if_neg (fun h => hpar h.1), if_neg hpar]
  have h12 : euclideanDist Real.sqrt (⟨36, 48⟩ : Point ℝ) ⟨55, 48⟩ = 19 :=
    euclideanDist_real_eq _ _ 19 (by norm_num) (by norm_num)
  have hB : (19 : ℝ) < (DBL_MAX : ℝ) := by
    have := lt_dbl_max (K := ℝ) 19 (by norm_num)
    simpa using this
  refine ⟨rfl, ?_, ?_, ne_of_gt hB, hgen⟩
  · have := hgen Real.sqrt (trapezoid ℝ) 1 (by decide) (by decide)
    rw [this, if_neg (by decide)]
  · simpa [pointAt, trapezoid] using h12

/-! ## The sums computed by the bitmask solver -/

/-- The sum of a transition is the cost of disjoint pairs that leave two indices
free, plus one more entry: it is at most `m / 2` times the largest entry. -/
theorem transition_sum_bounds (m : Nat) (hm : m % 2 = 0) (dist : CostMatrix) (C : Int)
    (hC : ∀ u, u < m → ∀ v, v < m → 0 ≤ entry dist u v ∧ entry dist u v ≤ C)
    (hbound : ((m / 2 : Nat) : Int) * C < 2 ^ 63 - 1)
    (mask i j : Nat) (hmask : mask < 2 ^ m) (hij : i < j) (hj : j < m)
    (hbi : mask.testBit i = false) (hbj : mask.testBit j = false)
    (hne : dpAt (tableAfter m dist mask) mask ≠ LLONG_MAX) :
    0 ≤ dpAt (tableAfter m dist mask) mask + entry dist i j ∧
      dpAt (tableAfter m dist mask) mask + entry dist i j < 2 ^ 63 - 1 := by
  have hnn : IsNonneg m dist := fun u hu v hv => (hC u hu v hv).1
  have hle : ∀ u, u < m → ∀ v, v < m → entry dist u v ≤ C := fun u hu v hv => (hC u hu v hv).2
  have hm2 : (m : Int) = 2 * ((m / 2 : Nat) : Int) := by omega
  have hsum : ∀ P, IsPerfectMatching m P → matchingCost dist P ≤ 2 ^ 63 - 1 := by
    intro P hP
    have h1 := perfect_cost_le m dist C hle P hP
    have h2 : C * (m : Int) = 2 * (((m / 2 : Nat) : Int) * C) := by rw [hm2]; push_cast; ring
    linarith
  obtain ⟨M, hM, hcost⟩ := tableAfter_sound m hm dist hnn hsum mask (le_of_lt hmask) mask hmask hne
  have hi : i < m := by omega
  have hiM : i ∉ flattenPairs M := fun h => by
    have := ((hM.2 i).mp h).2
    rw [hbi] at this; cases this
  have hjM : j ∉ flattenPairs M := fun h => by
    have := ((hM.2 j).mp h).2
    rw [hbj] at this; cases this
  have hnd : (i :: j :: flattenPairs M).Nodup := by
    refine List.nodup_cons.mpr ⟨?_, List.nodup_cons.mpr ⟨hjM, hM.1⟩⟩
    intro h
    rcases List.mem_cons.mp h with h | h
    · omega
    · exact hiM h
  have hsub : (i :: j :: flattenPairs M) ⊆ List.range m := by
    intro v hv
    rw [List.mem_range]
    rcases List.mem_cons.mp hv with h | h
    · omega
    · rcases List.mem_cons.mp h with h | h
      · omega
      · exact covers_lt m M mask hM v h
  have hlen := (List.subperm_of_subset hnd hsub).length_le
  rw [List.length_cons, List.length_cons, length_flattenPairs, List.length_range] at hlen
  have hlen' : ((M.length : Nat) : Int) + 1 ≤ ((m / 2 : Nat) : Int) := by omega
  have h0 := matchingCost_nonneg m dist hnn M (covers_lt m M mask hM)
  have h1 := matchingCost_le_mul m dist C hle M (covers_lt m M mask hM)
  have he := hC i hi j hj
  have hC0 : 0 ≤ C := le_trans he.1 he.2
  have h2 : C * ((M.length : Int) + 1) ≤ C * ((m / 2 : Nat) : Int) :=
    mul_le_mul_of_nonneg_left hlen' hC0
  rw [← hcost]
  constructor
  · linarith
  · have h3 : C * ((M.length : Int) + 1) = C * (M.length : Int) + C := by ring
    have h4 : C * ((m / 2 : Nat) : Int) = ((m / 2 : Nat) : Int) * C := by ring
    linarith

/-- Claim C15: for every even `m` with `0 ≤ m ≤ 24` and every `m × m` matrix with all
entries in `[0, C]` where `(m / 2) * C < 2^63 - 1`, every sum `dp[mask] + dist[i][j]`
that `stateDPMatching` computes lies in the signed 64-bit range, so that the
wrapped sum is the exact sum, and no value that a transition stores, and no
entry a transition has stored to, equals the sentinel `LLONG_MAX`.  The
record of the sums is kept by an instrumented copy of the loop whose table
is the table of `stateDPMatching`. -/
theorem transition_sums_in_range (m : Nat) (hm : m % 2 = 0) (h24 : m ≤ 24) (dist : CostMatrix)
    (_hsq : IsSquare m dist) (C : Int)
    (hC : ∀ u, u < m → ∀ v, v < m → 0 ≤ entry dist u v ∧ entry dist u v ≤ C)
    (hbound : ((m / 2 : Nat) : Int) * C < 2 ^ 63 - 1) :
    (transitionLog m dist).1 = finalTable m dist ∧
      stateDPMatching (m : Int) dist = some (dpAt (transitionLog m dist).1 (2 ^ m - 1)) ∧
      ∀ t, t ∈ (transitionLog m dist).2 →
        IsLongLong t.sum ∧ wrap64 t.sum = t.sum ∧
          (t.stored = true →
            t.sum ≠ LLONG_MAX ∧ dpAt (finalTable m dist) t.newMask ≠ LLONG_MAX) := by
  have hpos := Nat.two_pow_pos m
  have hlog : transitionLog m dist = logAfter m dist (2 ^ m) := by
    unfold transitionLog
    rw [Nat.one_shiftLeft]
    congr 1
    omega
  have hfst : (transitionLog m dist).1 = finalTable m dist := by
    rw [hlog, logAfter_fst, finalTable_eq]
  refine ⟨hfst, ?_, ?_⟩
  · rw [hfst, finalTable_eq]
    exact stateDPMatching_eq m hm (by omega) dist
  · intro t ht
    rw [hlog] at ht
    obtain ⟨g1, g2, g3, g4, g5, g6, g7, g8⟩ := logAfter_snd m dist (2 ^ m) (le_refl _) t ht
    have hbi : t.mask.testBit t.i = false := by
      rw [g3]
      exact lowestUnset_unset m t.mask (by omega)
    have hb := transition_sum_bounds m hm dist C hC hbound t.mask t.i t.j g1 g4 g5 hbi g6 g2
    rw [← g7] at hb
    have hll : IsLongLong t.sum := by
      unfold IsLongLong
      constructor <;> omega
    have hw := wrap64_of_isLongLong hll
    refine ⟨hll, hw, fun hst => ⟨?_, ?_⟩⟩
    · unfold LLONG_MAX; omega
    · have := g8 hst
      rw [hw, ← finalTable_eq] at this
      unfold LLONG_MAX
      omega

theorem transition_sums_in_range_witness :
    (transitionLog 4 exampleMatrix).1 = finalTable 4 exampleMatrix ∧
      stateDPMatching ((4 : Nat) : Int) exampleMatrix
        = some (dpAt (transitionLog 4 exampleMatrix).1 (2 ^ 4 - 1)) ∧
      ∀ t, t ∈ (transitionLog 4 exampleMatrix).2 →
        IsLongLong t.sum ∧ wrap64 t.sum = t.sum ∧
          (t.stored = true →
            t.sum ≠ LLONG_MAX ∧ dpAt (finalTable 4 exampleMatrix) t.newMask ≠ LLONG_MAX) :=
  transition_sums_in_range 4 (by decide) (by decide) exampleMatrix (by decide) 6 (by decide)
    (by decide)

/-! ## Work and space of the interval solver -/

/-- Claim C17: on every point sequence of even length `n`, the innermost loop of
`intervalDPMatching` evaluates at most `n ^ 3` candidate triples `(l, r, k)` (the
count is kept by an instrumented copy of the loops, which computes the same
table `dp` and hence the same result), and the two tables of the function,
`dist` and `dp`, have `n` rows of `n` entries, `dp` both when it is created and
when the loops are over. -/
theorem interval_cubic_work {K : Type} [LinearOrderedField K] (sqrt : K → K)
    (points : List (Point K)) (hm : points.length % 2 = 0) :
    (intervalCount sqrt points).1 = intervalTable sqrt points ∧
      (points ≠ [] → intervalDPMatching sqrt points
        = some (tableAt (intervalCount sqrt points).1 0 (points.length - 1))) ∧
      (intervalCount sqrt points).2 ≤ points.length ^ 3 ∧
      IsTable points.length (distTable sqrt points) ∧
      IsTable points.length (initialDP points.length : List (List K)) ∧
      IsTable points.length (intervalTable sqrt points) := by
  obtain ⟨h1, _, h3⟩ := intervalCount_eq sqrt points
  refine ⟨h1, ?_, h3, isTable_distTable sqrt points, isTable_initialDP _,
    (intervalTable_near_diagonal sqrt points hm).1⟩
  intro hne
  have hpos : 0 < points.length := List.length_pos.mpr hne
  unfold intervalDPMatching
  rw [if_neg (by omega), if_neg (by omega), h1]

theorem interval_cubic_work_witness :
    (intervalCount Real.sqrt (trapezoid ℝ)).1 = intervalTable Real.sqrt (trapezoid ℝ) ∧
      (trapezoid ℝ ≠ [] → intervalDPMatching Real.sqrt (trapezoid ℝ)
        = some (tableAt (intervalCount Real.sqrt (trapezoid ℝ)).1 0
            ((trapezoid ℝ).length - 1))) ∧
      (intervalCount Real.sqrt (trapezoid ℝ)).2 ≤ (trapezoid ℝ).length ^ 3 ∧
      IsTable (trapezoid ℝ).length (distTable Real.sqrt (trapezoid ℝ)) ∧
      IsTable (trapezoid ℝ).length (initialDP (trapezoid ℝ).length : List (List ℝ)) ∧
      IsTable (trapezoid ℝ).length (intervalTable Real.sqrt (trapezoid ℝ)) :=
  interval_cubic_work Real.sqrt (trapezoid ℝ) (by decide)

/-! ## Counting the perfect matchings -/

/-- Claim C16: for every even `n ≥ 0` whose product `(n-1) * (n-3) * ... * 1` fits in
64 bits, `doubleFactorial(n)` returns that product (the loop is over within `n`
iterations), which is the double factorial `(n-1)!!` and the number of distinct
perfect matchings of `n` labelled vertices: the list `pairings` holds that many
perfect matchings, no two of them with the same pairs, and every perfect
matching has the same pairs as one of them.  In particular
`doubleFactorial(12) = 10395` and `doubleFactorial(14) = 135135`. -/
theorem doubleFactorial_counts_matchings (n : Nat) (hn : n % 2 = 0)
    (hfit : (oddProduct n : Int) ≤ 2 ^ 63 - 1) :
    doubleFactorial (n : Int) = (oddProduct n : Int) ∧
      (∀ fuel, n ≤ fuel → doubleFactorialLoop fuel ((n : Int) - 1) 1 = doubleFactorial (n : Int)) ∧
      oddProduct n = Nat.doubleFactorial (n - 1) ∧
      ((pairings (n / 2) (List.range n)).length : Int) = doubleFactorial (n : Int) ∧
      (∀ s, s ∈ pairings (n / 2) (List.range n) → IsPerfectMatching n s) ∧
      (pairings (n / 2) (List.range n)).Pairwise (fun s s' => ¬ SamePairs s s') ∧
      (∀ M, IsPerfectMatching n M →
        ∃ s, s ∈ pairings (n / 2) (List.range n) ∧ SamePairs s M) ∧
      doubleFactorial 12 = 10395 ∧ doubleFactorial 14 = 135135 := by
  have hn2 : n = 2 * (n / 2) := by omega
  have hcast : ((n : Nat) : Int) - 1 = 2 * ((n / 2 : Nat) : Int) - 1 := by omega
  have hloop : ∀ fuel, n / 2 ≤ fuel →
      doubleFactorialLoop fuel ((n : Int) - 1) 1 = (oddProduct n : Int) := by
    intro fuel hfuel
    have := doubleFactorialLoop_eq (n / 2) fuel 1 hfuel (by decide)
      (by rw [← hn2, one_mul]; exact hfit)
    rw [← hn2, one_mul, ← hcast] at this
    exact this
  have hdf : doubleFactorial (n : Int) = (oddProduct n : Int) := by
    unfold doubleFactorial
    rw [Int.toNat_ofNat]
    exact hloop n (by omega)
  have hlen : (List.range n).length = 2 * (n / 2) := by
    rw [List.length_range]; exact hn2
  refine ⟨hdf, ?_, ?_, ?_, ?_, ?_, ?_, by decide, by decide⟩
  · intro fuel hfuel
    rw [hdf]
    exact hloop fuel (by omega)
  · have := oddProduct_eq_doubleFactorial (n / 2)
    rw [← hn2] at this
    exact this
  · rw [hdf, length_pairings (n / 2) (List.range n) hlen, ← hn2]
  · intro s hs
    exact perm_of_mem_pairings _ _ s hs
  · have hnd := nodup_pairings (n / 2) (List.range n) (List.nodup_range n)
    refine List.Pairwise.imp_of_mem ?_ hnd
    intro s s' hs hs' hne hsame
    exact hne (pairing_unique _ _ s s' (List.nodup_range n) hs hs' hsame)
  · intro M hM
    exact exists_pairing (n / 2) (List.range n) M hlen hM

theorem doubleFactorial_counts_matchings_witness :
    doubleFactorial ((4 : Nat) : Int) = (oddProduct 4 : Int) ∧
      (∀ fuel, 4 ≤ fuel →
        doubleFactorialLoop fuel (((4 : Nat) : Int) - 1) 1 = doubleFactorial ((4 : Nat) : Int)) ∧
      oddProduct 4 = Nat.doubleFactorial (4 - 1) ∧
      ((pairings (4 / 2) (List.range 4)).length : Int) = doubleFactorial ((4 : Nat) : Int) ∧
      (∀ s, s ∈ pairings (4 / 2) (List.range 4) → IsPerfectMatching 4 s) ∧
      (pairings (4 / 2) (List.range 4)).Pairwise (fun s s' => ¬ SamePairs s s') ∧
      (∀ M, IsPerfectMatching 4 M →
        ∃ s, s ∈ pairings (4 / 2) (List.range 4) ∧ SamePairs s M) ∧
      doubleFactorial 12 = 10395 ∧ doubleFactorial 14 = 135135 :=
  doubleFactorial_counts_matchings 4 (by decide) (by decide)

/-! ## The recurrence and the result of the interval solver -/

/-- Claim C21, as stated, fails: on the four points `(0,0), (DBL_MAX,0), (0,0), (DBL_MAX,0)`
the final entry `dp[0][3]` is `DBL_MAX`, the value `min_cost` starts with, while both
candidates `k = 1` and `k = 3`, computed from the final table, are `2 * DBL_MAX`:
the entry is below the minimum over `k`. -/
theorem recurrence_keeps_unset_value :
    (hugePoints ℝ).length = 4 ∧ partnersOf 0 4 = [1, 3] ∧
      tableAt (intervalTable Real.sqrt (hugePoints ℝ)) 0 3 = (DBL_MAX : ℝ) ∧
      ∀ k, k ∈ partnersOf 0 4 →
        splitCost (distTable Real.sqrt (hugePoints ℝ))
          (intervalTable Real.sqrt (hugePoints ℝ)) 0 3 k = 2 * (DBL_MAX : ℝ) ∧
        (DBL_MAX : ℝ) < 2 * (DBL_MAX : ℝ) := by
  have hB : (0 : ℝ) < (DBL_MAX : ℝ) := dbl_max_pos
  have hd := hugePoints_dist
  have hnear := (intervalTable_near_diagonal Real.sqrt (hugePoints ℝ) (by decide)).2
  have hdist : ∀ i j, i < 4 → j < 4 → i < j →
      tableAt (distTable Real.sqrt (hugePoints ℝ)) i j
        = euclideanDist Real.sqrt (pointAt (hugePoints ℝ) i) (pointAt (hugePoints ℝ) j) :=
    fun i j hi hj hij => tableAt_distTable Real.sqrt _ i j hi hj hij
  have h01 : tableAt (distTable Real.sqrt (hugePoints ℝ)) 0 1 = (DBL_MAX : ℝ) := by
    rw [hdist 0 1 (by decide) (by decide) (by decide)]; exact hd
  have h03 : tableAt (distTable Real.sqrt (hugePoints ℝ)) 0 3 = (DBL_MAX : ℝ) := by
    rw [hdist 0 3 (by decide) (by decide) (by decide)]; exact hd
  have h23 : tableAt (intervalTable Real.sqrt (hugePoints ℝ)) 2 3 = (DBL_MAX : ℝ) := by
    rw [hnear 2 3 (by decide) (by decide) (by decide), if_pos (by decide),
      hdist 2 3 (by decide) (by decide) (by decide)]
    exact hd
  have h12 : tableAt (intervalTable Real.sqrt (hugePoints ℝ)) 1 2 = (DBL_MAX : ℝ) := by
    rw [hnear 1 2 (by decide) (by decide) (by decide), if_neg (by decide)]
  refine ⟨rfl, rfl, ?_, ?_⟩
  · unfold hugePoints
    rw [intervalTable_four Real.sqrt Real.sqrt_nonneg, hd, if_neg (by linarith)]
  · intro k hk
    rw [partnersOf_four] at hk
    refine ⟨?_, by linarith⟩
    rcases List.mem_cons.mp hk with rfl | hk
    · rw [splitCost_eq, h01, if_neg (by decide), if_pos (by decide), h23]; ring
    · rcases List.mem_cons.mp hk with rfl | hk
      · rw [splitCost_eq, h03, if_pos (by decide), if_neg (by decide), h12]; ring
      · cases hk

/-- Claim C21, amended: for every point sequence of even length `n` and every `l`, `r`
with `0 ≤ l < r < n`, `r - l` odd and `r - l ≥ 3`, the final value `dp[l][r]` is the
minimum of `DBL_MAX` and the costs `dist[l][k] + (dp[l+1][k-1] if k > l + 1) +
(dp[k+1][r] if k < r)` over `k = l + 1, l + 3, ..., r`, the `dp` values on the right
being the final ones: it is at most `DBL_MAX` and at most every such cost, and
it is `DBL_MAX` or one of these costs; so it is the minimum over `k` as soon as
one cost is at most `DBL_MAX`. -/
theorem interval_recurrence {K : Type} [LinearOrderedField K] (sqrt : K → K)
    (points : List (Point K)) (hm : points.length % 2 = 0) (l r : Nat) (hlr : l < r)
    (hr : r < points.length) (hodd : (r - l) % 2 = 1) (h3 : 3 ≤ r - l) :
    (∀ k, k ∈ partnersOf l (r - l + 1) ↔ (l < k ∧ k ≤ r ∧ (k - l) % 2 = 1)) ∧
      (∀ k, l < k → k ≤ r →
        splitCost (distTable sqrt points) (intervalTable sqrt points) l r k
          = euclideanDist sqrt (pointAt points l) (pointAt points k)
            + (if l + 1 < k then tableAt (intervalTable sqrt points) (l + 1) (k - 1) else 0)
            + (if k < r then tableAt (intervalTable sqrt points) (k + 1) r else 0)) ∧
      tableAt (intervalTable sqrt points) l r ≤ (DBL_MAX : K) ∧
      (∀ k, k ∈ partnersOf l (r - l + 1) → tableAt (intervalTable sqrt points) l r
        ≤ splitCost (distTable sqrt points) (intervalTable sqrt points) l r k) ∧
      (tableAt (intervalTable sqrt points) l r = (DBL_MAX : K) ∨
        ∃ k, k ∈ partnersOf l (r - l + 1) ∧ tableAt (intervalTable sqrt points) l r
          = splitCost (distTable sqrt points) (intervalTable sqrt points) l r k) ∧
      ((∃ k, k ∈ partnersOf l (r - l + 1) ∧
          splitCost (distTable sqrt points) (intervalTable sqrt points) l r k ≤ (DBL_MAX : K)) →
        ∃ k, k ∈ partnersOf l (r - l + 1) ∧ tableAt (intervalTable sqrt points) l r
          = splitCost (distTable sqrt points) (intervalTable sqrt points) l r k) := by
  have hrec := intervalTable_recurrence sqrt points hm l (r - l + 1) (by omega) (by omega)
    (by omega)
  unfold RecurrenceAt at hrec
  have e : l + (r - l + 1) - 1 = r := by omega
  rw [e] at hrec
  obtain ⟨g1, g2, g3⟩ := foldl_minStep_spec (distTable sqrt points) (intervalTable sqrt points)
    l r (partnersOf l (r - l + 1)) (DBL_MAX : K)
  rw [← hrec] at g1 g2 g3
  refine ⟨?_, ?_, g1, g2, g3, ?_⟩
  · intro k
    unfold partnersOf
    rw [List.mem_map]
    constructor
    · rintro ⟨t, ht, rfl⟩
      rw [List.mem_range] at ht
      omega
    · intro hk
      exact ⟨(k - l - 1) / 2, by rw [List.mem_range]; omega, by omega⟩
  · intro k hlk hkr
    rw [splitCost_eq, tableAt_distTable sqrt points l k (by omega) (by omega) hlk]
    have c1 : (l + 1 ≤ k - 1) ↔ (l + 1 < k) := by omega
    have c2 : (k + 1 ≤ r) ↔ (k < r) := by omega
    simp only [c1, c2]
  · rintro ⟨k, hk, hle⟩
    rcases g3 with h | h
    · exact ⟨k, hk, le_antisymm (g2 k hk) (by rw [h]; exact hle)⟩
    · exact h

theorem interval_recurrence_witness :
    (∀ k, k ∈ partnersOf 0 (3 - 0 + 1) ↔ (0 < k ∧ k ≤ 3 ∧ (k - 0) % 2 = 1)) ∧
      (∀ k, 0 < k → k ≤ 3 →
        splitCost (distTable Real.sqrt (trapezoid ℝ)) (intervalTable Real.sqrt (trapezoid ℝ))
            0 3 k
          = euclideanDist Real.sqrt (pointAt (trapezoid ℝ) 0) (pointAt (trapezoid ℝ) k)
            + (if 0 + 1 < k then tableAt (intervalTable Real.sqrt (trapezoid ℝ)) (0 + 1) (k - 1)
                else 0)
            + (if k < 3 then tableAt (intervalTable Real.sqrt (trapezoid ℝ)) (k + 1) 3
                else 0)) ∧
      tableAt (intervalTable Real.sqrt (trapezoid ℝ)) 0 3 ≤ (DBL_MAX : ℝ) ∧
      (∀ k, k ∈ partnersOf 0 (3 - 0 + 1) → tableAt (intervalTable Real.sqrt (trapezoid ℝ)) 0 3
        ≤ splitCost (distTable Real.sqrt (trapezoid ℝ))
            (intervalTable Real.sqrt (trapezoid ℝ)) 0 3 k) ∧
      (tableAt (intervalTable Real.sqrt (trapezoid ℝ)) 0 3 = (DBL_MAX : ℝ) ∨
        ∃ k, k ∈ partnersOf 0 (3 - 0 + 1) ∧ tableAt (intervalTable Real.sqrt (trapezoid ℝ)) 0 3
          = splitCost (distTable Real.sqrt (trapezoid ℝ))
              (intervalTable Real.sqrt (trapezoid ℝ)) 0 3 k) ∧
      ((∃ k, k ∈ partnersOf 0 (3 - 0 + 1) ∧
          splitCost (distTable Real.sqrt (trapezoid ℝ))
            (intervalTable Real.sqrt (trapezoid ℝ)) 0 3 k ≤ (DBL_MAX : ℝ)) →
        ∃ k, k ∈ partnersOf 0 (3 - 0 + 1) ∧ tableAt (intervalTable Real.sqrt (trapezoid ℝ)) 0 3
          = splitCost (distTable Real.sqrt (trapezoid ℝ))
              (intervalTable Real.sqrt (trapezoid ℝ)) 0 3 k) :=
  interval_recurrence Real.sqrt (trapezoid ℝ) (by decide) 0 3 (by decide) (by decide)
    (by decide) (by decide)

/-- Claim C22 fails in the code: on the four corners of the trapezoid
`intervalDPMatching` returns 120, the length of the pairing `{0,1}, {2,3}`, while the
perfect matching `{0,3}, {1,2}`, which is non-crossing in index order, has the
total length 110. -/
theorem interval_misses_noncrossing_minimum :
    (trapezoid ℝ).length = 4 ∧ intervalDPMatching Real.sqrt (trapezoid ℝ) = some 120 ∧
      IsPerfectMatching 4 [(0, 3), (1, 2)] ∧ IsNonCrossing [(0, 3), (1, 2)] ∧
      matchingLength Real.sqrt (trapezoid ℝ) [(0, 3), (1, 2)] = 110 := by
  have h03 : euclideanDist Real.sqrt (⟨0, 0⟩ : Point ℝ) ⟨91, 0⟩ = 91 :=
    euclideanDist_real_eq _ _ 91 (by norm_num) (by norm_num)
  have h12 : euclideanDist Real.sqrt (⟨36, 48⟩ : Point ℝ) ⟨55, 48⟩ = 19 :=
    euclideanDist_real_eq _ _ 19 (by norm_num) (by norm_num)
  refine ⟨rfl, trapezoid_value, by decide, by decide, ?_⟩
  simp [matchingLength, pointAt, trapezoid, h03, h12]
  norm_num

/-! ## What the interval solver returns -/

/-- Claim C25, as stated, fails: on the four points `(0,0), (DBL_MAX,0), (0,0), (DBL_MAX,0)`
the sum `dist(p0,p1) + dist(p2,p3)` is `2 * DBL_MAX`, which is not below the initial
value of `min_cost`, and `intervalDPMatching` returns `DBL_MAX`. -/
theorem four_points_return_unset_value :
    (hugePoints ℝ).length = 4 ∧
      intervalDPMatching Real.sqrt (hugePoints ℝ) = some (DBL_MAX : ℝ) ∧
      euclideanDist Real.sqrt (pointAt (hugePoints ℝ) 0) (pointAt (hugePoints ℝ) 1)
        + euclideanDist Real.sqrt (pointAt (hugePoints ℝ) 2) (pointAt (hugePoints ℝ) 3)
        = 2 * (DBL_MAX : ℝ) ∧
      (DBL_MAX : ℝ) ≠ 2 * (DBL_MAX : ℝ) := by
  have hB : (0 : ℝ) < (DBL_MAX : ℝ) := dbl_max_pos
  have hd := hugePoints_dist
  refine ⟨rfl, ?_, ?_, by linarith⟩
  · unfold hugePoints
    rw [intervalDPMatching_four Real.sqrt Real.sqrt_nonneg, hd, if_neg (by linarith)]
  · have e0 : pointAt (hugePoints ℝ) 0 = ⟨0, 0⟩ := rfl
    have e1 : pointAt (hugePoints ℝ) 1 = ⟨(DBL_MAX : ℝ), 0⟩ := rfl
    have e2 : pointAt (hugePoints ℝ) 2 = ⟨0, 0⟩ := rfl
    have e3 : pointAt (hugePoints ℝ) 3 = ⟨(DBL_MAX : ℝ), 0⟩ := rfl
    rw [e0, e1, e2, e3, hd]
    ring

/-- Claim C25, amended: for every sequence of exactly four points,
`intervalDPMatching` returns `dist(p0,p1) + dist(p2,p3)` when that sum is below
`DBL_MAX`, and `DBL_MAX` otherwise, whatever the coordinates: the nested pairing
`(p0,p3), (p1,p2)` never lowers the result, because `dp[1][2]` holds the initial
maximum value when it is read and still holds it at the end. -/
theorem four_points_consecutive_pairing {K : Type} [LinearOrderedField K] (sqrt : K → K)
    (hs : ∀ x, 0 ≤ sqrt x) (p0 p1 p2 p3 : Point K) :
    intervalDPMatching sqrt [p0, p1, p2, p3]
        = some (if euclideanDist sqrt p0 p1 + euclideanDist sqrt p2 p3 < (DBL_MAX : K)
          then euclideanDist sqrt p0 p1 + euclideanDist sqrt p2 p3 else (DBL_MAX : K)) ∧
      tableAt (baseDP 4 (distTable sqrt [p0, p1, p2, p3])) 1 2 = (DBL_MAX : K) ∧
      tableAt (intervalTable sqrt [p0, p1, p2, p3]) 1 2 = (DBL_MAX : K) := by
  refine ⟨intervalDPMatching_four sqrt hs p0 p1 p2 p3, ?_, ?_⟩
  · rw [(baseDP_spec 4 (by decide) _).2 1 2 (by decide) (by decide), if_neg (by decide)]
  · rw [(intervalTable_near_diagonal sqrt [p0, p1, p2, p3] (by simp)).2 1 2 (by simp)
      (by simp) (by decide), if_neg (by decide)]

theorem four_points_consecutive_pairing_witness :
    intervalDPMatching Real.sqrt [(⟨0, 0⟩ : Point ℝ), ⟨36, 48⟩, ⟨55, 48⟩, ⟨91, 0⟩]
        = some (if euclideanDist Real.sqrt (⟨0, 0⟩ : Point ℝ) ⟨36, 48⟩
              + euclideanDist Real.sqrt (⟨55, 48⟩ : Point ℝ) ⟨91, 0⟩ < (DBL_MAX : ℝ)
          then euclideanDist Real.sqrt (⟨0, 0⟩ : Point ℝ) ⟨36, 48⟩
              + euclideanDist Real.sqrt (⟨55, 48⟩ : Point ℝ) ⟨91, 0⟩
          else (DBL_MAX : ℝ)) ∧
      tableAt (baseDP 4 (distTable Real.sqrt
        [(⟨0, 0⟩ : Point ℝ), ⟨36, 48⟩, ⟨55, 48⟩, ⟨91, 0⟩])) 1 2 = (DBL_MAX : ℝ) ∧
      tableAt (intervalTable Real.sqrt
        [(⟨0, 0⟩ : Point ℝ), ⟨36, 48⟩, ⟨55, 48⟩, ⟨91, 0⟩]) 1 2 = (DBL_MAX : ℝ) :=
  four_points_consecutive_pairing Real.sqrt Real.sqrt_nonneg ⟨0, 0⟩ ⟨36, 48⟩ ⟨55, 48⟩ ⟨91, 0⟩

/-- Claim C26, as stated, fails: on the four corners of the square with
coordinates `± DBL_MAX`, any two points are at least `2 * DBL_MAX` apart, so every
perfect matching is longer than `DBL_MAX`, and `intervalDPMatching` returns `DBL_MAX`:
not the length of a perfect matching, and below the minimum. -/
theorem corner_points_below_minimum :
    (cornerPoints ℝ).length = 4 ∧
      intervalDPMatching Real.sqrt (cornerPoints ℝ) = some (DBL_MAX : ℝ) ∧
      ∀ M, IsPerfectMatching 4 M →
        (DBL_MAX : ℝ) < matchingLength Real.sqrt (cornerPoints ℝ) M := by
  have hB : (0 : ℝ) < (DBL_MAX : ℝ) := dbl_max_pos
  have hfar : ∀ a b : Point ℝ,
      (2 * (DBL_MAX : ℝ)) * (2 * (DBL_MAX : ℝ))
        ≤ (a.x - b.x) * (a.x - b.x) + (a.y - b.y) * (a.y - b.y) →
      2 * (DBL_MAX : ℝ) ≤ euclideanDist Real.sqrt a b := by
    intro a b hab
    unfold euclideanDist
    simp only
    have e : 2 * (DBL_MAX : ℝ) = Real.sqrt ((2 * (DBL_MAX : ℝ)) * (2 * (DBL_MAX : ℝ))) :=
      (Real.sqrt_mul_self (by linarith)).symm
    rw [e]
    exact Real.sqrt_le_sqrt hab
  have h01 : euclideanDist Real.sqrt (⟨-(DBL_MAX : ℝ), -(DBL_MAX : ℝ)⟩ : Point ℝ)
      ⟨(DBL_MAX : ℝ), -(DBL_MAX : ℝ)⟩ = 2 * (DBL_MAX : ℝ) :=
    euclideanDist_real_eq _ _ _ (by linarith) (by simp only; ring)
  have h23 : euclideanDist Real.sqrt (⟨-(DBL_MAX : ℝ), (DBL_MAX : ℝ)⟩ : Point ℝ)
      ⟨(DBL_MAX : ℝ), (DBL_MAX : ℝ)⟩ = 2 * (DBL_MAX : ℝ) :=
    euclideanDist_real_eq _ _ _ (by linarith) (by simp only; ring)
  refine ⟨rfl, ?_, ?_⟩
  · unfold cornerPoints
    rw [intervalDPMatching_four Real.sqrt Real.sqrt_nonneg, h01, h23, if_neg (by linarith)]
  · intro M hM
    have hc : ∀ u, u < 4 → ∀ v, v < 4 → u ≠ v →
        2 * (DBL_MAX : ℝ)
          ≤ euclideanDist Real.sqrt (pointAt (cornerPoints ℝ) u) (pointAt (cornerPoints ℝ) v) := by
      intro u hu v hv huv
      apply hfar
      interval_cases u <;> interval_cases v <;>
        first
          | exact absurd rfl huv
          | (simp only [cornerPoints, pointAt, List.getD_cons_zero, List.getD_cons_succ]
             generalize (DBL_MAX : ℝ) = B
             nlinarith [mul_self_nonneg B])
    obtain ⟨hnd, hmem⟩ := (isPerfectMatching_iff 4 M).mp hM
    have h1 := matchingLength_ge_mul Real.sqrt (cornerPoints ℝ) 4 _ hc M hnd
      (fun v hv => (hmem v).mp hv)
    have h2 : M.length = 2 := by
      have := perfect_length 4 M hM
      omega
    rw [h2] at h1
    have h3 : (2 * (DBL_MAX : ℝ)) * ((2 : ℕ) : ℝ) = 4 * (DBL_MAX : ℝ) := by push_cast; ring
    rw [h3] at h1
    linarith

/-- Claim C26, amended: with distances as exact numbers, for every non-empty point
sequence of even length the value `intervalDPMatching` returns is `DBL_MAX`, the
value the entries of the table start with, or the total length of some perfect
matching of the points; in the second case it is at least every lower bound
of the perfect-matching lengths, the minimum among them; and the second case
holds whenever all perfect matchings are shorter than `DBL_MAX`. -/
theorem interval_returns_matching_length {K : Type} [LinearOrderedField K] (sqrt : K → K)
    (hs : ∀ x, 0 ≤ sqrt x) (points : List (Point K)) (hm : points.length % 2 = 0)
    (hne : points ≠ []) :
    ∃ v, intervalDPMatching sqrt points = some v ∧
      (v = (DBL_MAX : K) ∨
        ∃ M, IsPerfectMatching points.length M ∧ v = matchingLength sqrt points M) ∧
      ((∃ M, IsPerfectMatching points.length M ∧ v = matchingLength sqrt points M) →
        ∀ c, (∀ M, IsPerfectMatching points.length M → c ≤ matchingLength sqrt points M) →
          c ≤ v) ∧
      ((∀ M, IsPerfectMatching points.length M →
          matchingLength sqrt points M < (DBL_MAX : K)) →
        ∃ M, IsPerfectMatching points.length M ∧ v = matchingLength sqrt points M) := by
  obtain ⟨v, hv, hcases⟩ := intervalDPMatching_unset_or_matching sqrt hs points hm hne
  refine ⟨v, hv, hcases, ?_, ?_⟩
  · rintro ⟨M, hM, hvM⟩ c hc
    rw [hvM]
    exact hc M hM
  · intro hsum
    obtain ⟨v', hv', hM', _, _⟩ := intervalDPMatching_isMatching sqrt hs points hm hne hsum
    rw [hv] at hv'
    rw [Option.some.inj hv']
    exact hM'

theorem interval_returns_matching_length_witness :
    ∃ v, intervalDPMatching Real.sqrt (unsortedPoints ℝ) = some v ∧
      (v = (DBL_MAX : ℝ) ∨
        ∃ M, IsPerfectMatching (unsortedPoints ℝ).length M ∧
          v = matchingLength Real.sqrt (unsortedPoints ℝ) M) ∧
      ((∃ M, IsPerfectMatching (unsortedPoints ℝ).length M ∧
          v = matchingLength Real.sqrt (unsortedPoints ℝ) M) →
        ∀ c, (∀ M, IsPerfectMatching (unsortedPoints ℝ).length M →
            c ≤ matchingLength Real.sqrt (unsortedPoints ℝ) M) → c ≤ v) ∧
      ((∀ M, IsPerfectMatching (unsortedPoints ℝ).length M →
          matchingLength Real.sqrt (unsortedPoints ℝ) M < (DBL_MAX : ℝ)) →
        ∃ M, IsPerfectMatching (unsortedPoints ℝ).length M ∧
          v = matchingLength Real.sqrt (unsortedPoints ℝ) M) :=
  interval_returns_matching_length Real.sqrt Real.sqrt_nonneg (unsortedPoints ℝ) (by decide)
    (by simp [unsortedPoints])

/-! ## The iterations of the brute-force loop -/

/-- Claim C23: for every even `n ≥ 2` the `do ... while` loop of `bruteForceMatching`
terminates and its body runs exactly `(n-1)!` times: with `(n-1)!` iterations or more
the loop returns the value of the function, with fewer it is still running;
the vertex vectors of the iterations are, without repetition, the index 0
followed by each arrangement of `1, ..., n-1`, the first of them the ascending
order. -/
theorem bruteLoop_runs_factorial (n : Nat) (hn : n % 2 = 0) (h2 : 2 ≤ n) (dist : CostMatrix) :
    (∃ r, bruteForceMatching (n : Int) dist = some r ∧
        ∀ fuel, Nat.factorial (n - 1) ≤ fuel →
          bruteLoop dist fuel (List.range n) LLONG_MAX = some r) ∧
      (∀ fuel, fuel < Nat.factorial (n - 1) →
        bruteLoop dist fuel (List.range n) LLONG_MAX = none) ∧
      (∀ fuel, Nat.factorial (n - 1) ≤ fuel →
        arrangements fuel (List.range n)
          = arrangements (Nat.factorial (n - 1)) (List.range n)) ∧
      (arrangements (Nat.factorial (n - 1)) (List.range n)).length = Nat.factorial (n - 1) ∧
      (arrangements (Nat.factorial (n - 1)) (List.range n)).Nodup ∧
      (∀ p, p ∈ arrangements (Nat.factorial (n - 1)) (List.range n) ↔
        ∃ q, q.Perm (List.range' 1 (n - 1)) ∧ p = 0 :: q) ∧
      (arrangements (Nat.factorial (n - 1)) (List.range n)).head? = some (List.range n) := by
  have harr : ∀ fuel, Nat.factorial (n - 1) ≤ fuel → arrangements fuel (List.range n)
      = (lexPerms (n - 1) (List.range' 1 (n - 1))).map (fun r => 0 :: r) :=
    fun fuel hf => (bruteLoop_range n (by omega) dist fuel hf).1
  have hlen : (List.range' 1 (n - 1)).length = n - 1 := by simp
  refine ⟨?_, ?_, ?_, ?_, ?_, ?_, ?_⟩
  · refine ⟨((lexPerms (n - 1) (List.range' 1 (n - 1))).map fun r => 0 :: r).foldl
      (fun mc vs => if pairingCost dist 0 vs < mc then pairingCost dist 0 vs else mc)
      LLONG_MAX, ?_, fun fuel hf => ?_⟩
    · unfold bruteForceMatching
      rw [Int.toNat_ofNat, bruteForceMatchingFuel_eq n hn]
      exact (bruteLoop_range n (by omega) dist _ (factorial_pred_le n)).2
    · exact (bruteLoop_range n (by omega) dist fuel hf).2
  · intro fuel hf
    exact bruteLoop_range_short n (by omega) dist fuel hf
  · intro fuel hf
    rw [harr fuel hf, harr _ (le_refl _)]
  · rw [harr _ (le_refl _), List.length_map, length_lexPerms _ _ hlen]
  · rw [harr _ (le_refl _)]
    exact (nodup_lexPerms _ _ (List.nodup_range' 1 (n - 1))).map
      (fun p q h => (List.cons.inj h).2)
  · intro p
    rw [harr _ (le_refl _), List.mem_map]
    constructor
    · rintro ⟨q, hq, rfl⟩
      exact ⟨q, perm_of_mem_lexPerms _ _ q hlen hq, rfl⟩
    · rintro ⟨q, hq, rfl⟩
      exact ⟨q, mem_lexPerms_of_perm _ _ q hlen hq, rfl⟩
  · rw [harr _ (le_refl _)]
    obtain ⟨L, hL, _⟩ := lexPerms_steps (n - 1) (List.range' 1 (n - 1)) hlen
      (List.pairwise_lt_range' 1 (n - 1))
    rw [hL, List.map_cons, List.head?_cons, range_eq_zero_cons n (by omega)]

theorem bruteLoop_runs_factorial_witness :
    (∃ r, bruteForceMatching ((4 : Nat) : Int) exampleMatrix = some r ∧
        ∀ fuel, Nat.factorial (4 - 1) ≤ fuel →
          bruteLoop exampleMatrix fuel (List.range 4) LLONG_MAX = some r) ∧
      (∀ fuel, fuel < Nat.factorial (4 - 1) →
        bruteLoop exampleMatrix fuel (List.range 4) LLONG_MAX = none) ∧
      (∀ fuel, Nat.factorial (4 - 1) ≤ fuel →
        arrangements fuel (List.range 4)
          = arrangements (Nat.factorial (4 - 1)) (List.range 4)) ∧
      (arrangements (Nat.factorial (4 - 1)) (List.range 4)).length = Nat.factorial (4 - 1) ∧
      (arrangements (Nat.factorial (4 - 1)) (List.range 4)).Nodup ∧
      (∀ p, p ∈ arrangements (Nat.factorial (4 - 1)) (List.range 4) ↔
        ∃ q, q.Perm (List.range' 1 (4 - 1)) ∧ p = 0 :: q) ∧
      (arrangements (Nat.factorial (4 - 1)) (List.range 4)).head? = some (List.range 4) :=
  bruteLoop_runs_factorial 4 (by decide) (by decide) exampleMatrix

/-! ## Order, range and reads of the bitmask solver -/

/-- Claim C24: every transition of `stateDPMatching` out of a mask is to a `newMask`
that is numerically greater than the mask and has exactly two more bits
set (the transitions are those recorded by the instrumented loop, whose
table is the table of the solver); hence the entry of a mask is, at every
later point of the increasing-order loop and at its end, what it was when
the loop came to the mask, and every reached mask has an even number of set
bits. -/
theorem entries_discovered_upward (m : Nat) (_hm : m % 2 = 0) (_h30 : m ≤ 30)
    (dist : CostMatrix) :
    (transitionLog m dist).1 = finalTable m dist ∧
      (∀ t, t ∈ (transitionLog m dist).2 →
        t.mask < t.newMask ∧ bitCount m t.newMask = bitCount m t.mask + 2) ∧
      (∀ S k, S ≤ k → dpAt (tableAfter m dist k) S = dpAt (tableAfter m dist S) S) ∧
      (∀ S, S < 2 ^ m → dpAt (finalTable m dist) S = dpAt (tableAfter m dist S) S) ∧
      (∀ S k, S < 2 ^ m → dpAt (tableAfter m dist k) S ≠ LLONG_MAX → bitCount m S % 2 = 0) ∧
      (∀ S, S < 2 ^ m → dpAt (finalTable m dist) S ≠ LLONG_MAX → bitCount m S % 2 = 0) := by
  have hpos := Nat.two_pow_pos m
  have hlog : transitionLog m dist = logAfter m dist (2 ^ m) := by
    unfold transitionLog
    rw [Nat.one_shiftLeft]
    congr 1
    omega
  refine ⟨by rw [hlog, logAfter_fst, finalTable_eq], ?_, ?_, ?_, ?_, ?_⟩
  · intro t ht
    rw [hlog] at ht
    obtain ⟨_, _, g3, g4, g5, g6, _, _⟩ := logAfter_snd m dist (2 ^ m) (le_refl _) t ht
    have hi : t.i < m := by omega
    have hbi : t.mask.testBit t.i = false := by
      rw [g3]
      exact lowestUnset_unset m t.mask (by omega)
    exact ⟨newMask_gt t.mask t.i t.j g4 g6,
      bitCount_newMask m t.mask t.i t.j hi g5 (by omega) hbi g6⟩
  · intro S k hk
    exact tableAfter_stable m dist S k hk
  · intro S hS
    rw [finalTable_eq]
    exact tableAfter_stable m dist S _ (le_of_lt hS)
  · intro S k hS hne
    exact tableAfter_even m dist k S hS hne
  · intro S hS hne
    rw [finalTable_eq] at hne
    exact tableAfter_even m dist _ S hS hne

theorem entries_discovered_upward_witness :
    (transitionLog 4 exampleMatrix).1 = finalTable 4 exampleMatrix ∧
      (∀ t, t ∈ (transitionLog 4 exampleMatrix).2 →
        t.mask < t.newMask ∧ bitCount 4 t.newMask = bitCount 4 t.mask + 2) ∧
      (∀ S k, S ≤ k →
        dpAt (tableAfter 4 exampleMatrix k) S = dpAt (tableAfter 4 exampleMatrix S) S) ∧
      (∀ S, S < 2 ^ 4 →
        dpAt (finalTable 4 exampleMatrix) S = dpAt (tableAfter 4 exampleMatrix S) S) ∧
      (∀ S k, S < 2 ^ 4 → dpAt (tableAfter 4 exampleMatrix k) S ≠ LLONG_MAX →
        bitCount 4 S % 2 = 0) ∧
      (∀ S, S < 2 ^ 4 → dpAt (finalTable 4 exampleMatrix) S ≠ LLONG_MAX →
        bitCount 4 S % 2 = 0) :=
  entries_discovered_upward 4 (by decide) (by decide) exampleMatrix

/-- Claim C28: for every even `m` with `0 ≤ m ≤ 30` and any matrix, the values
`1 << m`, `fullMask` and the last value `fullMask + 1` of the loop counter are
below `2^31`, as are `1 << i` for every `i < m` (the shifts of the `while` loop and
of the loop over `j`) and `newMask`; the table `dp` has `2^m` entries and every index
used on it (the counter `mask ≤ fullMask`, `newMask`, `fullMask`) is below `2^m`;
the indices `i` and `j` of every read `dist[i][j]` are below `m`.  The transitions
are those recorded by the instrumented loop, whose table is the table of the
solver. -/
theorem masks_fit_int (m : Nat) (_hm : m % 2 = 0) (h30 : m ≤ 30) (dist : CostMatrix) :
    ((1 <<< m < 2 ^ 31 ∧ (1 <<< m) - 1 < 2 ^ 31 ∧ (1 <<< m) - 1 + 1 < 2 ^ 31) ∧
        (∀ mask, mask ≤ (1 <<< m) - 1 → mask < 2 ^ m ∧ mask < 2 ^ 31) ∧
        (∀ i, i < m → 1 <<< i < 2 ^ 31) ∧
        (∀ mask, lowestUnset m mask ≤ m)) ∧
      ((initialTable m).length = 2 ^ m ∧ (finalTable m dist).length = 2 ^ m ∧
        (1 <<< m) - 1 < 2 ^ m) ∧
      (transitionLog m dist).1 = finalTable m dist ∧
      (∀ t, t ∈ (transitionLog m dist).2 →
        (t.mask < 2 ^ m ∧ t.newMask < 2 ^ m) ∧ (t.i < m ∧ t.j < m) ∧
          (1 <<< t.i < 2 ^ 31 ∧ 1 <<< t.j < 2 ^ 31 ∧ t.newMask < 2 ^ 31)) := by
  have hpos := Nat.two_pow_pos m
  have hpow : 2 ^ m ≤ 2 ^ 30 := Nat.pow_le_pow_right (by decide) h30
  have h3031 : (2 : Nat) ^ 30 < 2 ^ 31 := by decide
  have hshift : ∀ i, i < m → 1 <<< i < 2 ^ 31 := by
    intro i hi
    rw [Nat.one_shiftLeft]
    exact Nat.pow_lt_pow_right (by decide) (by omega)
  have hlog : transitionLog m dist = logAfter m dist (2 ^ m) := by
    unfold transitionLog
    rw [Nat.one_shiftLeft]
    congr 1
    omega
  refine ⟨⟨⟨?_, ?_, ?_⟩, ?_, hshift, fun mask => lowestUnset_le m mask⟩, ⟨?_, ?_, ?_⟩, ?_, ?_⟩
  · rw [Nat.one_shiftLeft]; omega
  · rw [Nat.one_shiftLeft]; omega
  · rw [Nat.one_shiftLeft]; omega
  · intro mask hmask
    rw [Nat.one_shiftLeft] at hmask
    omega
  · exact initialTable_length m
  · rw [finalTable_eq, tableAfter_length]
  · rw [Nat.one_shiftLeft]; omega
  · rw [hlog, logAfter_fst, finalTable_eq]
  · intro t ht
    rw [hlog] at ht
    obtain ⟨g1, _, _, g4, g5, _, _, _⟩ := logAfter_snd m dist (2 ^ m) (le_refl _) t ht
    have hi : t.i < m := by omega
    have hnew : t.newMask < 2 ^ m := newMask_lt_two_pow m t.mask t.i t.j g1 hi g5
    exact ⟨⟨g1, hnew⟩, ⟨hi, g5⟩, hshift t.i hi, hshift t.j g5, by omega⟩

theorem masks_fit_int_witness :
    ((1 <<< 4 < 2 ^ 31 ∧ (1 <<< 4) - 1 < 2 ^ 31 ∧ (1 <<< 4) - 1 + 1 < 2 ^ 31) ∧
        (∀ mask, mask ≤ (1 <<< 4) - 1 → mask < 2 ^ 4 ∧ mask < 2 ^ 31) ∧
        (∀ i, i < 4 → 1 <<< i < 2 ^ 31) ∧
        (∀ mask, lowestUnset 4 mask ≤ 4)) ∧
      ((initialTable 4).length = 2 ^ 4 ∧ (finalTable 4 exampleMatrix).length = 2 ^ 4 ∧
        (1 <<< 4) - 1 < 2 ^ 4) ∧
      (transitionLog 4 exampleMatrix).1 = finalTable 4 exampleMatrix ∧
      (∀ t, t ∈ (transitionLog 4 exampleMatrix).2 →
        (t.mask < 2 ^ 4 ∧ t.newMask < 2 ^ 4) ∧ (t.i < 4 ∧ t.j < 4) ∧
          (1 <<< t.i < 2 ^ 31 ∧ 1 <<< t.j < 2 ^ 31 ∧ t.newMask < 2 ^ 31)) :=
  masks_fit_int 4 (by decide) (by decide) exampleMatrix

/-- Claim C29: `stateDPMatching` reads only the strictly upper triangle of the matrix:
for every even `m` and every two matrices that agree on all entries `dist[i][j]`
with `i < j < m`, the two calls return the same value (a value is returned as
long as `m ≤ 30`), whatever the entries on and below the diagonal. -/
theorem upper_triangle_decides (m : Nat) (hm : m % 2 = 0) (dist dist' : CostMatrix)
    (hagree : ∀ i j, i < j → j < m → entry dist i j = entry dist' i j) :
    stateDPMatching (m : Int) dist = stateDPMatching (m : Int) dist' ∧
      (m ≤ 30 → ∃ r, stateDPMatching (m : Int) dist = some r ∧
        stateDPMatching (m : Int) dist' = some r) := by
  have htab : finalTable m dist = finalTable m dist' := by
    rw [finalTable_eq, finalTable_eq, tableAfter_congr_dist m dist dist' hagree]
  have heq : stateDPMatching (m : Int) dist = stateDPMatching (m : Int) dist' := by
    unfold stateDPMatching
    rw [Int.toNat_ofNat, htab]
  refine ⟨heq, fun h30 => ⟨_, stateDPMatching_eq m hm (by omega) dist, ?_⟩⟩
  rw [← heq]
  exact stateDPMatching_eq m hm (by omega) dist

theorem upper_triangle_decides_witness :
    stateDPMatching ((4 : Nat) : Int) exampleMatrix
        = stateDPMatching ((4 : Nat) : Int) upperOnlyMatrix ∧
      (4 ≤ 30 → ∃ r, stateDPMatching ((4 : Nat) : Int) exampleMatrix = some r ∧
        stateDPMatching ((4 : Nat) : Int) upperOnlyMatrix = some r) :=
  upper_triangle_decides 4 (by decide) exampleMatrix upperOnlyMatrix (by
    intro i j hij hj
    interval_cases j <;> interval_cases i <;> rfl)

/-! ## The indices of the interval solver on the empty vector -/

/-- Claim C27 fails in the code at the length 0: on the empty vector the loops make
no access, and the final read `dp[0][m - 1]` is `dp[0][-1]` on tables without rows,
outside the tables, so that no value is returned; on every vector of even
length `m ≥ 2` all the index pairs used on `dist` and `dp` lie inside the `m × m`
tables. -/
theorem empty_vector_reads_outside :
    tableAccesses 0 = [(0, -1)] ∧ ¬ InTable 0 (0, -1) ∧
      intervalDPMatching Real.sqrt ([] : List (Point ℝ)) = none ∧
      ∀ m, m % 2 = 0 → 2 ≤ m → ∀ p, p ∈ tableAccesses m → InTable m p := by
  refine ⟨by decide, by decide, ?_, tableAccesses_inTable⟩
  simp [intervalDPMatching]

/-! ## The value of the interval solver on valid input -/

/-- Claim C6, amended: for every even `n ≤ 30` and every `n × n` matrix of
non-negative costs whose perfect-matching sums are at most `2^63 - 1`,
`stateDPMatching(n, dist)` returns a value `≥ 0`, and so does
`bruteForceMatching(n, dist)` when `n ≥ 2`; for every non-empty point sequence of
even length `intervalDPMatching` returns a value `v ≥ 0`, which from four points on
is at most `DBL_MAX` and may be `DBL_MAX` itself. -/
theorem valid_input_nonneg (n : Nat) (hn : n % 2 = 0) (h30 : n ≤ 30) (dist : CostMatrix)
    (_hsq : IsSquare n dist) (hnn : IsNonneg n dist)
    (hsum : ∀ M, IsPerfectMatching n M → matchingCost dist M ≤ 2 ^ 63 - 1)
    {K : Type} [LinearOrderedField K] (sqrt : K → K) (hs : ∀ x, 0 ≤ sqrt x)
    (points : List (Point K)) (hm : points.length % 2 = 0) (hne : points ≠ []) :
    (∃ r, stateDPMatching (n : Int) dist = some r ∧ 0 ≤ r) ∧
      (2 ≤ n → ∃ r, bruteForceMatching (n : Int) dist = some r ∧ 0 ≤ r) ∧
      (∃ v, intervalDPMatching sqrt points = some v ∧ 0 ≤ v ∧
        (4 ≤ points.length → v ≤ (DBL_MAX : K))) := by
  refine ⟨?_, ?_, ?_⟩
  · refine ⟨_, stateDPMatching_eq n hn (by omega) dist, ?_⟩
    have hpos := Nat.two_pow_pos n
    exact tableAfter_nonneg n hn dist hnn hsum (2 ^ n) (le_refl _) (2 ^ n - 1) (by omega)
  · intro h2
    obtain ⟨r, hr, hcases⟩ := bruteForceMatching_cases n hn h2 dist
    refine ⟨r, hr, ?_⟩
    rcases hcases with e | ⟨p, hp, e⟩
    · rw [e]; decide
    · have hP := isPerfectMatching_of_arrangement n hn h2 p hp
      have h1 := hsum _ hP
      have h3 := matchingCost_nonneg n dist hnn _ (perfect_lt n _ hP)
      rw [e, pairingCost_eq dist _ 0 (by decide), zero_add,
        wrap64_of_isLongLong (by unfold IsLongLong; constructor <;> omega)]
      exact h3
  · have hpos : 0 < points.length := List.length_pos.mpr hne
    have hv : intervalDPMatching sqrt points
        = some (tableAt (intervalTable sqrt points) 0 (points.length - 1)) := by
      unfold intervalDPMatching
      rw [if_neg (by omega), if_neg (by omega)]
    refine ⟨_, hv, ?_, ?_⟩
    · obtain ⟨v, hv', hcase⟩ := intervalDPMatching_unset_or_matching sqrt hs points hm hne
      rw [hv] at hv'
      rw [Option.some.inj hv']
      rcases hcase with h | ⟨M, _, h⟩
      · rw [h]; exact le_of_lt dbl_max_pos
      · rw [h]; exact matchingLength_nonneg sqrt hs points M
    · intro h4
      have hrec := intervalTable_recurrence sqrt points hm 0 points.length h4 hm (by omega)
      unfold RecurrenceAt at hrec
      rw [Nat.zero_add] at hrec
      rw [hrec]
      exact (foldl_minStep_spec (distTable sqrt points) (intervalTable sqrt points) 0
        (points.length - 1) (partnersOf 0 points.length) (DBL_MAX : K)).1

theorem valid_input_nonneg_witness :
    (∃ r, stateDPMatching ((4 : Nat) : Int) exampleMatrix = some r ∧ 0 ≤ r) ∧
      (2 ≤ 4 → ∃ r, bruteForceMatching ((4 : Nat) : Int) exampleMatrix = some r ∧ 0 ≤ r) ∧
      (∃ v, intervalDPMatching Real.sqrt (trapezoid ℝ) = some v ∧ 0 ≤ v ∧
        (4 ≤ (trapezoid ℝ).length → v ≤ (DBL_MAX : ℝ))) :=
  valid_input_nonneg 4 (by decide) (by decide) exampleMatrix (by decide) (by decide)
    (fun M hM => by
      have := perfect_cost_le 4 exampleMatrix 6 (by decide) M hM
      omega)
    Real.sqrt Real.sqrt_nonneg (trapezoid ℝ) (by decide) (by simp [trapezoid])

/-! ## The transition sequences the bitmask solver executes -/

/-- Claim C19, as stated, fails: on the symmetric non-negative 4 × 4 matrix
`sentinelMatrix`, whose three perfect matchings cost `2^63 - 1`, 10 and 10, the sum
`dp[0] + dist[0][1]` is `LLONG_MAX`, which is not below the initial `dp[3]`, so `dp[3]`
stays `LLONG_MAX` and the loop skips the mask 3 (line 43): the record has no
transition out of the mask 3, only the two sequences `(0,2),(1,3)` and
`(0,3),(1,2)` lead from the mask 0 to the full mask, not `3!! = 3`, and none of them
has the pairs of the perfect matching `{0,1}, {2,3}`.  The same happens on
`overflowMatrix`. -/
theorem sentinel_cost_skips_sequence :
    IsSquare 4 sentinelMatrix ∧ IsSymmetric 4 sentinelMatrix ∧ IsNonneg 4 sentinelMatrix ∧
      matchingCost sentinelMatrix [(0, 1), (2, 3)] = 2 ^ 63 - 1 ∧
      matchingCost sentinelMatrix [(0, 2), (1, 3)] = 10 ∧
      matchingCost sentinelMatrix [(0, 3), (1, 2)] = 10 ∧
      stateDPMatching 4 sentinelMatrix = some 10 ∧
      IsPerfectMatching 4 [(0, 1), (2, 3)] ∧
      (transitionLog 4 sentinelMatrix).1 = finalTable 4 sentinelMatrix ∧
      dpAt (finalTable 4 sentinelMatrix) 3 = LLONG_MAX ∧
      stepsFrom (transitionLog 4 sentinelMatrix).2 0 = [(0, 1), (0, 2), (0, 3)] ∧
      stepsFrom (transitionLog 4 sentinelMatrix).2 3 = [] ∧
      executedSeqs 4 (transitionLog 4 sentinelMatrix).2 (4 / 2) 0
        = [[(0, 2), (1, 3)], [(0, 3), (1, 2)]] ∧
      (∀ s, s ∈ executedSeqs 4 (transitionLog 4 sentinelMatrix).2 (4 / 2) 0 →
        ¬ SamePairs s [(0, 1), (2, 3)]) ∧
      (executedSeqs 4 (transitionLog 4 sentinelMatrix).2 (4 / 2) 0).length = 2 ∧
      Nat.doubleFactorial (4 - 1) = 3 ∧
      executedSeqs 4 (transitionLog 4 overflowMatrix).2 (4 / 2) 0
        = [[(0, 2), (1, 3)], [(0, 3), (1, 2)]] := by
  have hseq : executedSeqs 4 (transitionLog 4 sentinelMatrix).2 (4 / 2) 0
      = [[(0, 2), (1, 3)], [(0, 3), (1, 2)]] := by decide
  refine ⟨by decide, by decide, by decide, by decide, by decide, by decide, by decide,
    by decide, by decide, by decide, by decide, by decide, hseq, ?_, ?_, by decide, by decide⟩
  · intro s hs hsame
    rw [hseq] at hs
    have h01 := (hsame 0 1).mpr (Or.inl (by decide))
    rcases List.mem_cons.mp hs with rfl | hs
    · revert h01; decide
    · rcases List.mem_cons.mp hs with rfl | hs
      · revert h01; decide
      · cases hs
  · rw [hseq]; rfl

/-- Claim C19, amended: for every even `m`, every matrix of non-negative costs whose
perfect matchings all cost less than `LLONG_MAX = 2^63 - 1`, and every perfect
matching `M` of `{0, ..., m-1}`, the transitions that the loop of `stateDPMatching`
executes contain exactly one sequence from the mask 0 to the full mask whose
pairs are the pairs of `M`; every executed transition pairs the lowest unset index
`i` of its mask with an unset `j > i`; the list of the executed sequences has no
repetition, each of them is a perfect matching, and their number is `(m-1)!!`.
A bound above `m / 2` on the number of transitions changes nothing. -/
theorem executed_sequences_canonical (m : Nat) (hm : m % 2 = 0) (dist : CostMatrix)
    (hnn : IsNonneg m dist)
    (hsum : ∀ P, IsPerfectMatching m P → matchingCost dist P < 2 ^ 63 - 1) :
    (transitionLog m dist).1 = finalTable m dist ∧
      (∀ t, t ∈ (transitionLog m dist).2 →
        dpAt (tableAfter m dist t.mask) t.mask ≠ LLONG_MAX ∧ t.i = lowestUnset m t.mask ∧
          t.i < t.j ∧ t.j < m ∧ t.mask.testBit t.i = false ∧ t.mask.testBit t.j = false) ∧
      (∀ M, IsPerfectMatching m M →
        ∃ s, s ∈ executedSeqs m (transitionLog m dist).2 (m / 2) 0 ∧ SamePairs s M ∧
          ∀ s', s' ∈ executedSeqs m (transitionLog m dist).2 (m / 2) 0 →
            SamePairs s' M → s' = s) ∧
      (executedSeqs m (transitionLog m dist).2 (m / 2) 0).Nodup ∧
      (∀ s, s ∈ executedSeqs m (transitionLog m dist).2 (m / 2) 0 → IsPerfectMatching m s) ∧
      (executedSeqs m (transitionLog m dist).2 (m / 2) 0).length
        = Nat.doubleFactorial (m - 1) ∧
      (∀ fuel, m / 2 ≤ fuel →
        executedSeqs m (transitionLog m dist).2 fuel 0
          = executedSeqs m (transitionLog m dist).2 (m / 2) 0) := by
  obtain ⟨c1, c2, c3, c4, c5⟩ := transitionSeqs_canonical m hm
  have heq := executedSeqs_zero m hm dist hnn hsum
  refine ⟨?_, ?_, ?_, ?_, ?_, ?_, ?_⟩
  · rw [transitionLog_eq, logAfter_fst, finalTable_eq]
  · intro t ht
    rw [transitionLog_eq] at ht
    obtain ⟨_, g2, g3, g4, g5, g6, _, _⟩ := logAfter_snd m dist (2 ^ m) (le_refl _) t ht
    refine ⟨g2, g3, g4, g5, ?_, g6⟩
    rw [g3]
    exact lowestUnset_unset m t.mask (by omega)
  · rw [heq]; exact c1
  · rw [heq]; exact c2
  · rw [heq]; exact c3
  · rw [heq]; exact c4
  · intro fuel hfuel
    rw [heq, heq]; exact c5 fuel hfuel

theorem executed_sequences_canonical_witness :
    (transitionLog 4 exampleMatrix).1 = finalTable 4 exampleMatrix ∧
      (∀ t, t ∈ (transitionLog 4 exampleMatrix).2 →
        dpAt (tableAfter 4 exampleMatrix t.mask) t.mask ≠ LLONG_MAX ∧
          t.i = lowestUnset 4 t.mask ∧
          t.i < t.j ∧ t.j < 4 ∧ t.mask.testBit t.i = false ∧ t.mask.testBit t.j = false) ∧
      (∀ M, IsPerfectMatching 4 M →
        ∃ s, s ∈ executedSeqs 4 (transitionLog 4 exampleMatrix).2 (4 / 2) 0 ∧ SamePairs s M ∧
          ∀ s', s' ∈ executedSeqs 4 (transitionLog 4 exampleMatrix).2 (4 / 2) 0 →
            SamePairs s' M → s' = s) ∧
      (executedSeqs 4 (transitionLog 4 exampleMatrix).2 (4 / 2) 0).Nodup ∧
      (∀ s, s ∈ executedSeqs 4 (transitionLog 4 exampleMatrix).2 (4 / 2) 0 →
        IsPerfectMatching 4 s) ∧
      (executedSeqs 4 (transitionLog 4 exampleMatrix).2 (4 / 2) 0).length
        = Nat.doubleFactorial (4 - 1) ∧
      (∀ fuel, 4 / 2 ≤ fuel →
        executedSeqs 4 (transitionLog 4 exampleMatrix).2 fuel 0
          = executedSeqs 4 (transitionLog 4 exampleMatrix).2 (4 / 2) 0) :=
  executed_sequences_canonical 4 (by decide) exampleMatrix (by decide)
    (fun M hM => by
      have := perfect_cost_le 4 exampleMatrix 6 (by decide) M hM
      omega)

end OddMatching
